import Mathlib

/-!
# A verification development for `find` (devsedlacektom/find)

A shallow embedding of the traversal, result store and comparators of
`src/find.c` and `src/userStructures.c`, and of the parsing of the command
line in `src/arguments.c`.

Modelling conventions.

* A C string is the list of its characters before the terminating NUL
  (`List Char`); a character's value as `unsigned char` is `Char.toNat`, its
  value as plain `char`, which is signed on x86-64, is `charToInt`.
  A `char *` that may be `NULL` is an `Option (List Char)`.
* The file system below the starting directory is a finite tree (`Dir`,
  `Entry`): a `Dir` is what `opendir` and the following `readdir` calls give
  for a path, an `Entry` is one `struct dirent` together with what `lstat`
  gives for it and what `opendir` would give for its path.
* Allocation is an oracle `heap : Nat → Bool`: the `k`-th allocation request
  of the run succeeds iff `heap k`.  The number of requests made so far is
  threaded through the state.
* Undefined behaviour of the C program (a `NULL` dereference, a read or write
  outside the allocated block, a read of an uninitialised slot) is the
  result `none`.
* `depth` is a `size_t`: `depth++` is `(depth + 1) % 2 ^ 64`.  The counters of
  the result store (`arrayIndex`, `arrayAllocatedSize`) count slots of a block
  that is held in memory and are natural numbers.
* Diagnostics on standard error are not modelled; standard output is the list
  of characters written.
* The functions of the C library that the program calls (`strstr`, `strcmp`,
  `tolower`, `qsort`, `strtol`, `isdigit`, `getopt`) are defined as the C
  standard and POSIX describe them, in the "C" locale, with a 32-bit `int` and
  a 64-bit `long`; `tolower` is defined also on the negative values of a
  signed `char`, as in the GNU C library.
-/

namespace Find

/-! ## Data model (`userStructures.h`) -/

/-- The fields of `struct stat` that the program reads. -/
structure Stat where
  st_mode : Nat
  st_uid : Nat
  st_size : Nat
deriving DecidableEq, Repr

mutual
/-- What `opendir(path)` and the `readdir` calls on the handle yield. -/
inductive Dir where
  /-- The call `opendir` returns `NULL`. -/
  | unreadable : Dir
  /-- The call `opendir` succeeds and `readdir` yields these entries, in this order. -/
  | stream (entries : List Entry) : Dir
/-- One directory entry: its `d_name`, the outcome of `lstat` on its path
(`none` when `lstat` fails) and the outcome of `opendir` on its path. -/
inductive Entry where
  | mk (d_name : List Char) (lstat : Option Stat) (dir : Dir) : Entry
end

/-- The name of an entry (`directoryElement->d_name`). -/
def Entry.d_name : Entry → List Char
  | .mk n _ _ => n

/-- The outcome of `lstat` on the path of an entry. -/
def Entry.lstat : Entry → Option Stat
  | .mk _ s _ => s

/-- The outcome of `opendir` on the path of an entry. -/
def Entry.dir : Entry → Dir
  | .mk _ _ d => d

/-- The structure `ParsedArguments` (the field `useless` carries no information). -/
structure ParsedArguments where
  startDirectory : Option (List Char)
  setName : Bool
  nameArg : Option (List Char)
  sortType : Nat
  setMask : Bool
  mask : Int
  setUser : Bool
  usernameArg : Option (List Char)
  setMinimalDepth : Bool
  minimalDepth : Nat
  setMaximalDepth : Bool
  maximalDepth : Nat
  setShowAll : Bool
  lineBreak : Char
  showHelp : Bool
deriving DecidableEq, Repr

/-- The structure `Result`. -/
structure Result where
  filePath : List Char
  fileSize : Nat
deriving DecidableEq, Repr

/-- The structure `Results`.  The block `resultsArray` points to is the list of
its slots (`[]` for `NULL`), a slot being `none` until it is written. -/
structure Results where
  resultsArray : List (Option Result)
  arrayIndex : Nat
  arrayAllocatedSize : Nat
deriving DecidableEq, Repr

/-- The mutable state of a run: the result store and the number of allocation
requests made so far. -/
structure State where
  res : Results
  allocs : Nat
deriving DecidableEq, Repr

/-- The read-only environment of a run: the allocation oracle and the user
database behind `getpwnam` (the `pw_uid` of a user name, `none` for `NULL`). -/
structure Env where
  heap : Nat → Bool
  getpwnam : List Char → Option Nat

/-! ## `userStructures.c` -/

/-- The constant `RESULTS_REALLOCATION`. -/
def RESULTS_REALLOCATION : Nat := 64

/-- The constant `UINT32_MAX`. -/
def UINT32_MAX : Nat := 4294967295

/-- The function `initParsedArguments`. -/
def initParsedArguments : ParsedArguments where
  setName := false
  setUser := false
  setMask := false
  mask := 0
  sortType := 0
  setMinimalDepth := false
  minimalDepth := 0
  setMaximalDepth := false
  maximalDepth := UINT32_MAX
  setShowAll := false
  lineBreak := '\n'
  showHelp := false
  nameArg := none
  usernameArg := none
  startDirectory := none

/-- The function `initResults`. -/
def initResults : Results where
  arrayAllocatedSize := 0
  arrayIndex := 0
  resultsArray := []

/-- The state at the start of a run: the empty store, no allocation made. -/
def initState : State :=
  ⟨initResults, 0⟩

/-- The function `createFilePath`: one `calloc`, then `previousPath`, `"/"` and
`currentElement` are copied into the new string.  Returns the new string
(`none` for the return value `false`) and the new request count. -/
def createFilePath (env : Env) (previousPath currentElement : List Char) (allocs : Nat) :
    Option (List Char) × Nat :=
  if env.heap allocs then
    (some (previousPath ++ '/' :: currentElement), allocs + 1)
  else
    (none, allocs + 1)

/-- The call `realloc(block, n * sizeof(Result))` when it succeeds: the first
`n` slots keep their content, new slots are uninitialised. -/
def reallocSlots (block : List (Option Result)) (n : Nat) : List (Option Result) :=
  (block ++ List.replicate (n - block.length) none).take n

/-- The function `createResult`.  The outer `none` is a write outside the block. -/
def createResult (env : Env) (st : State) (filePath : List Char) (fileSize : Nat) :
    Option (Bool × State) :=
  let res := st.res
  if res.arrayAllocatedSize ≤ res.arrayIndex then
    let newSize := res.arrayAllocatedSize + RESULTS_REALLOCATION
    if env.heap st.allocs then
      let block := reallocSlots res.resultsArray newSize
      if res.arrayIndex < block.length then
        some (true,
          { res := { resultsArray := block.set res.arrayIndex (some ⟨filePath, fileSize⟩),
                     arrayIndex := res.arrayIndex + 1,
                     arrayAllocatedSize := newSize },
            allocs := st.allocs + 1 })
      else none
    else
      some (false, { res := { res with arrayAllocatedSize := newSize }, allocs := st.allocs + 1 })
  else if res.arrayIndex < res.resultsArray.length then
    some (true,
      { res := { res with
                 resultsArray := res.resultsArray.set res.arrayIndex (some ⟨filePath, fileSize⟩),
                 arrayIndex := res.arrayIndex + 1 },
        allocs := st.allocs })
  else none

/-! ## Filters (`find.c`) -/

/-- The permission bits of `<sys/stat.h>`. -/
def S_IRUSR : Nat := 0o400
def S_IWUSR : Nat := 0o200
def S_IXUSR : Nat := 0o100
def S_IRGRP : Nat := 0o040
def S_IWGRP : Nat := 0o020
def S_IXGRP : Nat := 0o010
def S_IROTH : Nat := 0o004
def S_IWOTH : Nat := 0o002
def S_IXOTH : Nat := 0o001

/-- The file-type mask and values of `<sys/stat.h>`. -/
def S_IFMT : Nat := 0o170000
def S_IFDIR : Nat := 0o040000
def S_IFREG : Nat := 0o100000

/-- The macro `S_ISDIR`. -/
def S_ISDIR (m : Nat) : Bool := (m &&& S_IFMT) == S_IFDIR

/-- The macro `S_ISREG`. -/
def S_ISREG (m : Nat) : Bool := (m &&& S_IFMT) == S_IFREG

/-- The function `getMask`. -/
def getMask (statPtr : Stat) : Int :=
  let mask : Int := 0
  let mask := if statPtr.st_mode &&& S_IRUSR ≠ 0 then mask + 400 else mask + 0
  let mask := if statPtr.st_mode &&& S_IWUSR ≠ 0 then mask + 200 else mask + 0
  let mask := if statPtr.st_mode &&& S_IXUSR ≠ 0 then mask + 100 else mask + 0
  let mask := if statPtr.st_mode &&& S_IRGRP ≠ 0 then mask + 40 else mask + 0
  let mask := if statPtr.st_mode &&& S_IWGRP ≠ 0 then mask + 20 else mask + 0
  let mask := if statPtr.st_mode &&& S_IXGRP ≠ 0 then mask + 10 else mask + 0
  let mask := if statPtr.st_mode &&& S_IROTH ≠ 0 then mask + 4 else mask + 0
  let mask := if statPtr.st_mode &&& S_IWOTH ≠ 0 then mask + 2 else mask + 0
  let mask := if statPtr.st_mode &&& S_IXOTH ≠ 0 then mask + 1 else mask + 0
  mask

/-- The function `isHidden`: the first character is `'.'` (the terminator of an
empty name is not). -/
def isHidden (fileName : List Char) : Bool :=
  match fileName with
  | [] => false
  | c :: _ => c == '.'

/-- The library function `strstr`: the suffix of `haystack` that starts at the
first occurrence of `needle`, `none` for `NULL`. -/
def strstr : List Char → List Char → Option (List Char)
  | [], needle => if needle = [] then some [] else none
  | c :: rest, needle =>
    if needle.isPrefixOf (c :: rest) then some (c :: rest) else strstr rest needle

/-- The function `checkName`; `none` when `nameArg` is `NULL` and is handed to `strstr`. -/
def checkName (pArgs : ParsedArguments) (fileName : List Char) : Option Bool :=
  if pArgs.setName then
    match pArgs.nameArg with
    | none => none
    | some nameArg => if strstr fileName nameArg = none then some false else some true
  else some true

/-- The function `checkPermissions`. -/
def checkPermissions (pArgs : ParsedArguments) (permissions : Int) : Bool :=
  if pArgs.setMask then permissions == pArgs.mask else true

/-- The function `checkUser`; `none` when `getpwnam` returns `NULL`, which is
dereferenced. -/
def checkUser (env : Env) (pArgs : ParsedArguments) (statPtr : Stat) : Option Bool :=
  if pArgs.setUser then
    match pArgs.usernameArg with
    | none => none
    | some name =>
      match env.getpwnam name with
      | none => none
      | some pw_uid => some (pw_uid == statPtr.st_uid)
  else some true

/-- The function `checkMinDepth`. -/
def checkMinDepth (pArgs : ParsedArguments) (depth : Nat) : Bool :=
  if pArgs.setMinimalDepth then decide (pArgs.minimalDepth ≤ depth) else true

/-- The function `checkMaxDepth`. -/
def checkMaxDepth (pArgs : ParsedArguments) (depth : Nat) : Bool :=
  if pArgs.setMaximalDepth then decide (pArgs.maximalDepth ≥ depth) else true

/-- The function `checkHidden`. -/
def checkHidden (pArgs : ParsedArguments) (fileName : List Char) : Bool :=
  if pArgs.setShowAll then true else !isHidden fileName

/-- The condition of `findRecursive` on a regular file (find.c:361-365), with
the short-circuit evaluation of `&&`:
`checkName && checkPermissions && checkUser && checkMinDepth && checkHidden`. -/
def checkFile (env : Env) (pArgs : ParsedArguments) (d_name : List Char) (buf : Stat)
    (depth : Nat) : Option Bool :=
  match checkName pArgs d_name with
  | none => none
  | some false => some false
  | some true =>
    if checkPermissions pArgs (getMask buf) then
      match checkUser env pArgs buf with
      | none => none
      | some false => some false
      | some true => some (checkMinDepth pArgs depth && checkHidden pArgs d_name)
    else some false

/-! ## Traversal (`find.c`) -/

mutual
/-- The function `findRecursive`: `dir` is what `opendir(baseDirectory)` yields. -/
def findRecursive (env : Env) (pArgs : ParsedArguments) (baseDirectory : List Char) :
    Dir → State → Nat → Option (Bool × State)
  | .unreadable, st, depth => if depth = 0 then some (false, st) else some (true, st)
  | .stream entries, st, depth =>
    findLoop env pArgs baseDirectory ((depth + 1) % 2 ^ 64) entries st true
/-- The `while` loop of `findRecursive` over the entries `readdir` still has to
yield, with the current value of `resultRec`; the value is what
`findRecursive` returns. -/
def findLoop (env : Env) (pArgs : ParsedArguments) (baseDirectory : List Char) (depth : Nat) :
    List Entry → State → Bool → Option (Bool × State)
  | [], st, resultRec => some (resultRec, st)
  | e :: rest, st, resultRec =>
    if !resultRec then some (resultRec, st)
    else if e.d_name = ['.'] ∨ e.d_name = ['.', '.'] then
      findLoop env pArgs baseDirectory depth rest st resultRec
    else
      match createFilePath env baseDirectory e.d_name st.allocs with
      | (none, allocs) => some (false, { st with allocs := allocs })
      | (some currentPath, allocs) =>
        let st := { st with allocs := allocs }
        match e.lstat with
        | none => findLoop env pArgs baseDirectory depth rest st resultRec
        | some buf =>
          if S_ISDIR buf.st_mode then
            if !isHidden e.d_name || pArgs.setShowAll then
              match findEntry env pArgs currentPath e st depth with
              | none => none
              | some (r, st) => findLoop env pArgs baseDirectory depth rest st r
            else findLoop env pArgs baseDirectory depth rest st resultRec
          else if S_ISREG buf.st_mode then
            match checkFile env pArgs e.d_name buf depth with
            | none => none
            | some false => findLoop env pArgs baseDirectory depth rest st resultRec
            | some true =>
              if !checkMaxDepth pArgs depth then some (resultRec, st)
              else
                match createResult env st currentPath buf.st_size with
                | none => none
                | some (false, st) => some (false, st)
                | some (true, st) => findLoop env pArgs baseDirectory depth rest st resultRec
          else findLoop env pArgs baseDirectory depth rest st resultRec
/-- The recursive call `findRecursive(pArgs, currentPath, res, depth)` on the
directory of an entry. -/
def findEntry (env : Env) (pArgs : ParsedArguments) (currentPath : List Char) :
    Entry → State → Nat → Option (Bool × State)
  | .mk _ _ d, st, depth => findRecursive env pArgs currentPath d st depth
end

/-! ## Comparators (`find.c`) -/

/-- The function `getFileName`: `go iter filePath` is the loop with the two
pointers of the source. -/
def getFileName (filePath : List Char) : List Char :=
  go filePath filePath
where
  go : List Char → List Char → List Char
    | [], filePath => filePath
    | c :: iter, filePath => if c = '/' then go iter iter else go iter filePath

/-- The library function `strcmp`: the sign of the result is that of the
comparison of the first differing characters as `unsigned char`, a proper
prefix being smaller. -/
def strcmp : List Char → List Char → Int
  | [], [] => 0
  | [], _ :: _ => -1
  | _ :: _, [] => 1
  | a :: s, b :: t =>
    if a.toNat ≠ b.toNat then (a.toNat : Int) - (b.toNat : Int) else strcmp s t

/-- The value of a plain `char` converted to `int`.  The type `char` is signed
on x86-64: the bytes from 128 on have the values -128 to -1. -/
def charToInt (c : Char) : Int :=
  if c.toNat < 128 then (c.toNat : Int) else (c.toNat : Int) - 256

/-- The library function `tolower` in the "C" locale: an upper-case letter
becomes the lower-case letter and every other value is returned as it is, also
the negative values of a signed `char`, which the table of the GNU C library
covers (`tolower(-1)` is -1, the value of `EOF`). -/
def tolower (c : Int) : Int :=
  if ('A'.toNat : Int) ≤ c ∧ c ≤ ('Z'.toNat : Int) then c + 32 else c

/-- The function `strCmpCI`.  It passes the characters to `tolower` as plain
`char`, without a conversion to `unsigned char`. -/
def strCmpCI : List Char → List Char → Int
  | a :: strOnePtr, b :: strTwoPtr =>
    let chOne := tolower (charToInt a)
    let chTwo := tolower (charToInt b)
    if chOne - chTwo ≠ 0 then chOne - chTwo else strCmpCI strOnePtr strTwoPtr
  | [], _ :: _ => -1
  | _ :: _, [] => 1
  | [], [] => 0

/-- The function `sortByFileName`. -/
def sortByFileName (resultOne resultTwo : Result) : Int :=
  let fileNameOne := getFileName resultOne.filePath
  let fileNameTwo := getFileName resultTwo.filePath
  let result := strCmpCI fileNameOne fileNameTwo
  if result ≠ 0 then result
  else strcmp resultOne.filePath resultTwo.filePath

/-- The function `sortByFileSize`. -/
def sortByFileSize (resultOne resultTwo : Result) : Int :=
  let sizeOne := resultOne.fileSize
  let sizeTwo := resultTwo.fileSize
  if sizeOne > sizeTwo then -1
  else if sizeOne < sizeTwo then 1
  else sortByFileName resultOne resultTwo

/-- The function `sortByFilePath`. -/
def sortByFilePath (resultOne resultTwo : Result) : Int :=
  strcmp resultOne.filePath resultTwo.filePath

/-- The type of a sorting routine with the interface of `qsort`: a comparator
and the elements to sort. -/
abbrev Sorter := (Result → Result → Int) → List Result → List Result

/-- An insertion sort with the interface of the library function `qsort`: one
of the algorithms a C library may use. -/
def qsort : Sorter :=
  fun compar base => base.insertionSort (fun a b => compar a b ≤ 0)

/-- The table `sortType` of `sortResults`. -/
def sortTypeTable : List (Result → Result → Int) :=
  [sortByFileName, sortByFilePath, sortByFileSize]

/-- The content of a run of slots, read in order: `none` when one of them is
uninitialised. -/
def readSlots : List (Option Result) → Option (List Result)
  | [] => some []
  | none :: _ => none
  | some r :: rest =>
    match readSlots rest with
    | none => none
    | some rs => some (r :: rs)

/-- The first `arrayIndex` slots of the store, read in order: `none` when one
of them lies outside the block or is uninitialised. -/
def Results.read (res : Results) : Option (List Result) :=
  if res.arrayIndex ≤ res.resultsArray.length then
    readSlots (res.resultsArray.take res.arrayIndex)
  else none

/-- The function `sortResults` with the sorting routine `sort` for `qsort`;
`none` when `sortType` is no index of the table or the elements cannot be read. -/
def sortResults (sort : Sorter) (pArgs : ParsedArguments) (res : Results) : Option Results :=
  match sortTypeTable[pArgs.sortType]? with
  | none => none
  | some compar =>
    match res.read with
    | none => none
    | some elems =>
      some { res with
             resultsArray := (sort compar elems).map some ++ res.resultsArray.drop res.arrayIndex }

/-- The function `printResults`: the characters written to standard output. -/
def printResults (pArgs : ParsedArguments) (res : Results) : Option (List Char) :=
  match res.read with
  | none => none
  | some elems => some (elems.flatMap (fun current => current.filePath ++ [pArgs.lineBreak]))

/-- The function `find` on the file system `root` (what `opendir` yields for
the starting directory): the return value and the standard output. -/
def find (env : Env) (sort : Sorter) (pArgs : ParsedArguments) (root : Dir) :
    Option (Bool × List Char) :=
  if pArgs.showHelp then some (true, [])
  else
    let results := initResults
    let start := pArgs.startDirectory.getD ['.']
    match findRecursive env pArgs start root ⟨results, 0⟩ 0 with
    | none => none
    | some (resultOfRecursion, st) =>
      if resultOfRecursion then
        match sortResults sort pArgs st.res with
        | none => none
        | some sorted =>
          match printResults pArgs sorted with
          | none => none
          | some out => some (resultOfRecursion, out)
      else some (resultOfRecursion, [])

/-! ## Option setters (`arguments.c`) -/

/-- The function `setSort`: `none` for the return value `false`. -/
def setSort (pArgs : ParsedArguments) (arg : List Char) : Option ParsedArguments :=
  if arg = ['f'] then some { pArgs with sortType := 1 }
  else if arg = ['s'] then some { pArgs with sortType := 2 }
  else none

/-- The function `setHiddenFiles`. -/
def setHiddenFiles (pArgs : ParsedArguments) : ParsedArguments :=
  { pArgs with setShowAll := true }

/-- The function `setNullCharTerminator`. -/
def setNullCharTerminator (pArgs : ParsedArguments) : ParsedArguments :=
  { pArgs with lineBreak := Char.ofNat 0 }

/-! ## The traversal with its trace (`find.c`) -/

/-- What a run of `findRecursive` does besides computing its result: a call of
`opendir` (the first statement of `findRecursive`, with the path and the value
of `depth` of that call), a result appended by a successful `createResult`, and
an allocation that failed in `createFilePath` or in `createResult`. -/
inductive Event
  | opendir (baseDirectory : List Char) (depth : Nat)
  | stored (result : Result)
  | outOfMemory
deriving DecidableEq, Repr

mutual
/-- The function `findRecursive` once more, returning also the events of the
call in the order in which they happen. -/
def findRecursiveTrace (env : Env) (pArgs : ParsedArguments) (baseDirectory : List Char) :
    Dir → State → Nat → List Event × Option (Bool × State)
  | .unreadable, st, depth =>
    ([.opendir baseDirectory depth], if depth = 0 then some (false, st) else some (true, st))
  | .stream entries, st, depth =>
    let run := findLoopTrace env pArgs baseDirectory ((depth + 1) % 2 ^ 64) entries st true
    (.opendir baseDirectory depth :: run.1, run.2)
/-- The `while` loop of `findRecursive` with its events. -/
def findLoopTrace (env : Env) (pArgs : ParsedArguments) (baseDirectory : List Char)
    (depth : Nat) : List Entry → State → Bool → List Event × Option (Bool × State)
  | [], st, resultRec => ([], some (resultRec, st))
  | e :: rest, st, resultRec =>
    if !resultRec then ([], some (resultRec, st))
    else if e.d_name = ['.'] ∨ e.d_name = ['.', '.'] then
      findLoopTrace env pArgs baseDirectory depth rest st resultRec
    else
      match createFilePath env baseDirectory e.d_name st.allocs with
      | (none, allocs) => ([.outOfMemory], some (false, { st with allocs := allocs }))
      | (some currentPath, allocs) =>
        let st := { st with allocs := allocs }
        match e.lstat with
        | none => findLoopTrace env pArgs baseDirectory depth rest st resultRec
        | some buf =>
          if S_ISDIR buf.st_mode then
            if !isHidden e.d_name || pArgs.setShowAll then
              match findEntryTrace env pArgs currentPath e st depth with
              | (events, none) => (events, none)
              | (events, some (r, st)) =>
                let run := findLoopTrace env pArgs baseDirectory depth rest st r
                (events ++ run.1, run.2)
            else findLoopTrace env pArgs baseDirectory depth rest st resultRec
          else if S_ISREG buf.st_mode then
            match checkFile env pArgs e.d_name buf depth with
            | none => ([], none)
            | some false => findLoopTrace env pArgs baseDirectory depth rest st resultRec
            | some true =>
              if !checkMaxDepth pArgs depth then ([], some (resultRec, st))
              else
                match createResult env st currentPath buf.st_size with
                | none => ([], none)
                | some (false, st) => ([.outOfMemory], some (false, st))
                | some (true, st) =>
                  let run := findLoopTrace env pArgs baseDirectory depth rest st resultRec
                  (.stored ⟨currentPath, buf.st_size⟩ :: run.1, run.2)
          else findLoopTrace env pArgs baseDirectory depth rest st resultRec
/-- The recursive call of `findRecursive` on the directory of an entry, with
its events. -/
def findEntryTrace (env : Env) (pArgs : ParsedArguments) (currentPath : List Char) :
    Entry → State → Nat → List Event × Option (Bool × State)
  | .mk _ _ d, st, depth => findRecursiveTrace env pArgs currentPath d st depth
end

/-! ## Parsing of the command line (`arguments.c`) -/

/-- The limit `INT_MAX` of a 32-bit `int`. -/
def INT_MAX : Int := 2 ^ 31 - 1

/-- The limit `INT_MIN` of a 32-bit `int`. -/
def INT_MIN : Int := -2 ^ 31

/-- The limit `LONG_MAX` of a 64-bit `long`. -/
def LONG_MAX : Int := 2 ^ 63 - 1

/-- The limit `LONG_MIN` of a 64-bit `long`. -/
def LONG_MIN : Int := -2 ^ 63

/-- The C library function `isdigit` in the "C" locale. -/
def isdigit (c : Char) : Bool :=
  48 ≤ c.toNat && c.toNat ≤ 57

/-- The C library function `isspace` in the "C" locale: space, `\t`, `\n`,
`\v`, `\f`, `\r`. -/
def isspace (c : Char) : Bool :=
  c.toNat = 32 || (9 ≤ c.toNat && c.toNat ≤ 13)

/-- The white space that `strtol` skips at the start of the string. -/
def skipSpace : List Char → List Char
  | [] => []
  | c :: s => if isspace c then skipSpace s else c :: s

/-- The value of the longest prefix of decimal digits, after the value `acc`
of the digits already read. -/
def strtolDigits : Nat → List Char → Nat
  | acc, [] => acc
  | acc, c :: s => if isdigit c then strtolDigits (10 * acc + (c.toNat - 48)) s else acc

/-- The C library call `strtol(nptr, NULL, 10)` with a 64-bit `long`: white
space is skipped, then an optional sign and the longest run of decimal digits
are converted; the value is 0 when there is no digit and is clamped to
`LONG_MIN` and `LONG_MAX`. -/
def strtol (nptr : List Char) : Int :=
  match skipSpace nptr with
  | '-' :: s => max LONG_MIN (-(strtolDigits 0 s : Int))
  | '+' :: s => min LONG_MAX (strtolDigits 0 s : Int)
  | s => min LONG_MAX (strtolDigits 0 s : Int)

/-- The function `isOpt`: `argument[0] == '-'`. -/
def isOpt (argument : List Char) : Bool :=
  match argument with
  | c :: _ => c == '-'
  | [] => false

/-- The function `parseOpt`: the index of an option character in the table of
the setters. -/
def parseOpt (opt : Char) : Nat :=
  if opt = 'n' then 0
  else if opt = 's' then 1
  else if opt = 'm' then 2
  else if opt = 'u' then 3
  else if opt = 'f' then 4
  else if opt = 't' then 5
  else if opt = 'a' then 6
  else if opt = '0' then 7
  else if opt = 'h' then 8
  else 9

/-- The function `isOnlyDigits`. -/
def isOnlyDigits : List Char → Bool
  | [] => true
  | c :: arg => if !isdigit c then false else isOnlyDigits arg

/-- The function `isAllZero`. -/
def isAllZero : List Char → Bool
  | [] => true
  | c :: arg => if c != '0' then false else isAllZero arg

/-- The loop of `isCorrectMask`, run for at most `fuel` tests of its condition:
`none` when the fuel runs out.  The division `/` and the remainder `%` of C
truncate towards zero. -/
def isCorrectMaskLoop : Nat → Int → Option Bool
  | 0, _ => none
  | fuel + 1, mask =>
    if mask = 0 then some true
    else if mask.tmod 10 > 7 then some false
    else isCorrectMaskLoop fuel (mask.tdiv 10)

/-- The function `isCorrectMask`.  The absolute value of `mask` decreases with
every division, so `|mask| + 1` tests of the condition are enough
(`isCorrectMask_isSome`). -/
def isCorrectMask (mask : Int) : Option Bool :=
  isCorrectMaskLoop (mask.natAbs + 1) mask

/-- The function `parseNumberFromArg`: the number stored in `*num`, `none` for
the return value `false`. -/
def parseNumberFromArg (arg : List Char) : Option Int :=
  let parsed := strtol arg
  if parsed < INT_MIN ∨ parsed > INT_MAX then none
  else if parsed = 0 then
    if !isAllZero arg then none else some parsed
  else
    if !isOnlyDigits arg then none else some parsed

/-- The function `setName`: `none` for the return value `false`. -/
def setName (pArgs : ParsedArguments) (arg : List Char) : Option ParsedArguments :=
  if isOpt arg then none
  else some { pArgs with setName := true, nameArg := some arg }

/-- The function `setMask`: `none` for the return value `false`. -/
def setMask (pArgs : ParsedArguments) (arg : List Char) : Option ParsedArguments :=
  match parseNumberFromArg arg with
  | none => none
  | some maskNum =>
    match isCorrectMask maskNum with
    | some true => some { pArgs with setMask := true, mask := maskNum }
    | _ => none

/-- The function `setUser`: `none` for the return value `false`. -/
def setUser (env : Env) (pArgs : ParsedArguments) (arg : List Char) : Option ParsedArguments :=
  if isOpt arg then none
  else if (env.getpwnam arg).isNone then none
  else some { pArgs with setUser := true, usernameArg := some arg }

/-- The function `setMinDepth`: `none` for the return value `false`.  The
assignment to the `uint32_t` field converts the `int`. -/
def setMinDepth (pArgs : ParsedArguments) (arg : List Char) : Option ParsedArguments :=
  match parseNumberFromArg arg with
  | none => none
  | some minDepth =>
    some { pArgs with setMinimalDepth := true, minimalDepth := (minDepth % 2 ^ 32).toNat }

/-- The function `setMaxDepth`: `none` for the return value `false`.  The
assignment to the `uint32_t` field converts the `int`. -/
def setMaxDepth (pArgs : ParsedArguments) (arg : List Char) : Option ParsedArguments :=
  match parseNumberFromArg arg with
  | none => none
  | some maxDepth =>
    some { pArgs with setMaximalDepth := true, maximalDepth := (maxDepth % 2 ^ 32).toNat }

/-- The function `setHelp`. -/
def setHelp (pArgs : ParsedArguments) : ParsedArguments :=
  { pArgs with showHelp := true }

/-- The option string that `parseArguments` passes to `getopt`. -/
def optstring : List Char :=
  "n:s:m:u:f:t:a0h".toList

/-- What `getopt` finds for a character in an option string: `none` when it is
not an option character, otherwise whether the option takes an argument (a
colon follows it in the option string). -/
def lookupOption : List Char → Char → Option Bool
  | [], _ => none
  | o :: rest, c =>
    if o = c ∧ c ≠ ':' then some (rest.head? == some ':')
    else lookupOption rest c

/-- The call `(*parseActions[parseOpt(optResult)])(pArgs, optarg)` in
`parseArguments`: `none` for the return value `false`.  The setters that read
their argument are reached with the argument that `getopt` provides. -/
def parseActions (env : Env) (pArgs : ParsedArguments) (optResult : Char)
    (optarg : Option (List Char)) : Option ParsedArguments :=
  match parseOpt optResult, optarg with
  | 0, some arg => setName pArgs arg
  | 1, some arg => setSort pArgs arg
  | 2, some arg => setMask pArgs arg
  | 3, some arg => setUser env pArgs arg
  | 4, some arg => setMinDepth pArgs arg
  | 5, some arg => setMaxDepth pArgs arg
  | 6, _ => some (setHiddenFiles pArgs)
  | 7, _ => some (setNullCharTerminator pArgs)
  | 8, _ => some (setHelp pArgs)
  | _, _ => none

/-- The calls of `getopt` on the option characters of one element `-abc` of
`argv`, each followed by the setter of the option, as in the first loop of
`parseArguments`.  An option that takes an argument takes the rest of the
element or, when nothing is left of it, the next element of `argv`.  The result
is `none` when `getopt` returns `'?'` (unknown option, missing argument) or a
setter returns `false`; otherwise the new configuration, and whether the next
element of `argv` was taken as an argument. -/
def scanElement (env : Env) :
    ParsedArguments → List Char → Option (List Char) → Option (ParsedArguments × Bool)
  | pArgs, [], _ => some (pArgs, false)
  | pArgs, c :: cluster, next =>
    match lookupOption optstring c with
    | none => none
    | some false =>
      match parseActions env pArgs c none with
      | none => none
      | some pArgs => scanElement env pArgs cluster next
    | some true =>
      match cluster, next with
      | [], none => none
      | [], some optarg => (parseActions env pArgs c (some optarg)).map fun p => (p, true)
      | _ :: _, _ => (parseActions env pArgs c (some cluster)).map fun p => (p, false)

/-- The first loop of `parseArguments` over the elements of `argv` after
`argv[0]`: the calls of `getopt` until it returns -1, each followed by the
setter of the option.  `getopt` stops at `--`.  At an element that is not an
option (it does not start with `-`, or it is `-`), the `getopt` of POSIX stops;
the `getopt` of the GNU C library (`permute`) goes on and moves such elements
behind the options.  The result is `none` when `parseArguments` returns
`false` in this loop; otherwise the configuration and the elements of `argv`
after `argv[0]` as `getopt` leaves them: the options with their arguments, and
the elements behind them. -/
def getoptLoop (env : Env) (permute : Bool) :
    ParsedArguments → List (List Char) →
      Option (ParsedArguments × List (List Char) × List (List Char))
  | pArgs, [] => some (pArgs, [], [])
  | pArgs, arg :: rest =>
    if arg = ['-', '-'] then some (pArgs, [arg], rest)
    else if isOpt arg ∧ arg ≠ ['-'] then
      match scanElement env pArgs arg.tail rest.head? with
      | none => none
      | some (pArgs, false) =>
        match getoptLoop env permute pArgs rest with
        | none => none
        | some (pArgs, options, operands) => some (pArgs, arg :: options, operands)
      | some (pArgs, true) =>
        match rest with
        | [] => none
        | optarg :: rest =>
          match getoptLoop env permute pArgs rest with
          | none => none
          | some (pArgs, options, operands) => some (pArgs, arg :: optarg :: options, operands)
    else if permute then
      match getoptLoop env permute pArgs rest with
      | none => none
      | some (pArgs, options, operands) => some (pArgs, options, arg :: operands)
    else some (pArgs, [], arg :: rest)

/-- The second loop of `parseArguments`, from the element `argv[i]` on: an
element that starts with `-` is skipped, together with the element after it
when its second character is one of `n`, `s`, `m`, `u`, `f`, `t`; the first
other element becomes the starting directory. -/
def startDirectoryLoop (pArgs : ParsedArguments) : List (List Char) → ParsedArguments
  | [] => pArgs
  | arg :: rest =>
    if isOpt arg then
      if parseOpt (arg.getD 1 (Char.ofNat 0)) ≤ 5 then
        match rest with
        | [] => pArgs
        | _ :: rest => startDirectoryLoop pArgs rest
      else startDirectoryLoop pArgs rest
    else { pArgs with startDirectory := some arg }

/-- The function `parseArguments`: the configuration it leaves in `*pArgs`,
`none` for the return value `false`. -/
def parseArguments (env : Env) (permute : Bool) (pArgs : ParsedArguments)
    (argv : List (List Char)) : Option ParsedArguments :=
  match getoptLoop env permute pArgs argv.tail with
  | none => none
  | some (pArgs, options, operands) => some (startDirectoryLoop pArgs (options ++ operands))

/-! ## Specification-side definitions -/

/-- A candidate (spec §3): a regular file the traversal is to evaluate, with
its entry name, full path, metadata, the depth at which it is evaluated and
the names of the directories descended through below the starting directory. -/
structure Candidate where
  name : List Char
  path : List Char
  stat : Stat
  depth : Nat
  trail : List (List Char)
deriving DecidableEq, Repr

/-- The result recorded for a candidate: its path and size. -/
def Candidate.toResult (c : Candidate) : Result :=
  ⟨c.path, c.stat.st_size⟩

mutual
/-- The candidates below a directory at depth `depth`: those of its entries,
one level deeper; none when the directory cannot be opened. -/
def candidatesDir (showAll : Bool) (base : List Char) (trail : List (List Char)) :
    Dir → Nat → List Candidate
  | .unreadable, _ => []
  | .stream entries, depth => candidatesList showAll base trail (depth + 1) entries
/-- The candidates among the entries of a directory whose entries are at depth
`depth`, in the order of the directory stream. -/
def candidatesList (showAll : Bool) (base : List Char) (trail : List (List Char))
    (depth : Nat) : List Entry → List Candidate
  | [] => []
  | e :: rest =>
    candidatesEntry showAll base trail depth e ++ candidatesList showAll base trail depth rest
/-- The candidates an entry contributes: itself when it is a regular file, those
below it when it is a directory that is not hidden or show-all is set; nothing for
`.` and `..`, for an entry whose metadata cannot be read and for other types. -/
def candidatesEntry (showAll : Bool) (base : List Char) (trail : List (List Char))
    (depth : Nat) : Entry → List Candidate
  | .mk d_name lstat dir =>
    if d_name = ['.'] ∨ d_name = ['.', '.'] then []
    else
      match lstat with
      | none => []
      | some buf =>
        if S_ISDIR buf.st_mode then
          if !isHidden d_name || showAll then
            candidatesDir showAll (base ++ '/' :: d_name) (trail ++ [d_name]) dir depth
          else []
        else if S_ISREG buf.st_mode then
          [{ name := d_name, path := base ++ '/' :: d_name, stat := buf, depth := depth,
             trail := trail }]
        else []
end

/-- The acceptance of a candidate: every filter of the conjunction returns true
and so does the maximum-depth filter. -/
def accepts (env : Env) (pArgs : ParsedArguments) (c : Candidate) : Bool :=
  checkName pArgs c.name == some true &&
  checkPermissions pArgs (getMask c.stat) &&
  checkUser env pArgs c.stat == some true &&
  checkMinDepth pArgs c.depth &&
  checkHidden pArgs c.name &&
  checkMaxDepth pArgs c.depth

/-- The results the traversal of `dir` is to store: the accepted candidates, in
the order of discovery. -/
def expectedResults (env : Env) (pArgs : ParsedArguments) (base : List Char) (dir : Dir)
    (depth : Nat) : List Result :=
  ((candidatesDir pArgs.setShowAll base [] dir depth).filter (accepts env pArgs)).map
    Candidate.toResult

mutual
/-- The number of nested directory levels of a directory. -/
def Dir.height : Dir → Nat
  | .unreadable => 0
  | .stream entries => heightList entries + 1
/-- The largest height of the directories of the entries. -/
def heightList : List Entry → Nat
  | [] => 0
  | e :: rest => max (Entry.height e) (heightList rest)
/-- The height of the directory of an entry. -/
def Entry.height : Entry → Nat
  | .mk _ _ dir => Dir.height dir
end

/-- A configuration as `parseArguments` produces it: with `-n` a name is
present, with `-u` the user name is present and known to `getpwnam`. -/
def validArguments (env : Env) (pArgs : ParsedArguments) : Bool :=
  (!pArgs.setName || pArgs.nameArg.isSome) &&
  (!pArgs.setUser ||
    match pArgs.usernameArg with
    | none => false
    | some name => (env.getpwnam name).isSome)

/-- The store holds exactly the results `l`: they fill the slots below
`arrayIndex`, and the block has `arrayAllocatedSize` slots. -/
structure Results.Holds (res : Results) (l : List Result) : Prop where
  index : res.arrayIndex = l.length
  size : res.resultsArray.length = res.arrayAllocatedSize
  slots : ∃ free, res.resultsArray = l.map some ++ free

/-- The results stored for a list of candidates: those of the accepted ones, in
the same order. -/
def storedFor (env : Env) (pArgs : ParsedArguments) (cs : List Candidate) : List Result :=
  (cs.filter (accepts env pArgs)).map Candidate.toResult

/-- The call `opendir` on the directory succeeds. -/
def Dir.opens : Dir → Bool
  | .unreadable => false
  | .stream _ => true

mutual
/-- Every directory below (and including) this one opens and every `lstat` on
an entry below it succeeds. -/
def Dir.noFailure : Dir → Bool
  | .unreadable => false
  | .stream entries => noFailureList entries
/-- Every entry of the list has metadata and, when it is a directory, opens
without failure below it; the entries `.` and `..` are not examined. -/
def noFailureList : List Entry → Bool
  | [] => true
  | e :: rest => Entry.noFailure e && noFailureList rest
/-- The entry has metadata and, when it is a directory, opens without failure
below it. -/
def Entry.noFailure : Entry → Bool
  | .mk d_name lstat dir =>
    if d_name = ['.'] ∨ d_name = ['.', '.'] then true
    else
      match lstat with
      | none => false
      | some buf => if S_ISDIR buf.st_mode then Dir.noFailure dir else true
end

/-- No filter is set: no name, mask, owner, minimum-depth or maximum-depth option. -/
def noFilters (pArgs : ParsedArguments) : Bool :=
  !pArgs.setName && !pArgs.setMask && !pArgs.setUser && !pArgs.setMinimalDepth &&
    !pArgs.setMaximalDepth

/-- The regular files reachable from the root without descending into
directories excluded by the hidden-file rule (hidden directories while show-all
is unset), as the specification words it. -/
def reachableRegularFiles (showAll : Bool) (base : List Char) (root : Dir) : List Candidate :=
  candidatesDir showAll base [] root 0

/-- The results a traversal from the empty store produces: the content of the
store when `findRecursive`, started at depth 0, has returned. -/
def traversalResults (env : Env) (pArgs : ParsedArguments) (base : List Char) (root : Dir) :
    Option (List Result) :=
  match findRecursive env pArgs base root initState 0 with
  | none => none
  | some (_, st) => st.res.read

mutual
/-- Every regular file below a directory that opens, whatever the names on the
way to it: the hidden-file rule plays no part. -/
def regularFilesDir (base : List Char) (trail : List (List Char)) : Dir → Nat → List Candidate
  | .unreadable, _ => []
  | .stream entries, depth => regularFilesList base trail (depth + 1) entries
/-- Every regular file among and below the entries of a directory. -/
def regularFilesList (base : List Char) (trail : List (List Char)) (depth : Nat) :
    List Entry → List Candidate
  | [] => []
  | e :: rest => regularFilesEntry base trail depth e ++ regularFilesList base trail depth rest
/-- The entry when it is a regular file, every regular file below it when it is
a directory. -/
def regularFilesEntry (base : List Char) (trail : List (List Char)) (depth : Nat) :
    Entry → List Candidate
  | .mk d_name lstat dir =>
    if d_name = ['.'] ∨ d_name = ['.', '.'] then []
    else
      match lstat with
      | none => []
      | some buf =>
        if S_ISDIR buf.st_mode then
          regularFilesDir (base ++ '/' :: d_name) (trail ++ [d_name]) dir depth
        else if S_ISREG buf.st_mode then
          [{ name := d_name, path := base ++ '/' :: d_name, stat := buf, depth := depth,
             trail := trail }]
        else []
end

/-- The path made of a starting directory and the entry names appended below
it, each after a separator. -/
def joinPath (base : List Char) (names : List (List Char)) : List Char :=
  base ++ names.flatMap (fun n => '/' :: n)

/-- A comparator that `qsort` may be given: swapping the arguments swaps the
sign of the result, and "not greater" is transitive. -/
structure WeakCmp (cmp : Result → Result → Int) : Prop where
  swap : ∀ a b, cmp b a < 0 ↔ 0 < cmp a b
  le_trans : ∀ a b c, cmp a b ≤ 0 → cmp b c ≤ 0 → cmp a c ≤ 0

/-- The contract of the library function `qsort`: for such a comparator the
outcome is a rearrangement of the elements in which no element is greater than
a later one. -/
def SorterContract (sort : Sorter) : Prop :=
  ∀ (compar : Result → Result → Int) (base : List Result), WeakCmp compar →
    (sort compar base).Perm base ∧ (sort compar base).Pairwise (fun a b => compar a b ≤ 0)

/-- The outcome of a traversal from the empty store: the value `findRecursive`
returns at depth 0 and the content of the store at that point. -/
def traversalOutcome (env : Env) (pArgs : ParsedArguments) (base : List Char) (root : Dir) :
    Option (Bool × Option (List Result)) :=
  match findRecursive env pArgs base root initState 0 with
  | none => none
  | some (b, st) => some (b, st.res.read)

/-- A place for entries in the tree below the starting directory: between the
entries `before` and `after` of the starting directory, or at a place inside one
of its subdirectories. -/
inductive Place where
  | here (before after : List Entry) : Place
  | inside (before : List Entry) (d_name : List Char) (buf : Stat) (inner : Place)
      (after : List Entry) : Place

/-- The entries of the starting directory of the tree that has `entries` at the place. -/
def Place.fill : Place → List Entry → List Entry
  | .here before after, entries => before ++ entries ++ after
  | .inside before d_name buf inner after, entries =>
    before ++ [Entry.mk d_name (some buf) (.stream (inner.fill entries))] ++ after

/-- The substring after the last `'/'` of a path, the whole path when it has no `'/'`. -/
def afterLastSlash : List Char → List Char
  | [] => []
  | c :: rest =>
    if '/' ∈ rest then afterLastSlash rest else if c = '/' then rest else c :: rest

/-- The bit `k` of a mode, as 0 or 1. -/
def permBit (mode k : Nat) : Int :=
  ((mode / 2 ^ k % 2 : Nat) : Int)

/-- A sequence of `createResult` calls on a store, each made whatever the
earlier ones returned: the state after the last call, `none` when a call has
undefined behaviour. -/
def createResults (env : Env) : State → List Result → Option State
  | st, [] => some st
  | st, r :: rest =>
    match createResult env st r.filePath r.fileSize with
    | none => none
    | some (_, st') => createResults env st' rest

/-- A sequence of `createResult` calls as the program makes them: a call is made
only when every earlier call has returned true, since `findRecursive`, the only
caller, returns at the first call that returns false.  The value is what the
last call made returned (true when no call is made) and the state after it,
`none` when a call has undefined behaviour. -/
def createResultsUntilFailure (env : Env) : State → List Result → Option (Bool × State)
  | st, [] => some (true, st)
  | st, r :: rest =>
    match createResult env st r.filePath r.fileSize with
    | none => none
    | some (false, st') => some (false, st')
    | some (true, st') => createResultsUntilFailure env st' rest

mutual
/-- The second directory is the first one enumerated in another order: both
fail to open, or both open and, below them, the entries of the second are a
rearrangement of the entries of the first, each with its own directory
enumerated in another order. -/
def Dir.Reordered : Dir → Dir → Prop
  | .unreadable, dir' => dir' = .unreadable
  | .stream entries, dir' =>
    ∃ mid entries', ReorderedList entries mid ∧ mid.Perm entries' ∧ dir' = .stream entries'
/-- The second list has, entry by entry, the entries of the first with their
directories enumerated in another order. -/
def ReorderedList : List Entry → List Entry → Prop
  | [], entries' => entries' = []
  | e :: rest, entries' =>
    ∃ e' rest', Entry.Reordered e e' ∧ ReorderedList rest rest' ∧ entries' = e' :: rest'
/-- The second entry is the first one, with the same name and metadata, and its
directory enumerated in another order. -/
def Entry.Reordered : Entry → Entry → Prop
  | .mk d_name lstat dir, e' => ∃ dir', Dir.Reordered dir dir' ∧ e' = .mk d_name lstat dir'
end

/-- A run of successful `createResult` calls: every call of the sequence
returns true, and the last one leaves the state `st'`. -/
def SuccessfulCalls (env : Env) : State → List Result → State → Prop
  | st, [], st' => st' = st
  | st, r :: rest, st' =>
    ∃ st₁, createResult env st r.filePath r.fileSize = some (true, st₁) ∧
      SuccessfulCalls env st₁ rest st'

mutual
/-- The entry names are unique within each directory below (and including)
this one, and none of them contains a `'/'`. -/
def Dir.wellNamed : Dir → Bool
  | .unreadable => true
  | .stream entries => decide ((entries.map Entry.d_name).Nodup) && wellNamedList entries
/-- No name of the entries contains a `'/'`, and their directories are well named. -/
def wellNamedList : List Entry → Bool
  | [] => true
  | e :: rest => Entry.wellNamed e && wellNamedList rest
/-- The name of the entry contains no `'/'` and its directory is well named. -/
def Entry.wellNamed : Entry → Bool
  | .mk d_name _ dir => decide ('/' ∉ d_name) && Dir.wellNamed dir
end

mutual
/-- The traversal that treats the maximum depth as a per-file filter: as
`findRecursive`, except that a regular file that passes the other filters and
exceeds the maximum depth is skipped and the iteration goes on. -/
def filterRecursive (env : Env) (pArgs : ParsedArguments) (baseDirectory : List Char) :
    Dir → State → Nat → Option (Bool × State)
  | .unreadable, st, depth => if depth = 0 then some (false, st) else some (true, st)
  | .stream entries, st, depth =>
    filterLoop env pArgs baseDirectory ((depth + 1) % 2 ^ 64) entries st true
/-- The loop of `filterRecursive` over the entries still to be read. -/
def filterLoop (env : Env) (pArgs : ParsedArguments) (baseDirectory : List Char) (depth : Nat) :
    List Entry → State → Bool → Option (Bool × State)
  | [], st, resultRec => some (resultRec, st)
  | e :: rest, st, resultRec =>
    if !resultRec then some (resultRec, st)
    else if e.d_name = ['.'] ∨ e.d_name = ['.', '.'] then
      filterLoop env pArgs baseDirectory depth rest st resultRec
    else
      match createFilePath env baseDirectory e.d_name st.allocs with
      | (none, allocs) => some (false, { st with allocs := allocs })
      | (some currentPath, allocs) =>
        let st := { st with allocs := allocs }
        match e.lstat with
        | none => filterLoop env pArgs baseDirectory depth rest st resultRec
        | some buf =>
          if S_ISDIR buf.st_mode then
            if !isHidden e.d_name || pArgs.setShowAll then
              match filterEntry env pArgs currentPath e st depth with
              | none => none
              | some (r, st) => filterLoop env pArgs baseDirectory depth rest st r
            else filterLoop env pArgs baseDirectory depth rest st resultRec
          else if S_ISREG buf.st_mode then
            match checkFile env pArgs e.d_name buf depth with
            | none => none
            | some false => filterLoop env pArgs baseDirectory depth rest st resultRec
            | some true =>
              if !checkMaxDepth pArgs depth then
                filterLoop env pArgs baseDirectory depth rest st resultRec
              else
                match createResult env st currentPath buf.st_size with
                | none => none
                | some (false, st) => some (false, st)
                | some (true, st) => filterLoop env pArgs baseDirectory depth rest st resultRec
          else filterLoop env pArgs baseDirectory depth rest st resultRec
/-- The recursive call of `filterRecursive` on the directory of an entry. -/
def filterEntry (env : Env) (pArgs : ParsedArguments) (currentPath : List Char) :
    Entry → State → Nat → Option (Bool × State)
  | .mk _ _ d, st, depth => filterRecursive env pArgs currentPath d st depth
end

/-- The value of a decimal digit. -/
def digitValue (c : Char) : Nat :=
  c.toNat - 48

/-- The number that a string of decimal digits denotes. -/
def decimalValue (digits : List Char) : Nat :=
  digits.foldl (fun value c => 10 * value + digitValue c) 0

/-- The string consists solely of decimal digits. -/
def allDigits (arg : List Char) : Bool :=
  arg.all fun c => '0'.toNat ≤ c.toNat && c.toNat ≤ '9'.toNat

/-- The string consists solely of the digits 0 to 7. -/
def allOctalDigits (arg : List Char) : Bool :=
  arg.all fun c => '0'.toNat ≤ c.toNat && c.toNat ≤ '7'.toNat

/-- The string is a non-empty string consisting solely of decimal digits. -/
def isDecimalNumber (arg : List Char) : Bool :=
  !arg.isEmpty && allDigits arg

/-- The string is a non-empty string consisting solely of the digits 0 to 7. -/
def isOctalNumber (arg : List Char) : Bool :=
  !arg.isEmpty && allOctalDigits arg

/-! ## Sample inputs -/

/-- An environment in which every allocation succeeds and the only user is
`tom`, with uid 1000. -/
def sampleEnv : Env where
  heap := fun _ => true
  getpwnam := fun name => if name = ['t', 'o', 'm'] then some 1000 else none

/-- The metadata of a regular file of the given size, mode `rw-r--r--`, owned by uid 1000. -/
def regularStat (size : Nat) : Stat :=
  ⟨0o100644, 1000, size⟩

/-- The metadata of a directory, mode `rwxr-xr-x`, owned by uid 1000. -/
def directoryStat : Stat :=
  ⟨0o040755, 1000, 4096⟩

/-- A regular file as a directory entry (`opendir` on it fails). -/
def regularEntry (d_name : List Char) (size : Nat) : Entry :=
  .mk d_name (some (regularStat size)) .unreadable

/-- A directory that opens, as a directory entry. -/
def directoryEntry (d_name : List Char) (entries : List Entry) : Entry :=
  .mk d_name (some directoryStat) (.stream entries)

/-- The entries `.` and `..` that `readdir` yields in every directory. -/
def dotEntries : List Entry :=
  [.mk ['.'] (some directoryStat) .unreadable, .mk ['.', '.'] (some directoryStat) .unreadable]

/-- The tree of the scenarios of the specification: `a.txt` (size 10), `.hidden`
(size 5) and `sub/b.txt` (size 20). -/
def sampleTree : Dir :=
  .stream (dotEntries ++
    [regularEntry "a.txt".toList 10,
     regularEntry ".hidden".toList 5,
     directoryEntry "sub".toList (dotEntries ++ [regularEntry "b.txt".toList 20])])

/-- Two results whose order by full path differs from their order by file name:
`root/a/b.txt` and `root/b/a.txt`. -/
def pathVersusName : List Result :=
  [⟨"root/a/b.txt".toList, 1⟩, ⟨"root/b/a.txt".toList, 1⟩]

/-- The tree of the maximum-depth scenario: the only file is `sub/b.txt`. -/
def subTree : Dir :=
  .stream (dotEntries ++
    [directoryEntry "sub".toList (dotEntries ++ [regularEntry "b.txt".toList 20])])

/-- A tree with the files `a/b.txt` and `b/a.txt`, whose order by full path
differs from their order by file name. -/
def crossedTree : Dir :=
  .stream (dotEntries ++
    [directoryEntry ['a'] (dotEntries ++ [regularEntry "b.txt".toList 1]),
     directoryEntry ['b'] (dotEntries ++ [regularEntry "a.txt".toList 1])])

/-- A store holding exactly the given results. -/
def storeOf (l : List Result) : Results where
  resultsArray := l.map some
  arrayIndex := l.length
  arrayAllocatedSize := l.length

/-- An environment in which exactly the third allocation request fails. -/
def thirdAllocationFails : Env where
  heap := fun k => k != 2
  getpwnam := fun _ => none

/-- A directory with the two regular files `a.txt` and `b.txt`. -/
def twoFiles : Dir :=
  .stream (dotEntries ++ [regularEntry "a.txt".toList 10, regularEntry "b.txt".toList 20])

/-- A tree with failures: the directory `locked` cannot be opened and `lstat`
fails for the entry `gone`; `a.txt` and `sub/b.txt` are regular files. -/
def treeWithFailures : Dir :=
  .stream (dotEntries ++
    [Entry.mk "locked".toList (some directoryStat) .unreadable,
     Entry.mk "gone".toList none .unreadable,
     regularEntry "a.txt".toList 10,
     directoryEntry "sub".toList (dotEntries ++ [regularEntry "b.txt".toList 20])])

/-- The place in the directory `sub` of a tree, before the file `b.txt`, with
the file `a.txt` after `sub`. -/
def placeInSub : Place :=
  .inside dotEntries "sub".toList directoryStat
    (.here dotEntries [regularEntry "b.txt".toList 20]) [regularEntry "a.txt".toList 10]

/-- The results of the specification's scenario with show-all set, in the order
of discovery: `a.txt` (10), `.hidden` (5), `sub/b.txt` (20). -/
def scenarioResults : List Result :=
  [⟨"root/a.txt".toList, 10⟩, ⟨"root/.hidden".toList, 5⟩, ⟨"root/sub/b.txt".toList, 20⟩]

/-- The metadata of a regular file with the permission bits `rwxr-xr--`. -/
def permissionSample : Stat :=
  ⟨0o100754, 1000, 0⟩

/-- An environment in which exactly the first allocation request fails. -/
def firstAllocationFails : Env where
  heap := fun k => k != 0
  getpwnam := fun _ => none

/-- An environment in which exactly the second allocation request fails. -/
def secondAllocationFails : Env where
  heap := fun k => k != 1
  getpwnam := fun _ => none

/-- The sample tree with the directory `sub` and the starting directory
enumerated in the reverse order. -/
def sampleTreeReordered : Dir :=
  .stream (dotEntries ++
    [regularEntry "a.txt".toList 10,
     regularEntry ".hidden".toList 5,
     directoryEntry "sub".toList (dotEntries ++ [regularEntry "b.txt".toList 20]).reverse]).reverse

/-- An insertion sort of the elements taken in the reverse order, with the
interface of `qsort`: another algorithm a C library may use. -/
def reverseSort : Sorter :=
  fun compar base => base.reverse.insertionSort (fun a b => compar a b ≤ 0)

/-- A configuration with the maximum depth 1 and no other filter. -/
def maxDepthOne : ParsedArguments :=
  { initParsedArguments with setMaximalDepth := true, maximalDepth := 1 }

/-- A tree with files at the depths 1, 2 and 3: `a.txt`, `sub/b.txt`,
`sub/deeper/c.txt` and `z.txt`, the directory `deeper` after `b.txt`. -/
def deepTree : Dir :=
  .stream (dotEntries ++
    [regularEntry "a.txt".toList 10,
     directoryEntry "sub".toList (dotEntries ++
       [regularEntry "b.txt".toList 20,
        directoryEntry "deeper".toList (dotEntries ++ [regularEntry "c.txt".toList 30])]),
     regularEntry "z.txt".toList 40])

/-- An environment in which exactly the fourth allocation request fails. -/
def fourthAllocationFails : Env where
  heap := fun k => k != 3
  getpwnam := fun _ => none

/-- A configuration with the maximum depth 0 and no other filter. -/
def maxDepthZero : ParsedArguments :=
  { initParsedArguments with setMaximalDepth := true, maximalDepth := 0 }

/-! # Theorems

The theorems on the traversal share these hypotheses: `hheap`, no allocation
request fails; `hvalid`, the configuration is one that `parseArguments` can
produce (`validArguments`); `hheight`, the tree has fewer than `2 ^ 64` nested
levels, so that `depth++` does not wrap around; `hst`, the store handed to
`findRecursive` is well formed and holds the results `l` (`Results.Holds`), as
the store of `initResults` does with `l = []`. -/

/-! ## The result store -/

theorem readSlots_map_some (l : List Result) : readSlots (l.map some) = some l := by
  induction l with
  | nil => rfl
  | cons r rs ih => simp [readSlots, ih]

theorem Results.Holds.read_eq {res : Results} {l : List Result} (h : res.Holds l) :
    res.read = some l := by
  obtain ⟨free, hfree⟩ := h.slots
  have hlen : res.arrayIndex ≤ res.resultsArray.length := by
    rw [hfree, h.index]; simp
  unfold Results.read
  rw [if_pos hlen, hfree, h.index]
  have : List.take l.length (List.map some l ++ free) = List.map some l := by
    apply List.take_left'
    simp
  rw [this, readSlots_map_some]

theorem initResults_holds : initResults.Holds [] :=
  ⟨rfl, rfl, ⟨[], rfl⟩⟩

theorem createResult_holds (env : Env) (st : State) (l : List Result) (filePath : List Char)
    (fileSize : Nat) (hst : st.res.Holds l)
    (hheap : st.res.arrayAllocatedSize ≤ st.res.arrayIndex → env.heap st.allocs = true) :
    ∃ st', createResult env st filePath fileSize = some (true, st') ∧
      st'.res.Holds (l ++ [⟨filePath, fileSize⟩]) := by
  obtain ⟨free, hfree⟩ := hst.slots
  have hidx := hst.index
  have hsize := hst.size
  have hlen : (l.map some).length = l.length := by simp
  unfold createResult
  by_cases hfull : st.res.arrayAllocatedSize ≤ st.res.arrayIndex
  · have hfree_nil : free = [] := by
      have : (l.map some ++ free).length = st.res.arrayAllocatedSize := by rw [← hfree]; exact hsize
      simp at this
      have : free.length = 0 := by omega
      exact List.length_eq_zero.mp this
    subst hfree_nil
    have hheap := hheap hfull
    simp only [List.append_nil] at hfree
    have hblock : reallocSlots st.res.resultsArray (st.res.arrayAllocatedSize + RESULTS_REALLOCATION)
        = l.map some ++ List.replicate RESULTS_REALLOCATION none := by
      unfold reallocSlots
      have h1 : st.res.arrayAllocatedSize + RESULTS_REALLOCATION - st.res.resultsArray.length
          = RESULTS_REALLOCATION := by omega
      rw [h1, hfree]
      apply List.take_of_length_le
      simp
      rw [hfree] at hsize; simp at hsize; omega
    simp only [hfull, if_true, hheap, hblock]
    have hlt : st.res.arrayIndex < (l.map some ++ List.replicate RESULTS_REALLOCATION none).length := by
      simp [RESULTS_REALLOCATION]; omega
    rw [if_pos hlt]
    refine ⟨_, rfl, ?_, ?_, ?_⟩
    · simp [hidx]
    · simp; rw [hfree] at hsize; simp at hsize; omega
    · refine ⟨List.replicate 63 none, ?_⟩
      simp only [hidx]
      rw [List.set_append_right _ _ (by simp)]
      simp [RESULTS_REALLOCATION, List.replicate_succ]
  · have hlt : st.res.arrayIndex < st.res.resultsArray.length := by omega
    simp only [hfull, if_false, hlt, if_true]
    refine ⟨_, rfl, ?_, ?_, ?_⟩
    · simp [hidx]
    · simpa using hsize
    · have hne : free ≠ [] := by
        intro e
        rw [hfree, e] at hlt
        simp at hlt; omega
      obtain ⟨f, fs, rfl⟩ := List.exists_cons_of_ne_nil hne
      refine ⟨fs, ?_⟩
      simp only [hidx, hfree]
      rw [List.set_append_right _ _ (by simp)]
      simp

/-! ## The filters -/

theorem checkFile_eq (env : Env) (pArgs : ParsedArguments) (hvalid : validArguments env pArgs = true)
    (d_name : List Char) (buf : Stat) (depth : Nat) :
    checkFile env pArgs d_name buf depth =
      some (checkName pArgs d_name == some true && checkPermissions pArgs (getMask buf) &&
        checkUser env pArgs buf == some true && checkMinDepth pArgs depth &&
        checkHidden pArgs d_name) := by
  unfold validArguments at hvalid
  simp only [Bool.and_eq_true, Bool.or_eq_true, Bool.not_eq_true'] at hvalid
  obtain ⟨hname, huser⟩ := hvalid
  have hn : ∃ b, checkName pArgs d_name = some b := by
    unfold checkName
    by_cases h : pArgs.setName = true
    · rcases hname with h' | h'
      · rw [h] at h'; cases h'
      · obtain ⟨n, hn⟩ := Option.isSome_iff_exists.mp h'
        simp only [h, hn, if_true]
        split_ifs <;> exact ⟨_, rfl⟩
    · simp [h]
  have hu : ∃ b, checkUser env pArgs buf = some b := by
    unfold checkUser
    by_cases h : pArgs.setUser = true
    · rcases huser with h' | h'
      · rw [h] at h'; cases h'
      · cases hua : pArgs.usernameArg with
        | none => simp [hua] at h'
        | some name =>
          simp only [hua] at h'
          obtain ⟨uid, huid⟩ := Option.isSome_iff_exists.mp h'
          simp [h, huid]
    · simp [h]
  obtain ⟨bn, hbn⟩ := hn
  obtain ⟨bu, hbu⟩ := hu
  unfold checkFile
  rw [hbn, hbu]
  cases bn <;> cases bu <;> cases checkPermissions pArgs (getMask buf) <;> simp

theorem checkMaxDepth_false_mono (pArgs : ParsedArguments) {d d' : Nat} (h : d ≤ d')
    (hd : checkMaxDepth pArgs d = false) : checkMaxDepth pArgs d' = false := by
  unfold checkMaxDepth at hd ⊢
  by_cases hs : pArgs.setMaximalDepth = true
  · simp only [hs, if_true, decide_eq_false_iff_not, ge_iff_le, not_le] at hd ⊢
    omega
  · simp [hs] at hd

/-! ## The candidates -/

mutual
theorem candidatesDir_depth (showAll : Bool) :
    ∀ (dir : Dir) (base : List Char) (trail : List (List Char)) (depth : Nat),
      ∀ c ∈ candidatesDir showAll base trail dir depth, depth < c.depth
  | .unreadable, _, _, _ => by simp [candidatesDir]
  | .stream entries, base, trail, depth => by
    intro c hc
    rw [candidatesDir] at hc
    have := candidatesList_depth showAll entries base trail (depth + 1) c hc
    omega
theorem candidatesList_depth (showAll : Bool) :
    ∀ (entries : List Entry) (base : List Char) (trail : List (List Char)) (depth : Nat),
      ∀ c ∈ candidatesList showAll base trail depth entries, depth ≤ c.depth
  | [], _, _, _ => by simp [candidatesList]
  | e :: rest, base, trail, depth => by
    intro c hc
    rw [candidatesList, List.mem_append] at hc
    rcases hc with hc | hc
    · exact candidatesEntry_depth showAll e base trail depth c hc
    · exact candidatesList_depth showAll rest base trail depth c hc
theorem candidatesEntry_depth (showAll : Bool) :
    ∀ (e : Entry) (base : List Char) (trail : List (List Char)) (depth : Nat),
      ∀ c ∈ candidatesEntry showAll base trail depth e, depth ≤ c.depth
  | .mk d_name lstat dir, base, trail, depth => by
    intro c hc
    simp only [candidatesEntry] at hc
    split at hc
    · simp at hc
    · split at hc
      · simp at hc
      · split at hc
        · split at hc
          · have := candidatesDir_depth showAll dir _ _ depth c hc
            omega
          · simp at hc
        · split at hc
          · simp at hc; subst hc; simp
          · simp at hc
end

theorem storedFor_append (env : Env) (pArgs : ParsedArguments) (a b : List Candidate) :
    storedFor env pArgs (a ++ b) = storedFor env pArgs a ++ storedFor env pArgs b := by
  simp [storedFor]

theorem storedFor_nil (env : Env) (pArgs : ParsedArguments) : storedFor env pArgs [] = [] := rfl

theorem storedFor_too_deep (env : Env) (pArgs : ParsedArguments) (depth : Nat)
    (hmax : checkMaxDepth pArgs depth = false) (cs : List Candidate)
    (hcs : ∀ c ∈ cs, depth ≤ c.depth) : storedFor env pArgs cs = [] := by
  unfold storedFor
  rw [List.map_eq_nil_iff, List.filter_eq_nil_iff]
  intro c hc
  have := checkMaxDepth_false_mono pArgs (hcs c hc) hmax
  simp [accepts, this]

theorem storedFor_singleton (env : Env) (pArgs : ParsedArguments) (c : Candidate) :
    storedFor env pArgs [c] = if accepts env pArgs c = true then [c.toResult] else [] := by
  unfold storedFor
  by_cases h : accepts env pArgs c = true <;> simp [h]

set_option maxHeartbeats 1000000 in
mutual
theorem findRecursive_stores (env : Env) (pArgs : ParsedArguments)
    (hheap : ∀ k, env.heap k = true) (hvalid : validArguments env pArgs = true) :
    ∀ (dir : Dir) (base : List Char) (trail : List (List Char)) (st : State) (l : List Result)
      (depth : Nat), 0 < depth → depth + dir.height < 2 ^ 64 → st.res.Holds l →
      ∃ st', findRecursive env pArgs base dir st depth = some (true, st') ∧
        st'.res.Holds (l ++ storedFor env pArgs (candidatesDir pArgs.setShowAll base trail dir depth))
  | .unreadable, base, trail, st, l, depth => by
    intro hpos _ hst
    refine ⟨st, ?_, ?_⟩
    · simp [findRecursive]; omega
    · simpa [candidatesDir, storedFor] using hst
  | .stream entries, base, trail, st, l, depth => by
    intro hpos hbound hst
    simp only [Dir.height] at hbound
    have hmod : (depth + 1) % 2 ^ 64 = depth + 1 := Nat.mod_eq_of_lt (by omega)
    simp only [findRecursive, candidatesDir, hmod]
    exact findLoop_stores env pArgs hheap hvalid entries base trail st l (depth + 1) (by omega)
      (by omega) hst
theorem findLoop_stores (env : Env) (pArgs : ParsedArguments)
    (hheap : ∀ k, env.heap k = true) (hvalid : validArguments env pArgs = true) :
    ∀ (entries : List Entry) (base : List Char) (trail : List (List Char)) (st : State)
      (l : List Result) (depth : Nat), 0 < depth → depth + heightList entries < 2 ^ 64 →
      st.res.Holds l →
      ∃ st', findLoop env pArgs base depth entries st true = some (true, st') ∧
        st'.res.Holds
          (l ++ storedFor env pArgs (candidatesList pArgs.setShowAll base trail depth entries))
  | [], base, trail, st, l, depth => by
    intro _ _ hst
    exact ⟨st, by simp [findLoop], by simpa [candidatesList, storedFor] using hst⟩
  | (.mk d_name lstat dir) :: rest, base, trail, st, l, depth => by
    intro hpos hbound hst
    simp only [heightList, Entry.height] at hbound
    have hrest : depth + heightList rest < 2 ^ 64 := by omega
    have hdir : depth + dir.height < 2 ^ 64 := by omega
    have ihrest := findLoop_stores env pArgs hheap hvalid rest base trail
    have ihentry := findEntry_stores env pArgs hheap hvalid (.mk d_name lstat dir)
      (base ++ '/' :: d_name) (trail ++ [d_name])
    simp only [Entry.dir] at ihentry
    simp only [findLoop, candidatesList, candidatesEntry, Entry.d_name, Entry.lstat,
      storedFor_append, Bool.not_true, Bool.false_eq_true, if_false]
    by_cases hdots : d_name = ['.'] ∨ d_name = ['.', '.']
    · simp only [hdots, if_true, storedFor_nil, List.nil_append]
      exact ihrest st l depth hpos hrest hst
    · simp only [hdots, if_false, createFilePath, hheap, if_true]
      have hst1 : ({ st with allocs := st.allocs + 1 } : State).res.Holds l := hst
      cases lstat with
      | none =>
        simp only [storedFor_nil, List.nil_append]
        exact ihrest _ l depth hpos hrest hst1
      | some buf =>
        simp only []
        by_cases hisdir : S_ISDIR buf.st_mode = true
        · simp only [hisdir, if_true]
          by_cases hdesc : (!isHidden d_name || pArgs.setShowAll) = true
          · simp only [hdesc, if_true]
            obtain ⟨st2, h2, hst2⟩ := ihentry _ l depth hpos hdir hst1
            rw [h2]
            simp only []
            obtain ⟨st3, h3, hst3⟩ := ihrest st2 _ depth hpos hrest hst2
            exact ⟨st3, h3, by simpa [List.append_assoc] using hst3⟩
          · simp only [hdesc, if_false, storedFor_nil, List.nil_append]
            exact ihrest _ l depth hpos hrest hst1
        · have hisdir : S_ISDIR buf.st_mode = false := by simpa using hisdir
          simp only [hisdir, Bool.false_eq_true, if_false]
          by_cases hisreg : S_ISREG buf.st_mode = true
          · simp only [hisreg, if_true, checkFile_eq env pArgs hvalid, storedFor_singleton]
            have hacc : accepts env pArgs
                { name := d_name, path := base ++ '/' :: d_name, stat := buf, depth := depth,
                  trail := trail } =
                ((checkName pArgs d_name == some true && checkPermissions pArgs (getMask buf) &&
                  checkUser env pArgs buf == some true && checkMinDepth pArgs depth &&
                  checkHidden pArgs d_name) && checkMaxDepth pArgs depth) := rfl
            rw [hacc]
            cases (checkName pArgs d_name == some true && checkPermissions pArgs (getMask buf) &&
                  checkUser env pArgs buf == some true && checkMinDepth pArgs depth &&
                  checkHidden pArgs d_name) with
            | false =>
              simp only [Bool.false_and, Bool.false_eq_true, if_false, List.nil_append]
              exact ihrest _ l depth hpos hrest hst1
            | true =>
              cases hmax : checkMaxDepth pArgs depth with
              | false =>
                have hnone := storedFor_too_deep env pArgs depth hmax _
                  (candidatesList_depth pArgs.setShowAll rest base trail depth)
                simp only [Bool.not_false, if_true, Bool.and_false, Bool.false_eq_true, if_false,
                  List.nil_append, hnone, List.append_nil]
                exact ⟨_, rfl, hst1⟩
              | true =>
                obtain ⟨st2, h2, hst2⟩ := createResult_holds env _ l (base ++ '/' :: d_name)
                  buf.st_size hst1 (fun _ => hheap _)
                simp only [Bool.not_true, Bool.false_eq_true, if_false, h2, Bool.and_true, if_true]
                obtain ⟨st3, h3, hst3⟩ := ihrest st2 _ depth hpos hrest hst2
                exact ⟨st3, h3, by simpa [Candidate.toResult, List.append_assoc] using hst3⟩
          · have hisreg : S_ISREG buf.st_mode = false := by simpa using hisreg
            simp only [hisreg, Bool.false_eq_true, if_false, storedFor_nil, List.nil_append]
            exact ihrest _ l depth hpos hrest hst1
theorem findEntry_stores (env : Env) (pArgs : ParsedArguments)
    (hheap : ∀ k, env.heap k = true) (hvalid : validArguments env pArgs = true) :
    ∀ (e : Entry) (currentPath : List Char) (trail : List (List Char)) (st : State)
      (l : List Result) (depth : Nat), 0 < depth → depth + e.dir.height < 2 ^ 64 →
      st.res.Holds l →
      ∃ st', findEntry env pArgs currentPath e st depth = some (true, st') ∧
        st'.res.Holds
          (l ++ storedFor env pArgs (candidatesDir pArgs.setShowAll currentPath trail e.dir depth))
  | .mk _ _ dir, currentPath, trail, st, l, depth => by
    intro hpos hbound hst
    simp only [findEntry, Entry.dir] at hbound ⊢
    exact findRecursive_stores env pArgs hheap hvalid dir currentPath trail st l depth hpos hbound hst
end

mutual
theorem candidatesDir_regular (showAll : Bool) :
    ∀ (dir : Dir) (base : List Char) (trail : List (List Char)) (depth : Nat),
      ∀ c ∈ candidatesDir showAll base trail dir depth,
        S_ISREG c.stat.st_mode = true ∧ S_ISDIR c.stat.st_mode = false
  | .unreadable, _, _, _ => by simp [candidatesDir]
  | .stream entries, base, trail, depth => by
    intro c hc
    rw [candidatesDir] at hc
    exact candidatesList_regular showAll entries base trail (depth + 1) c hc
theorem candidatesList_regular (showAll : Bool) :
    ∀ (entries : List Entry) (base : List Char) (trail : List (List Char)) (depth : Nat),
      ∀ c ∈ candidatesList showAll base trail depth entries,
        S_ISREG c.stat.st_mode = true ∧ S_ISDIR c.stat.st_mode = false
  | [], _, _, _ => by simp [candidatesList]
  | e :: rest, base, trail, depth => by
    intro c hc
    rw [candidatesList, List.mem_append] at hc
    rcases hc with hc | hc
    · exact candidatesEntry_regular showAll e base trail depth c hc
    · exact candidatesList_regular showAll rest base trail depth c hc
theorem candidatesEntry_regular (showAll : Bool) :
    ∀ (e : Entry) (base : List Char) (trail : List (List Char)) (depth : Nat),
      ∀ c ∈ candidatesEntry showAll base trail depth e,
        S_ISREG c.stat.st_mode = true ∧ S_ISDIR c.stat.st_mode = false
  | .mk d_name lstat dir, base, trail, depth => by
    intro c hc
    simp only [candidatesEntry] at hc
    split at hc
    · simp at hc
    · split at hc
      · simp at hc
      · split at hc
        · split at hc
          · exact candidatesDir_regular showAll dir _ _ depth c hc
          · simp at hc
        · split at hc
          · simp at hc; subst hc; simp_all
          · simp at hc
end

/-- The traversal from the starting directory, for any tree: it returns true iff
the starting directory opens and stores the accepted candidates. -/
theorem findRecursive_root (env : Env) (pArgs : ParsedArguments) (base : List Char) (root : Dir)
    (st : State) (l : List Result) (hheap : ∀ k, env.heap k = true)
    (hvalid : validArguments env pArgs = true) (hheight : root.height < 2 ^ 64)
    (hst : st.res.Holds l) :
    ∃ st', findRecursive env pArgs base root st 0 = some (root.opens, st') ∧
      st'.res.Holds (l ++ expectedResults env pArgs base root 0) := by
  cases root with
  | unreadable =>
    exact ⟨st, by simp [findRecursive, Dir.opens],
      by simpa [expectedResults, candidatesDir] using hst⟩
  | stream entries =>
    simp only [Dir.height] at hheight
    have hmod : (0 + 1) % 2 ^ 64 = 1 := by norm_num
    obtain ⟨st', h, hst'⟩ := findLoop_stores env pArgs hheap hvalid entries base [] st l 1
      (by omega) (by omega) hst
    refine ⟨st', ?_, ?_⟩
    · simp only [findRecursive, hmod, Dir.opens]
      exact h
    · simpa [expectedResults, candidatesDir, storedFor] using hst'

/-- C1: on a tree in which every directory opens and every `lstat` succeeds, with
no allocation failure, `findRecursive` started at depth 0 returns true and the
store then holds, after what it held before and exactly once each, the path and
size of the candidates (regular files reached through directories that are not
hidden or with show-all set) that pass `checkName`, `checkPermissions`,
`checkUser`, `checkMinDepth`, `checkHidden` and `checkMaxDepth` at their depth;
every one of them is a regular file and none is a directory. -/
theorem findRecursive_stores_accepted_regular_files (env : Env) (pArgs : ParsedArguments)
    (base : List Char) (root : Dir) (st : State) (l : List Result)
    (hopen : root.noFailure = true) (hheap : ∀ k, env.heap k = true)
    (hvalid : validArguments env pArgs = true) (hheight : root.height < 2 ^ 64)
    (hst : st.res.Holds l) :
    ∃ st', findRecursive env pArgs base root st 0 = some (true, st') ∧
      st'.res.read = some (l ++
        ((candidatesDir pArgs.setShowAll base [] root 0).filter (accepts env pArgs)).map
          Candidate.toResult) ∧
      ∀ c ∈ candidatesDir pArgs.setShowAll base [] root 0,
        S_ISREG c.stat.st_mode = true ∧ S_ISDIR c.stat.st_mode = false := by
  obtain ⟨st', h, hst'⟩ := findRecursive_root env pArgs base root st l hheap hvalid hheight hst
  have hroot : root.opens = true := by
    cases root with
    | unreadable => simp [Dir.noFailure] at hopen
    | stream entries => rfl
  rw [hroot] at h
  exact ⟨st', h, hst'.read_eq, candidatesDir_regular _ root base [] 0⟩

/-- A witness of C1: the tree of the specification's scenario under the default
configuration. -/
theorem findRecursive_stores_accepted_regular_files_witness :
    sampleTree.noFailure = true ∧
    ∃ st', findRecursive sampleEnv initParsedArguments "root".toList sampleTree initState 0
        = some (true, st') ∧
      st'.res.read = some [⟨"root/a.txt".toList, 10⟩, ⟨"root/sub/b.txt".toList, 20⟩] := by
  refine ⟨by decide, ?_⟩
  obtain ⟨st', h1, h2, _⟩ := findRecursive_stores_accepted_regular_files sampleEnv
    initParsedArguments "root".toList sampleTree initState [] (by decide) (fun _ => rfl)
    (by decide) (by decide) initResults_holds
  exact ⟨st', h1, h2.trans (by decide)⟩

theorem accepts_of_noFilters (env : Env) (pArgs : ParsedArguments)
    (hno : noFilters pArgs = true) (c : Candidate) :
    accepts env pArgs c = checkHidden pArgs c.name := by
  simp only [noFilters, Bool.and_eq_true, Bool.not_eq_true'] at hno
  obtain ⟨⟨⟨⟨h1, h2⟩, h3⟩, h4⟩, h5⟩ := hno
  simp [accepts, checkName, checkPermissions, checkUser, checkMinDepth, checkMaxDepth, h1, h2, h3,
    h4, h5]

theorem validArguments_of_noFilters (env : Env) (pArgs : ParsedArguments)
    (hno : noFilters pArgs = true) : validArguments env pArgs = true := by
  simp only [noFilters, Bool.and_eq_true, Bool.not_eq_true'] at hno
  obtain ⟨⟨⟨⟨h1, _⟩, h3⟩, _⟩, _⟩ := hno
  simp [validArguments, h1, h3]

/-- C2, refuted as stated: under the default configuration (no filter, show-all
unset) the traversal of the sample tree does not return the regular file
`root/.hidden`, which is reachable from the root without descending into any
hidden directory. -/
theorem reachable_hidden_file_not_returned :
    noFilters initParsedArguments = true ∧
    traversalResults sampleEnv initParsedArguments "root".toList sampleTree
      = some [⟨"root/a.txt".toList, 10⟩, ⟨"root/sub/b.txt".toList, 20⟩] ∧
    (reachableRegularFiles initParsedArguments.setShowAll "root".toList sampleTree).map
        Candidate.toResult
      = [⟨"root/a.txt".toList, 10⟩, ⟨"root/.hidden".toList, 5⟩, ⟨"root/sub/b.txt".toList, 20⟩] := by
  decide

/-- C2, amended: with no filter set and no allocation failure, the results of
the traversal are the reachable regular files that pass the hidden-file rule
themselves (show-all is set or the name does not start with a dot). -/
theorem no_filter_results_are_visible_reachable_files (env : Env) (pArgs : ParsedArguments)
    (base : List Char) (root : Dir) (hno : noFilters pArgs = true)
    (hheap : ∀ k, env.heap k = true) (hheight : root.height < 2 ^ 64) :
    traversalResults env pArgs base root =
      some (((reachableRegularFiles pArgs.setShowAll base root).filter
        (fun c => pArgs.setShowAll || !isHidden c.name)).map Candidate.toResult) := by
  obtain ⟨st', h, hst'⟩ := findRecursive_root env pArgs base root initState [] hheap
    (validArguments_of_noFilters env pArgs hno) hheight initResults_holds
  have hfilter : (candidatesDir pArgs.setShowAll base [] root 0).filter (accepts env pArgs) =
      (candidatesDir pArgs.setShowAll base [] root 0).filter
        (fun c => pArgs.setShowAll || !isHidden c.name) := by
    apply List.filter_congr
    intro c _
    rw [accepts_of_noFilters env pArgs hno]
    cases hs : pArgs.setShowAll <;> simp [checkHidden, hs]
  simp only [traversalResults, h, hst'.read_eq, expectedResults, List.nil_append,
    reachableRegularFiles, hfilter]

/-- A witness of the amended C2: the sample tree under the default configuration. -/
theorem no_filter_results_are_visible_reachable_files_witness :
    noFilters initParsedArguments = true ∧
    traversalResults sampleEnv initParsedArguments "root".toList sampleTree =
      some (((reachableRegularFiles false "root".toList sampleTree).filter
        (fun c => false || !isHidden c.name)).map Candidate.toResult) :=
  ⟨by decide, no_filter_results_are_visible_reachable_files sampleEnv initParsedArguments
    "root".toList sampleTree (by decide) (fun _ => rfl) (by decide)⟩

/-- C3, evaluated on the code: the default sort mode of `initParsedArguments`
selects `sortByFileName`, so `root/b/a.txt` is put before `root/a/b.txt`, and the
mode set by `-s f` selects `sortByFilePath`, which puts `root/a/b.txt` first;
`-s s` selects `sortByFileSize`.  Accordingly `find` without `-s` prints
`./b/a.txt` before `./a/b.txt`, and with `-s f` after it. -/
theorem sort_mode_selects_swapped_comparators :
    sortTypeTable[initParsedArguments.sortType]? = some sortByFileName ∧
    (setSort initParsedArguments ['f']).map (fun p => sortTypeTable[p.sortType]?)
      = some (some sortByFilePath) ∧
    (setSort initParsedArguments ['s']).map (fun p => sortTypeTable[p.sortType]?)
      = some (some sortByFileSize) ∧
    (sortResults qsort initParsedArguments (storeOf pathVersusName)).map Results.read
      = some (some [⟨"root/b/a.txt".toList, 1⟩, ⟨"root/a/b.txt".toList, 1⟩]) ∧
    ((setSort initParsedArguments ['f']).bind
        (fun p => sortResults qsort p (storeOf pathVersusName))).map Results.read
      = some (some [⟨"root/a/b.txt".toList, 1⟩, ⟨"root/b/a.txt".toList, 1⟩]) ∧
    find sampleEnv qsort initParsedArguments crossedTree
      = some (true, "./b/a.txt\n./a/b.txt\n".toList) ∧
    (setSort initParsedArguments ['f']).bind (fun p => find sampleEnv qsort p crossedTree)
      = some (true, "./a/b.txt\n./b/a.txt\n".toList) :=
  ⟨rfl, rfl, rfl, by decide, by decide, by decide, by decide⟩

theorem accepts_depth (env : Env) (pArgs : ParsedArguments) (c : Candidate)
    (h : accepts env pArgs c = true) :
    (pArgs.setMinimalDepth = true → pArgs.minimalDepth ≤ c.depth) ∧
    (pArgs.setMaximalDepth = true → c.depth ≤ pArgs.maximalDepth) := by
  simp only [accepts, Bool.and_eq_true] at h
  obtain ⟨⟨⟨_, hmin⟩, _⟩, hmax⟩ := h
  constructor
  · intro hs
    simpa [checkMinDepth, hs] using hmin
  · intro hs
    simpa [checkMaxDepth, hs] using hmax

/-- C4: without allocation failure, the traversal of a tree whose starting
directory opens returns true, and every result it appends is that of a regular
file evaluated at a depth `d` with `minimalDepth ≤ d` when the minimum is set and
`d ≤ maximalDepth` when the maximum is set; a regular file evaluated at a depth
above the maximum is not among the results appended. -/
theorem stored_results_respect_depth_bounds (env : Env) (pArgs : ParsedArguments)
    (base : List Char) (root : Dir) (st : State) (l : List Result)
    (hopen : root.opens = true) (hheap : ∀ k, env.heap k = true)
    (hvalid : validArguments env pArgs = true) (hheight : root.height < 2 ^ 64)
    (hst : st.res.Holds l) :
    ∃ st', findRecursive env pArgs base root st 0 = some (true, st') ∧
      st'.res.read = some (l ++
        ((candidatesDir pArgs.setShowAll base [] root 0).filter (accepts env pArgs)).map
          Candidate.toResult) ∧
      (∀ c ∈ (candidatesDir pArgs.setShowAll base [] root 0).filter (accepts env pArgs),
        (pArgs.setMinimalDepth = true → pArgs.minimalDepth ≤ c.depth) ∧
        (pArgs.setMaximalDepth = true → c.depth ≤ pArgs.maximalDepth)) ∧
      (∀ c ∈ candidatesDir pArgs.setShowAll base [] root 0,
        pArgs.setMaximalDepth = true → pArgs.maximalDepth < c.depth →
        c ∉ (candidatesDir pArgs.setShowAll base [] root 0).filter (accepts env pArgs)) := by
  obtain ⟨st', h, hst'⟩ := findRecursive_root env pArgs base root st l hheap hvalid hheight hst
  rw [hopen] at h
  refine ⟨st', h, hst'.read_eq, ?_, ?_⟩
  · intro c hc
    exact accepts_depth env pArgs c (List.mem_filter.mp hc).2
  · intro c _ hset hdeep hc
    have := (accepts_depth env pArgs c (List.mem_filter.mp hc).2).2 hset
    omega

/-- A witness of C4: with the maximum depth 1 the traversal of the sample tree
succeeds and returns `root/a.txt`, evaluated at depth 1, but not
`root/sub/b.txt`, evaluated at depth 2; with the maximum depth 0 the traversal
of the tree whose only file is `sub/b.txt` succeeds and returns nothing. -/
theorem stored_results_respect_depth_bounds_witness :
    sampleTree.opens = true ∧
    traversalOutcome sampleEnv
      { initParsedArguments with setMaximalDepth := true, maximalDepth := 0 }
      "root".toList subTree = some (true, some []) ∧
    ∃ st', findRecursive sampleEnv
        { initParsedArguments with setMaximalDepth := true, maximalDepth := 1 }
        "root".toList sampleTree initState 0 = some (true, st') ∧
      st'.res.read = some [⟨"root/a.txt".toList, 10⟩] := by
  refine ⟨rfl, by decide, ?_⟩
  obtain ⟨st', h1, h2, _⟩ := stored_results_respect_depth_bounds sampleEnv
    { initParsedArguments with setMaximalDepth := true, maximalDepth := 1 }
    "root".toList sampleTree initState [] rfl (fun _ => rfl) (by decide) (by decide)
    initResults_holds
  exact ⟨st', h1, h2.trans (by decide)⟩

mutual
theorem candidatesDir_showAll :
    ∀ (dir : Dir) (base : List Char) (trail : List (List Char)) (depth : Nat),
      candidatesDir true base trail dir depth = regularFilesDir base trail dir depth
  | .unreadable, _, _, _ => by simp [candidatesDir, regularFilesDir]
  | .stream entries, base, trail, depth => by
    simp only [candidatesDir, regularFilesDir]
    exact candidatesList_showAll entries base trail (depth + 1)
theorem candidatesList_showAll :
    ∀ (entries : List Entry) (base : List Char) (trail : List (List Char)) (depth : Nat),
      candidatesList true base trail depth entries = regularFilesList base trail depth entries
  | [], _, _, _ => by simp [candidatesList, regularFilesList]
  | e :: rest, base, trail, depth => by
    simp only [candidatesList, regularFilesList]
    rw [candidatesEntry_showAll e base trail depth, candidatesList_showAll rest base trail depth]
theorem candidatesEntry_showAll :
    ∀ (e : Entry) (base : List Char) (trail : List (List Char)) (depth : Nat),
      candidatesEntry true base trail depth e = regularFilesEntry base trail depth e
  | .mk d_name lstat dir, base, trail, depth => by
    have ih := candidatesDir_showAll dir (base ++ '/' :: d_name) (trail ++ [d_name]) depth
    simp only [candidatesEntry, regularFilesEntry, Bool.or_true, if_true, ih]
end

mutual
theorem candidatesDir_trail (showAll : Bool) :
    ∀ (dir : Dir) (base : List Char) (trail : List (List Char)) (depth : Nat),
      ∀ c ∈ candidatesDir showAll base trail dir depth,
        ∃ more, c.trail = trail ++ more ∧ c.path = joinPath base (more ++ [c.name]) ∧
          (showAll = false → ∀ n ∈ more, isHidden n = false)
  | .unreadable, _, _, _ => by simp [candidatesDir]
  | .stream entries, base, trail, depth => by
    intro c hc
    rw [candidatesDir] at hc
    exact candidatesList_trail showAll entries base trail (depth + 1) c hc
theorem candidatesList_trail (showAll : Bool) :
    ∀ (entries : List Entry) (base : List Char) (trail : List (List Char)) (depth : Nat),
      ∀ c ∈ candidatesList showAll base trail depth entries,
        ∃ more, c.trail = trail ++ more ∧ c.path = joinPath base (more ++ [c.name]) ∧
          (showAll = false → ∀ n ∈ more, isHidden n = false)
  | [], _, _, _ => by simp [candidatesList]
  | e :: rest, base, trail, depth => by
    intro c hc
    rw [candidatesList, List.mem_append] at hc
    rcases hc with hc | hc
    · exact candidatesEntry_trail showAll e base trail depth c hc
    · exact candidatesList_trail showAll rest base trail depth c hc
theorem candidatesEntry_trail (showAll : Bool) :
    ∀ (e : Entry) (base : List Char) (trail : List (List Char)) (depth : Nat),
      ∀ c ∈ candidatesEntry showAll base trail depth e,
        ∃ more, c.trail = trail ++ more ∧ c.path = joinPath base (more ++ [c.name]) ∧
          (showAll = false → ∀ n ∈ more, isHidden n = false)
  | .mk d_name lstat dir, base, trail, depth => by
    intro c hc
    simp only [candidatesEntry] at hc
    split at hc
    · simp at hc
    · split at hc
      · simp at hc
      · split at hc
        · split at hc
          · rename_i hdesc
            obtain ⟨more, h1, h2, h3⟩ := candidatesDir_trail showAll dir _ _ depth c hc
            refine ⟨d_name :: more, ?_, ?_, ?_⟩
            · simp [h1]
            · simp [h2, joinPath]
            · intro hs n hn
              rcases List.mem_cons.mp hn with rfl | hn
              · simpa [hs] using hdesc
              · exact h3 hs n hn
          · simp at hc
        · split at hc
          · simp at hc; subst hc
            exact ⟨[], by simp, by simp [joinPath], by simp⟩
          · simp at hc
end

theorem accepts_visible (env : Env) (pArgs : ParsedArguments) (c : Candidate)
    (hs : pArgs.setShowAll = false) (h : accepts env pArgs c = true) : isHidden c.name = false := by
  simp only [accepts, Bool.and_eq_true] at h
  obtain ⟨⟨_, hh⟩, _⟩ := h
  simpa [checkHidden, hs] using hh

/-- C5: without allocation failure, the results appended by the traversal are
those of the accepted candidates, each with the path made of the starting
directory and the entry names appended below it; while show-all is unset none of
these names, directory names or file name, starts with a dot; while show-all is
set the candidates are all the regular files below the starting directory,
whatever the names on the way, and `checkHidden` accepts every name. -/
theorem results_respect_hidden_rule (env : Env) (pArgs : ParsedArguments)
    (base : List Char) (root : Dir) (st : State) (l : List Result)
    (hopen : root.opens = true) (hheap : ∀ k, env.heap k = true)
    (hvalid : validArguments env pArgs = true) (hheight : root.height < 2 ^ 64)
    (hst : st.res.Holds l) :
    ∃ st', findRecursive env pArgs base root st 0 = some (true, st') ∧
      st'.res.read = some (l ++
        ((candidatesDir pArgs.setShowAll base [] root 0).filter (accepts env pArgs)).map
          Candidate.toResult) ∧
      (∀ c ∈ (candidatesDir pArgs.setShowAll base [] root 0).filter (accepts env pArgs),
        c.toResult.filePath = joinPath base (c.trail ++ [c.name]) ∧
        (pArgs.setShowAll = false → ∀ n ∈ c.trail ++ [c.name], isHidden n = false)) ∧
      (pArgs.setShowAll = true →
        candidatesDir pArgs.setShowAll base [] root 0 = regularFilesDir base [] root 0 ∧
        ∀ name, checkHidden pArgs name = true) := by
  obtain ⟨st', h, hst'⟩ := findRecursive_root env pArgs base root st l hheap hvalid hheight hst
  rw [hopen] at h
  refine ⟨st', h, hst'.read_eq, ?_, ?_⟩
  · intro c hc
    obtain ⟨hmem, hacc⟩ := List.mem_filter.mp hc
    obtain ⟨more, h1, h2, h3⟩ := candidatesDir_trail pArgs.setShowAll root base [] 0 c hmem
    simp only [List.nil_append] at h1
    subst h1
    refine ⟨h2, ?_⟩
    intro hs n hn
    rcases List.mem_append.mp hn with hn | hn
    · exact h3 hs n hn
    · simp only [List.mem_singleton] at hn
      subst hn
      exact accepts_visible env pArgs c hs hacc
  · intro hs
    refine ⟨?_, ?_⟩
    · rw [hs]; exact candidatesDir_showAll root base [] 0
    · intro name; simp [checkHidden, hs]

/-- A witness of C5: under the default configuration the hidden file of the
sample tree is not returned, and with show-all set it is. -/
theorem results_respect_hidden_rule_witness :
    sampleTree.opens = true ∧
    (∃ st', findRecursive sampleEnv initParsedArguments "root".toList sampleTree initState 0
        = some (true, st') ∧
      st'.res.read = some [⟨"root/a.txt".toList, 10⟩, ⟨"root/sub/b.txt".toList, 20⟩]) ∧
    (∃ st', findRecursive sampleEnv (setHiddenFiles initParsedArguments) "root".toList sampleTree
        initState 0 = some (true, st') ∧
      st'.res.read = some [⟨"root/a.txt".toList, 10⟩, ⟨"root/.hidden".toList, 5⟩,
        ⟨"root/sub/b.txt".toList, 20⟩]) := by
  refine ⟨rfl, ?_, ?_⟩
  · obtain ⟨st', h1, h2, _⟩ := results_respect_hidden_rule sampleEnv initParsedArguments
      "root".toList sampleTree initState [] rfl (fun _ => rfl) (by decide) (by decide)
      initResults_holds
    exact ⟨st', h1, h2.trans (by decide)⟩
  · obtain ⟨st', h1, h2, _⟩ := results_respect_hidden_rule sampleEnv
      (setHiddenFiles initParsedArguments) "root".toList sampleTree initState [] rfl
      (fun _ => rfl) (by decide) (by decide) initResults_holds
    exact ⟨st', h1, h2.trans (by decide)⟩

theorem createResult_true_holds (env : Env) (st st' : State) (l : List Result)
    (filePath : List Char) (fileSize : Nat) (hst : st.res.Holds l)
    (h : createResult env st filePath fileSize = some (true, st')) :
    st'.res.Holds (l ++ [⟨filePath, fileSize⟩]) := by
  by_cases hheap : st.res.arrayAllocatedSize ≤ st.res.arrayIndex → env.heap st.allocs = true
  · obtain ⟨st'', h', hst''⟩ := createResult_holds env st l filePath fileSize hst hheap
    rw [h'] at h
    cases h
    exact hst''
  · rw [Classical.not_imp] at hheap
    obtain ⟨hfull, hfail⟩ := hheap
    simp [createResult, hfull, hfail] at h

mutual
theorem findRecursive_holds (env : Env) (pArgs : ParsedArguments) :
    ∀ (dir : Dir) (base : List Char) (st : State) (l : List Result) (depth : Nat) (st' : State),
      st.res.Holds l → findRecursive env pArgs base dir st depth = some (true, st') →
      ∃ l', st'.res.Holds l'
  | .unreadable, base, st, l, depth, st' => by
    intro hst h
    simp only [findRecursive] at h
    split at h <;> simp at h
    exact ⟨l, h ▸ hst⟩
  | .stream entries, base, st, l, depth, st' => by
    intro hst h
    simp only [findRecursive] at h
    exact findLoop_holds env pArgs entries base st l _ true st' hst h
theorem findLoop_holds (env : Env) (pArgs : ParsedArguments) :
    ∀ (entries : List Entry) (base : List Char) (st : State) (l : List Result) (depth : Nat)
      (resultRec : Bool) (st' : State),
      st.res.Holds l → findLoop env pArgs base depth entries st resultRec = some (true, st') →
      ∃ l', st'.res.Holds l'
  | [], base, st, l, depth, resultRec, st' => by
    intro hst h
    simp only [findLoop, Option.some.injEq, Prod.mk.injEq] at h
    exact ⟨l, h.2 ▸ hst⟩
  | (.mk d_name lstat dir) :: rest, base, st, l, depth, resultRec, st' => by
    intro hst h
    have ihrest := findLoop_holds env pArgs rest base
    have ihentry := findEntry_holds env pArgs (.mk d_name lstat dir) (base ++ '/' :: d_name)
    simp only [findLoop, Entry.d_name, Entry.lstat] at h
    split at h
    · simp only [Option.some.injEq, Prod.mk.injEq] at h
      exact ⟨l, h.2 ▸ hst⟩
    · split at h
      · exact ihrest st l depth resultRec st' hst h
      · simp only [createFilePath] at h
        split at h
        · simp at h
        · rename_i currentPath allocs hpath
          have hst1 : ({ st with allocs := allocs } : State).res.Holds l := hst
          have hcp : currentPath = base ++ '/' :: d_name := by
            split at hpath <;> simp at hpath
            exact hpath.1.symm
          subst hcp
          split at h
          · exact ihrest _ l depth resultRec st' hst1 h
          · split at h
            · split at h
              · split at h
                · simp at h
                · rename_i r st2 hentry
                  cases r with
                  | false =>
                    cases rest with
                    | nil => simp [findLoop] at h
                    | cons e rest => simp [findLoop] at h
                  | true =>
                    obtain ⟨l2, hst2⟩ := ihentry _ l depth st2 hst1 hentry
                    exact ihrest st2 l2 depth true st' hst2 h
              · exact ihrest _ l depth resultRec st' hst1 h
            · split at h
              · split at h
                · simp at h
                · exact ihrest _ l depth resultRec st' hst1 h
                · split at h
                  · simp only [Option.some.injEq, Prod.mk.injEq] at h
                    exact ⟨l, h.2 ▸ hst1⟩
                  · split at h
                    · simp at h
                    · simp at h
                    · rename_i st2 hcreate
                      have hst2 := createResult_true_holds env _ st2 l _ _ hst1 hcreate
                      exact ihrest st2 _ depth resultRec st' hst2 h
              · exact ihrest _ l depth resultRec st' hst1 h
theorem findEntry_holds (env : Env) (pArgs : ParsedArguments) :
    ∀ (e : Entry) (currentPath : List Char) (st : State) (l : List Result) (depth : Nat)
      (st' : State),
      st.res.Holds l → findEntry env pArgs currentPath e st depth = some (true, st') →
      ∃ l', st'.res.Holds l'
  | .mk _ _ dir, currentPath, st, l, depth, st' => by
    intro hst h
    simp only [findEntry] at h
    exact findRecursive_holds env pArgs dir currentPath st l depth st' hst h
end

/-! ## The comparators -/

theorem WeakCmp.eq_zero_swap {cmp : Result → Result → Int} (h : WeakCmp cmp) (a b : Result) :
    cmp b a = 0 ↔ cmp a b = 0 := by
  have h1 := h.swap a b
  have h2 := h.swap b a
  constructor <;> intro h0 <;> omega

theorem WeakCmp.lt_of_lt_of_le {cmp : Result → Result → Int} (h : WeakCmp cmp) (a b c : Result)
    (hab : cmp a b < 0) (hbc : cmp b c ≤ 0) : cmp a c < 0 := by
  have hac := h.le_trans a b c (by omega) hbc
  by_contra hn
  have h0 : cmp a c = 0 := by omega
  have hca : cmp c a = 0 := (h.eq_zero_swap a c).2 h0
  have hcb := h.le_trans c a b (by omega) (by omega)
  have := h.swap b c
  have := h.swap c b
  have hbc0 : cmp b c = 0 := by omega
  have hba := h.le_trans b c a (by omega) (by omega)
  have := h.swap a b
  have := h.swap b a
  omega

theorem WeakCmp.lt_of_le_of_lt {cmp : Result → Result → Int} (h : WeakCmp cmp) (a b c : Result)
    (hab : cmp a b ≤ 0) (hbc : cmp b c < 0) : cmp a c < 0 := by
  have hac := h.le_trans a b c hab (by omega)
  by_contra hn
  have h0 : cmp a c = 0 := by omega
  have hca : cmp c a = 0 := (h.eq_zero_swap a c).2 h0
  have hba := h.le_trans b c a (by omega) (by omega)
  have := h.swap a b
  have := h.swap b a
  have hab0 : cmp a b = 0 := by omega
  have hcb := h.le_trans c a b (by omega) (by omega)
  have := h.swap b c
  have := h.swap c b
  omega

theorem WeakCmp.eq_trans {cmp : Result → Result → Int} (h : WeakCmp cmp) (a b c : Result)
    (hab : cmp a b = 0) (hbc : cmp b c = 0) : cmp a c = 0 := by
  have h1 := h.le_trans a b c (by omega) (by omega)
  have hba := (h.eq_zero_swap a b).2 hab
  have hcb := (h.eq_zero_swap b c).2 hbc
  have h2 := h.le_trans c b a (by omega) (by omega)
  have := h.swap a c
  have := h.swap c a
  omega

theorem WeakCmp.sign_swap {cmp : Result → Result → Int} (h : WeakCmp cmp) (a b : Result) :
    Int.sign (cmp b a) = - Int.sign (cmp a b) := by
  have h1 := h.swap a b
  have h2 := h.swap b a
  rcases Int.lt_trichotomy (cmp a b) 0 with hlt | heq | hgt
  · have hpos : 0 < cmp b a := h2.mp hlt
    rw [Int.sign_eq_one_of_pos hpos, Int.sign_eq_neg_one_of_neg hlt]
    rfl
  · have h0 : cmp b a = 0 := (h.eq_zero_swap a b).2 heq
    rw [h0, heq]
    rfl
  · have hneg : cmp b a < 0 := h1.mpr hgt
    rw [Int.sign_eq_one_of_pos hgt, Int.sign_eq_neg_one_of_neg hneg]

/-- A comparator that breaks the ties of a first comparator by a second one. -/
theorem WeakCmp.lex {c1 c2 : Result → Result → Int} (h1 : WeakCmp c1) (h2 : WeakCmp c2) :
    WeakCmp (fun a b => if c1 a b ≠ 0 then c1 a b else c2 a b) := by
  constructor
  · intro a b
    have s1 := h1.swap a b
    have s2 := h2.swap a b
    have z := h1.eq_zero_swap a b
    by_cases hz : c1 a b = 0
    · have hz' := z.2 hz
      simp [hz, hz', s2]
    · have hz' : c1 b a ≠ 0 := fun e => hz (z.1 e)
      simp [hz, hz', s1]
  · intro a b c hab hbc
    simp only at hab hbc ⊢
    by_cases hab0 : c1 a b = 0
    · by_cases hbc0 : c1 b c = 0
      · have hac0 := h1.eq_trans a b c hab0 hbc0
        simp [hab0, hbc0, hac0] at hab hbc ⊢
        exact h2.le_trans a b c hab hbc
      · simp [hab0, hbc0] at hab hbc
        have hlt := h1.lt_of_le_of_lt a b c (by omega) (by omega)
        have hne : c1 a c ≠ 0 := by omega
        simp [hne]; omega
    · simp [hab0] at hab
      have hbc' : c1 b c ≤ 0 := by
        by_cases hbc0 : c1 b c = 0
        · omega
        · simp [hbc0] at hbc; exact hbc
      have hlt := h1.lt_of_lt_of_le a b c (by omega) hbc'
      have hne : c1 a c ≠ 0 := by omega
      simp [hne]; omega

theorem strcmp_swap : ∀ s t : List Char, strcmp t s < 0 ↔ 0 < strcmp s t
  | [], [] => by simp [strcmp]
  | [], _ :: _ => by simp [strcmp]
  | _ :: _, [] => by simp [strcmp]
  | a :: s, b :: t => by
    have ih := strcmp_swap s t
    by_cases hab : a.toNat = b.toNat
    · simp [strcmp, hab, ih]
    · have hba : ¬ b.toNat = a.toNat := fun e => hab e.symm
      simp only [strcmp, ne_eq, hab, hba, not_false_eq_true, if_true]
      omega

theorem strcmp_le_trans : ∀ s t u : List Char, strcmp s t ≤ 0 → strcmp t u ≤ 0 → strcmp s u ≤ 0
  | [], [], [] => by simp [strcmp]
  | [], [], _ :: _ => by simp [strcmp]
  | [], _ :: _, [] => by simp [strcmp]
  | [], _ :: _, _ :: _ => by simp [strcmp]
  | _ :: _, [], _ => by simp [strcmp]
  | _ :: _, _ :: _, [] => by
    intro _ h; simp [strcmp] at h
  | a :: s, b :: t, c :: u => by
    have ih := strcmp_le_trans s t u
    simp only [strcmp, ne_eq]
    intro h1 h2
    split_ifs at h1 h2 ⊢ <;> omega

theorem strcmp_eq_zero : ∀ s t : List Char, strcmp s t = 0 ↔ s = t
  | [], [] => by simp [strcmp]
  | [], _ :: _ => by simp [strcmp]
  | _ :: _, [] => by simp [strcmp]
  | a :: s, b :: t => by
    have ih := strcmp_eq_zero s t
    by_cases hab : a.toNat = b.toNat
    · have : a = b := Char.ext (UInt32.ext (by simpa [Char.toNat] using hab))
      simp [strcmp, hab, ih, this]
    · have hne : a ≠ b := fun e => hab (by rw [e])
      simp only [strcmp, ne_eq, hab, not_false_eq_true, if_true, List.cons.injEq, hne, false_and,
        iff_false]
      omega

theorem strCmpCI_swap : ∀ s t : List Char, strCmpCI t s < 0 ↔ 0 < strCmpCI s t
  | [], [] => by simp [strCmpCI]
  | [], _ :: _ => by simp [strCmpCI]
  | _ :: _, [] => by simp [strCmpCI]
  | a :: s, b :: t => by
    have ih := strCmpCI_swap s t
    simp only [strCmpCI, ne_eq]
    split_ifs <;> omega

theorem strCmpCI_le_trans :
    ∀ s t u : List Char, strCmpCI s t ≤ 0 → strCmpCI t u ≤ 0 → strCmpCI s u ≤ 0
  | [], [], [] => by simp [strCmpCI]
  | [], [], _ :: _ => by simp [strCmpCI]
  | [], _ :: _, [] => by simp [strCmpCI]
  | [], _ :: _, _ :: _ => by simp [strCmpCI]
  | _ :: _, [], _ => by simp [strCmpCI]
  | _ :: _, _ :: _, [] => by
    intro _ h; simp [strCmpCI] at h
  | a :: s, b :: t, c :: u => by
    have ih := strCmpCI_le_trans s t u
    simp only [strCmpCI, ne_eq]
    intro h1 h2
    split_ifs at h1 h2 ⊢ <;> omega

theorem weakCmp_sortByFilePath : WeakCmp sortByFilePath :=
  ⟨fun a b => strcmp_swap a.filePath b.filePath,
   fun a b c => strcmp_le_trans a.filePath b.filePath c.filePath⟩

theorem weakCmp_fileNameCI :
    WeakCmp (fun a b => strCmpCI (getFileName a.filePath) (getFileName b.filePath)) :=
  ⟨fun a b => strCmpCI_swap (getFileName a.filePath) (getFileName b.filePath),
   fun a b c => strCmpCI_le_trans (getFileName a.filePath) (getFileName b.filePath)
     (getFileName c.filePath)⟩

theorem weakCmp_sortByFileName : WeakCmp sortByFileName :=
  weakCmp_fileNameCI.lex weakCmp_sortByFilePath

theorem weakCmp_sortByFileSize : WeakCmp sortByFileSize := by
  have hn := weakCmp_sortByFileName
  constructor
  · intro a b
    have := hn.swap a b
    simp only [sortByFileSize, gt_iff_lt]
    split_ifs <;> omega
  · intro a b c
    have := hn.le_trans a b c
    simp only [sortByFileSize, gt_iff_lt]
    split_ifs <;> omega

theorem sortByFilePath_eq_zero (a b : Result) (h : sortByFilePath a b = 0) :
    a.filePath = b.filePath :=
  (strcmp_eq_zero a.filePath b.filePath).mp h

theorem sortByFileName_eq_zero (a b : Result) (h : sortByFileName a b = 0) :
    a.filePath = b.filePath := by
  simp only [sortByFileName] at h
  split_ifs at h with h0
  · exact absurd h h0
  · exact (strcmp_eq_zero a.filePath b.filePath).mp h

theorem sortByFileSize_eq_zero (a b : Result) (h : sortByFileSize a b = 0) :
    a.filePath = b.filePath := by
  simp only [sortByFileSize, gt_iff_lt] at h
  split_ifs at h
  · omega
  · exact sortByFileName_eq_zero a b h

theorem mem_sortTypeTable (cmp : Result → Result → Int) (h : cmp ∈ sortTypeTable) :
    cmp = sortByFileName ∨ cmp = sortByFilePath ∨ cmp = sortByFileSize := by
  simpa [sortTypeTable] using h

theorem weakCmp_of_mem_sortTypeTable (cmp : Result → Result → Int) (h : cmp ∈ sortTypeTable) :
    WeakCmp cmp := by
  rcases mem_sortTypeTable cmp h with rfl | rfl | rfl
  · exact weakCmp_sortByFileName
  · exact weakCmp_sortByFilePath
  · exact weakCmp_sortByFileSize

/-- C10: each comparator of the table (`sortByFileName`, `sortByFilePath`,
`sortByFileSize`) is a strict total order on results with distinct paths: for
such `a` and `b` exactly one of `cmp a b < 0` and `cmp a b > 0` holds and the
result is never 0; the sign of `cmp b a` is the opposite of that of `cmp a b`;
and `cmp a b < 0` with `cmp b c < 0` gives `cmp a c < 0`. -/
theorem comparators_strict_total_order (cmp : Result → Result → Int)
    (hcmp : cmp ∈ sortTypeTable) :
    (∀ a b : Result, a.filePath ≠ b.filePath →
      cmp a b ≠ 0 ∧ (cmp a b < 0 ∨ cmp a b > 0) ∧ ¬ (cmp a b < 0 ∧ cmp a b > 0)) ∧
    (∀ a b : Result, Int.sign (cmp b a) = - Int.sign (cmp a b)) ∧
    (∀ a b c : Result, cmp a b < 0 → cmp b c < 0 → cmp a c < 0) := by
  have hweak := weakCmp_of_mem_sortTypeTable cmp hcmp
  have hzero : ∀ a b : Result, cmp a b = 0 → a.filePath = b.filePath := by
    rcases mem_sortTypeTable cmp hcmp with rfl | rfl | rfl
    · exact sortByFileName_eq_zero
    · exact sortByFilePath_eq_zero
    · exact sortByFileSize_eq_zero
  refine ⟨?_, hweak.sign_swap, ?_⟩
  · intro a b hne
    have h0 : cmp a b ≠ 0 := fun e => hne (hzero a b e)
    refine ⟨h0, ?_, ?_⟩ <;> omega
  · intro a b c hab hbc
    exact hweak.lt_of_lt_of_le a b c hab (by omega)

/-- A witness of C10: `sortByFileSize` on two results of equal size whose file
names differ only in case. -/
theorem comparators_strict_total_order_witness :
    sortByFileSize ∈ sortTypeTable ∧
    sortByFileSize ⟨"root/A.txt".toList, 3⟩ ⟨"root/a.txt".toList, 3⟩ ≠ 0 ∧
    Int.sign (sortByFileSize ⟨"root/a.txt".toList, 3⟩ ⟨"root/A.txt".toList, 3⟩) =
      - Int.sign (sortByFileSize ⟨"root/A.txt".toList, 3⟩ ⟨"root/a.txt".toList, 3⟩) := by
  have hmem : sortByFileSize ∈ sortTypeTable := by simp [sortTypeTable]
  obtain ⟨h1, h2, _⟩ := comparators_strict_total_order sortByFileSize hmem
  exact ⟨hmem, (h1 _ _ (by decide)).1, h2 _ _⟩

/-! ## Sorting and printing -/

theorem qsort_contract : SorterContract qsort := by
  intro compar base hweak
  haveI : IsTotal Result (fun a b => compar a b ≤ 0) := ⟨fun a b => by
    have := hweak.swap a b
    by_cases h : compar a b ≤ 0
    · exact Or.inl h
    · exact Or.inr (by omega)⟩
  haveI : IsTrans Result (fun a b => compar a b ≤ 0) := ⟨hweak.le_trans⟩
  exact ⟨List.perm_insertionSort _ base, List.sorted_insertionSort _ base⟩

theorem sortResults_holds (sort : Sorter) (pArgs : ParsedArguments) (res : Results)
    (l : List Result) (cmp : Result → Result → Int) (hres : res.Holds l)
    (hcmp : sortTypeTable[pArgs.sortType]? = some cmp) (hlen : (sort cmp l).length = l.length) :
    ∃ sorted, sortResults sort pArgs res = some sorted ∧ sorted.Holds (sort cmp l) := by
  obtain ⟨free, hfree⟩ := hres.slots
  refine ⟨{ res with
      resultsArray := (sort cmp l).map some ++ res.resultsArray.drop res.arrayIndex },
    by simp only [sortResults, hcmp, hres.read_eq], ?_, ?_, ?_⟩
  · simp [hres.index, hlen]
  · have := hres.size
    simp only [List.length_append, List.length_map, List.length_drop, hlen]
    rw [hfree] at this ⊢
    simp only [List.length_append, List.length_map] at this ⊢
    rw [hres.index]
    omega
  · exact ⟨_, rfl⟩

theorem find_of_success (env : Env) (sort : Sorter) (pArgs : ParsedArguments) (root : Dir)
    (st : State) (cmp : Result → Result → Int) (hhelp : pArgs.showHelp = false)
    (hcmp : sortTypeTable[pArgs.sortType]? = some cmp)
    (hlen : ∀ l, (sort cmp l).length = l.length)
    (hok : findRecursive env pArgs (pArgs.startDirectory.getD ['.']) root initState 0
      = some (true, st)) :
    ∃ results, st.res.read = some results ∧
      find env sort pArgs root =
        some (true, (sort cmp results).flatMap (fun r => r.filePath ++ [pArgs.lineBreak])) := by
  obtain ⟨results, hres⟩ := findRecursive_holds env pArgs root _ initState [] 0 st
    initResults_holds hok
  obtain ⟨sorted, hsorted, hholds⟩ := sortResults_holds sort pArgs st.res results cmp hres hcmp
    (hlen results)
  refine ⟨results, hres.read_eq, ?_⟩
  have hok' : findRecursive env pArgs (pArgs.startDirectory.getD ['.']) root
      { res := initResults, allocs := 0 } 0 = some (true, st) := hok
  simp only [find, hhelp, Bool.false_eq_true, if_false, hok', if_true, hsorted, printResults,
    hholds.read_eq]

/-- C6: if the traversal fails, `find` returns false and writes nothing to
standard output, whatever the store holds at that point. -/
theorem find_prints_nothing_on_failure (env : Env) (sort : Sorter) (pArgs : ParsedArguments)
    (root : Dir) (st : State) (hhelp : pArgs.showHelp = false)
    (hfail : findRecursive env pArgs (pArgs.startDirectory.getD ['.']) root initState 0
      = some (false, st)) :
    find env sort pArgs root = some (false, []) := by
  have hfail' : findRecursive env pArgs (pArgs.startDirectory.getD ['.']) root
      { res := initResults, allocs := 0 } 0 = some (false, st) := hfail
  simp only [find, hhelp, Bool.false_eq_true, if_false, hfail']

/-- A witness of C6: the third allocation request fails when `a.txt` has been
stored; nothing is printed. -/
theorem find_prints_nothing_on_failure_witness :
    (∃ st, findRecursive thirdAllocationFails initParsedArguments ['.'] twoFiles initState 0
        = some (false, st) ∧ st.res.arrayIndex = 1 ∧
        st.res.resultsArray.head? = some (some ⟨"./a.txt".toList, 10⟩)) ∧
    find thirdAllocationFails qsort initParsedArguments twoFiles = some (false, []) := by
  have h : ∃ st, findRecursive thirdAllocationFails initParsedArguments ['.'] twoFiles
      initState 0 = some (false, st) ∧ st.res.arrayIndex = 1 ∧
      st.res.resultsArray.head? = some (some ⟨"./a.txt".toList, 10⟩) :=
    ⟨_, rfl, rfl, rfl⟩
  obtain ⟨st, hst, h1, h2⟩ := h
  exact ⟨⟨st, hst, h1, h2⟩,
    find_prints_nothing_on_failure thirdAllocationFails qsort initParsedArguments twoFiles st rfl
      hst⟩

/-- C7: if the traversal succeeds, `find` returns true and standard output is
the concatenation, over a rearrangement of the collected results in which no
result is greater than a later one for the selected comparator, of each path
followed by the terminator; the terminator is the newline by default and the
null character after `-0`. -/
theorem find_prints_sorted_results (env : Env) (sort : Sorter) (pArgs : ParsedArguments)
    (root : Dir) (st : State) (cmp : Result → Result → Int) (hsort : SorterContract sort)
    (hhelp : pArgs.showHelp = false) (hcmp : sortTypeTable[pArgs.sortType]? = some cmp)
    (hok : findRecursive env pArgs (pArgs.startDirectory.getD ['.']) root initState 0
      = some (true, st)) :
    (∃ results sorted : List Result, st.res.read = some results ∧ sorted.Perm results ∧
      sorted.Pairwise (fun a b => cmp a b ≤ 0) ∧
      find env sort pArgs root =
        some (true, sorted.flatMap (fun r => r.filePath ++ [pArgs.lineBreak]))) ∧
    initParsedArguments.lineBreak = '\n' ∧
    (setNullCharTerminator pArgs).lineBreak = Char.ofNat 0 := by
  have hweak : WeakCmp cmp :=
    weakCmp_of_mem_sortTypeTable cmp (List.getElem?_mem hcmp)
  obtain ⟨results, hread, hfind⟩ := find_of_success env sort pArgs root st cmp hhelp hcmp
    (fun l => (hsort cmp l hweak).1.length_eq) hok
  exact ⟨⟨results, sort cmp results, hread, (hsort cmp results hweak).1,
    (hsort cmp results hweak).2, hfind⟩, rfl, rfl⟩

/-- A witness of C7: the scenario of the specification sorted by size, with
show-all set. -/
theorem find_prints_sorted_results_witness :
    SorterContract qsort ∧
    (∃ results sorted : List Result, sorted.Perm results ∧
      sorted.Pairwise (fun a b => sortByFileSize a b ≤ 0) ∧
      find sampleEnv qsort
        { setHiddenFiles initParsedArguments with
          sortType := 2, startDirectory := some "root".toList } sampleTree
        = some (true, sorted.flatMap (fun r => r.filePath ++ ['\n']))) ∧
    find sampleEnv qsort
      { setHiddenFiles initParsedArguments with
        sortType := 2, startDirectory := some "root".toList } sampleTree
      = some (true, "root/sub/b.txt\nroot/a.txt\nroot/.hidden\n".toList) := by
  refine ⟨qsort_contract, ?_, by decide⟩
  have hok : ∃ st, findRecursive sampleEnv
      { setHiddenFiles initParsedArguments with
        sortType := 2, startDirectory := some "root".toList }
      "root".toList sampleTree initState 0 = some (true, st) := ⟨_, rfl⟩
  obtain ⟨st, hst⟩ := hok
  obtain ⟨⟨results, sorted, _, hperm, hsorted, hfind⟩, _⟩ := find_prints_sorted_results
    sampleEnv qsort
    { setHiddenFiles initParsedArguments with
      sortType := 2, startDirectory := some "root".toList }
    sampleTree st sortByFileSize qsort_contract rfl rfl hst
  exact ⟨results, sorted, hperm, hsorted, hfind⟩

/-! ## Failures -/

/-- C8: without allocation failure, `findRecursive` called at depth 0 returns
false iff the starting directory cannot be opened, whatever directories below
it cannot be opened and whatever entries `lstat` fails for. -/
theorem findRecursive_false_iff_root_unreadable (env : Env) (pArgs : ParsedArguments)
    (base : List Char) (root : Dir) (st : State) (l : List Result)
    (hheap : ∀ k, env.heap k = true) (hvalid : validArguments env pArgs = true)
    (hheight : root.height < 2 ^ 64) (hst : st.res.Holds l) :
    ∃ b st', findRecursive env pArgs base root st 0 = some (b, st') ∧
      (b = false ↔ root.opens = false) := by
  obtain ⟨st', h, _⟩ := findRecursive_root env pArgs base root st l hheap hvalid hheight hst
  exact ⟨root.opens, st', h, Iff.rfl⟩

/-- A witness of C8: a tree with a directory that cannot be opened and an entry
for which `lstat` fails is traversed with success, and the traversal of a
starting directory that cannot be opened fails. -/
theorem findRecursive_false_iff_root_unreadable_witness :
    traversalOutcome sampleEnv initParsedArguments "root".toList treeWithFailures
      = some (true, some [⟨"root/a.txt".toList, 10⟩, ⟨"root/sub/b.txt".toList, 20⟩]) ∧
    traversalOutcome sampleEnv initParsedArguments "root".toList Dir.unreadable
      = some (false, some []) ∧
    ∃ b st', findRecursive sampleEnv initParsedArguments "root".toList treeWithFailures
        initState 0 = some (b, st') ∧ (b = false ↔ treeWithFailures.opens = false) :=
  ⟨by decide, by decide,
    findRecursive_false_iff_root_unreadable sampleEnv initParsedArguments "root".toList
      treeWithFailures initState [] (fun _ => rfl) (by decide) (by decide) initResults_holds⟩

theorem candidatesList_append (showAll : Bool) (base : List Char) (trail : List (List Char))
    (depth : Nat) (xs ys : List Entry) :
    candidatesList showAll base trail depth (xs ++ ys) =
      candidatesList showAll base trail depth xs ++ candidatesList showAll base trail depth ys := by
  induction xs with
  | nil => simp [candidatesList]
  | cons x xs ih => simp [candidatesList, ih]

theorem candidatesList_fill (showAll : Bool) (xs ys : List Entry)
    (h : ∀ base trail depth, candidatesList showAll base trail depth xs =
      candidatesList showAll base trail depth ys) :
    ∀ (place : Place) (base : List Char) (trail : List (List Char)) (depth : Nat),
      candidatesList showAll base trail depth (place.fill xs) =
        candidatesList showAll base trail depth (place.fill ys) := by
  intro place
  induction place with
  | here before after =>
    intro base trail depth
    simp only [Place.fill, candidatesList_append, h]
  | inside before d_name buf inner after ih =>
    intro base trail depth
    simp only [Place.fill, candidatesList_append, candidatesList, candidatesEntry, candidatesDir,
      ih]

theorem candidatesList_unreadable (showAll : Bool) (d_name : List Char) (buf : Stat)
    (base : List Char) (trail : List (List Char)) (depth : Nat) :
    candidatesList showAll base trail depth [Entry.mk d_name (some buf) .unreadable] =
      candidatesList showAll base trail depth [Entry.mk d_name (some buf) (.stream [])] := by
  simp [candidatesList, candidatesEntry, candidatesDir]

theorem candidatesList_lstat_fails (showAll : Bool) (d_name : List Char) (dir : Dir)
    (base : List Char) (trail : List (List Char)) (depth : Nat) :
    candidatesList showAll base trail depth [Entry.mk d_name none dir] =
      candidatesList showAll base trail depth [] := by
  simp [candidatesList, candidatesEntry]

theorem traversalOutcome_eq (env : Env) (pArgs : ParsedArguments) (base : List Char)
    (entries : List Entry) (hheap : ∀ k, env.heap k = true)
    (hvalid : validArguments env pArgs = true)
    (hheight : (Dir.stream entries).height < 2 ^ 64) :
    traversalOutcome env pArgs base (.stream entries) =
      some (true, some (storedFor env pArgs (candidatesList pArgs.setShowAll base [] 1 entries))) := by
  obtain ⟨st', h, hst'⟩ := findRecursive_root env pArgs base (.stream entries) initState []
    hheap hvalid hheight initResults_holds
  simp only [traversalOutcome, h, hst'.read_eq, Dir.opens, expectedResults, candidatesDir,
    List.nil_append, storedFor]

/-- C9: without allocation failure, at any place of any tree, the traversal of
the tree with a directory that cannot be opened at that place gives the results
(and the return value true) of the tree with an empty directory there, and the
traversal of the tree with an entry for which `lstat` fails at that place gives
those of the tree without that entry; all other entries are processed alike. -/
theorem recoverable_errors_absorbed (env : Env) (pArgs : ParsedArguments) (base : List Char)
    (place : Place) (d_name : List Char) (buf : Stat) (dir : Dir)
    (hheap : ∀ k, env.heap k = true) (hvalid : validArguments env pArgs = true)
    (hlocked : (Dir.stream (place.fill [Entry.mk d_name (some buf) .unreadable])).height < 2 ^ 64)
    (hempty : (Dir.stream (place.fill [Entry.mk d_name (some buf) (.stream [])])).height < 2 ^ 64)
    (hgone : (Dir.stream (place.fill [Entry.mk d_name none dir])).height < 2 ^ 64)
    (hwithout : (Dir.stream (place.fill [])).height < 2 ^ 64) :
    (∃ results,
      traversalOutcome env pArgs base (.stream (place.fill [Entry.mk d_name (some buf) .unreadable]))
        = some (true, some results) ∧
      traversalOutcome env pArgs base (.stream (place.fill [Entry.mk d_name (some buf) (.stream [])]))
        = some (true, some results)) ∧
    (∃ results,
      traversalOutcome env pArgs base (.stream (place.fill [Entry.mk d_name none dir]))
        = some (true, some results) ∧
      traversalOutcome env pArgs base (.stream (place.fill [])) = some (true, some results)) := by
  refine ⟨⟨_, traversalOutcome_eq env pArgs base _ hheap hvalid hlocked, ?_⟩,
    ⟨_, traversalOutcome_eq env pArgs base _ hheap hvalid hgone, ?_⟩⟩
  · rw [traversalOutcome_eq env pArgs base _ hheap hvalid hempty,
      candidatesList_fill pArgs.setShowAll _ _
        (candidatesList_unreadable pArgs.setShowAll d_name buf) place base [] 1]
  · rw [traversalOutcome_eq env pArgs base _ hheap hvalid hwithout,
      candidatesList_fill pArgs.setShowAll _ _
        (candidatesList_lstat_fails pArgs.setShowAll d_name dir) place base [] 1]

/-- A witness of C9: in the directory `sub`, a directory `locked` that cannot be
opened counts as an empty one and an entry `gone` without metadata as none; the
files `sub/b.txt` and `a.txt` are returned all the same. -/
theorem recoverable_errors_absorbed_witness :
    traversalOutcome sampleEnv initParsedArguments "root".toList
      (.stream (placeInSub.fill [Entry.mk "locked".toList (some directoryStat) .unreadable]))
      = some (true, some [⟨"root/sub/b.txt".toList, 20⟩, ⟨"root/a.txt".toList, 10⟩]) ∧
    traversalOutcome sampleEnv initParsedArguments "root".toList
      (.stream (placeInSub.fill [Entry.mk "gone".toList none .unreadable]))
      = some (true, some [⟨"root/sub/b.txt".toList, 20⟩, ⟨"root/a.txt".toList, 10⟩]) ∧
    ((∃ results,
      traversalOutcome sampleEnv initParsedArguments "root".toList
        (.stream (placeInSub.fill [Entry.mk "locked".toList (some directoryStat) .unreadable]))
        = some (true, some results) ∧
      traversalOutcome sampleEnv initParsedArguments "root".toList
        (.stream (placeInSub.fill [Entry.mk "locked".toList (some directoryStat) (.stream [])]))
        = some (true, some results)) ∧
    (∃ results,
      traversalOutcome sampleEnv initParsedArguments "root".toList
        (.stream (placeInSub.fill [Entry.mk "locked".toList none .unreadable]))
        = some (true, some results) ∧
      traversalOutcome sampleEnv initParsedArguments "root".toList
        (.stream (placeInSub.fill [])) = some (true, some results))) :=
  ⟨by decide, by decide,
    recoverable_errors_absorbed sampleEnv initParsedArguments "root".toList placeInSub
      "locked".toList directoryStat .unreadable (fun _ => rfl) (by decide) (by decide)
      (by decide) (by decide) (by decide)⟩

/-! ## The order by file name and by size -/

theorem afterLastSlash_of_not_mem : ∀ p : List Char, '/' ∉ p → afterLastSlash p = p
  | [], _ => rfl
  | c :: rest, h => by
    simp only [List.mem_cons, not_or] at h
    have hc : c ≠ '/' := fun e => h.1 e.symm
    simp [afterLastSlash, h.2, hc]

theorem getFileName_go : ∀ iter filePath : List Char,
    getFileName.go iter filePath = if '/' ∈ iter then afterLastSlash iter else filePath
  | [], filePath => by simp [getFileName.go]
  | c :: iter, filePath => by
    simp only [getFileName.go, getFileName_go iter, afterLastSlash, List.mem_cons]
    by_cases hc : c = '/'
    · subst hc
      by_cases hi : '/' ∈ iter
      · simp [hi]
      · simp [hi]
    · have hc' : ¬ '/' = c := fun e => hc e.symm
      by_cases hi : '/' ∈ iter
      · simp [hc, hc', hi]
      · simp [hc, hc', hi]

theorem getFileName_eq_afterLastSlash (p : List Char) : getFileName p = afterLastSlash p := by
  unfold getFileName
  rw [getFileName_go]
  by_cases h : '/' ∈ p
  · simp [h]
  · simp [h, afterLastSlash_of_not_mem p h]

/-- C12: `sortByFileSize a b` is negative when the size of `a` is larger than
that of `b`, positive when it is smaller and `sortByFileName a b` when the sizes
are equal; hence a list in which no element is greater than a later one for
`sortByFileSize` has non-increasing sizes. -/
theorem sortByFileSize_spec (a b : Result) (l : List Result) :
    (a.fileSize > b.fileSize → sortByFileSize a b < 0) ∧
    (a.fileSize < b.fileSize → sortByFileSize a b > 0) ∧
    (a.fileSize = b.fileSize → sortByFileSize a b = sortByFileName a b) ∧
    (l.Pairwise (fun x y => sortByFileSize x y ≤ 0) →
      l.Pairwise (fun x y => x.fileSize ≥ y.fileSize)) := by
  refine ⟨?_, ?_, ?_, ?_⟩
  · intro h
    simp [sortByFileSize, h]
  · intro h
    have h' : ¬ a.fileSize > b.fileSize := by omega
    simp [sortByFileSize, h, h']
  · intro h
    simp [sortByFileSize, h]
  · intro hl
    refine hl.imp ?_
    intro x y hxy
    by_contra hlt
    have hlt' : x.fileSize < y.fileSize := by omega
    have h' : ¬ x.fileSize > y.fileSize := by omega
    simp [sortByFileSize, hlt', h'] at hxy

/-- A witness of C12: sorted by size, the results of the scenario are `b.txt`
(20), `a.txt` (10), `.hidden` (5). -/
theorem sortByFileSize_spec_witness :
    qsort sortByFileSize scenarioResults =
      [⟨"root/sub/b.txt".toList, 20⟩, ⟨"root/a.txt".toList, 10⟩, ⟨"root/.hidden".toList, 5⟩] ∧
    (qsort sortByFileSize scenarioResults).map Result.fileSize = [20, 10, 5] ∧
    (qsort sortByFileSize scenarioResults).Pairwise (fun x y => x.fileSize ≥ y.fileSize) ∧
    sortByFileSize ⟨"root/sub/b.txt".toList, 20⟩ ⟨"root/a.txt".toList, 10⟩ < 0 :=
  ⟨by decide, by decide,
    (sortByFileSize_spec ⟨"root/sub/b.txt".toList, 20⟩ ⟨"root/a.txt".toList, 10⟩
      (qsort sortByFileSize scenarioResults)).2.2.2
      ((qsort_contract sortByFileSize scenarioResults weakCmp_sortByFileSize).2),
    (sortByFileSize_spec ⟨"root/sub/b.txt".toList, 20⟩ ⟨"root/a.txt".toList, 10⟩ []).1
      (by decide)⟩

/-! ## The filters, one by one -/

theorem and_two_pow_ne_zero (m k : Nat) : m &&& 2 ^ k ≠ 0 ↔ m / 2 ^ k % 2 = 1 := by
  have hbit : m.testBit k = decide (m / 2 ^ k % 2 = 1) := Nat.testBit_to_div_mod
  constructor
  · intro h
    by_contra hn
    apply h
    apply Nat.eq_of_testBit_eq
    intro i
    rw [Nat.testBit_and, Nat.testBit_two_pow, Nat.zero_testBit]
    by_cases hki : k = i
    · subst hki
      simp [hbit, hn]
    · simp [hki]
  · intro h e
    have h1 : (m &&& 2 ^ k).testBit k = true := by
      rw [Nat.testBit_and, Nat.testBit_two_pow, hbit]
      simp [h]
    rw [e, Nat.zero_testBit] at h1
    exact absurd h1 (by decide)

theorem ite_permBit (m b k : Nat) (hb : b = 2 ^ k) (x c : Int) :
    (if m &&& b ≠ 0 then x + c else x + 0) = x + c * permBit m k := by
  subst hb
  have h := and_two_pow_ne_zero m k
  unfold permBit
  by_cases hk : m / 2 ^ k % 2 = 1
  · rw [if_pos (h.mpr hk), hk]
    simp
  · have h0 : m / 2 ^ k % 2 = 0 := by omega
    rw [if_neg (fun e => hk (h.mp e)), h0]
    simp

theorem getMask_eq (statPtr : Stat) :
    getMask statPtr =
      100 * (4 * permBit statPtr.st_mode 8 + 2 * permBit statPtr.st_mode 7
        + permBit statPtr.st_mode 6)
      + 10 * (4 * permBit statPtr.st_mode 5 + 2 * permBit statPtr.st_mode 4
        + permBit statPtr.st_mode 3)
      + (4 * permBit statPtr.st_mode 2 + 2 * permBit statPtr.st_mode 1
        + permBit statPtr.st_mode 0) := by
  unfold getMask
  simp only []
  rw [ite_permBit _ S_IRUSR 8 rfl, ite_permBit _ S_IWUSR 7 rfl, ite_permBit _ S_IXUSR 6 rfl,
    ite_permBit _ S_IRGRP 5 rfl, ite_permBit _ S_IWGRP 4 rfl, ite_permBit _ S_IXGRP 3 rfl,
    ite_permBit _ S_IROTH 2 rfl, ite_permBit _ S_IWOTH 1 rfl, ite_permBit _ S_IXOTH 0 rfl]
  ring

theorem permBit_mod (m k : Nat) (hk : k < 9) : permBit (m % 512) k = permBit m k := by
  unfold permBit
  have h512 : 512 = 2 ^ k * 2 ^ (9 - k) := by
    rw [← Nat.pow_add]
    have : k + (9 - k) = 9 := by omega
    rw [this]
  have h2 : 2 ∣ 2 ^ (9 - k) := by
    have : 9 - k = (9 - k - 1) + 1 := by omega
    rw [this, Nat.pow_succ]
    exact Nat.dvd_mul_left 2 _
  congr 1
  rw [h512, Nat.mod_mul_right_div_self, Nat.mod_mod_of_dvd _ h2]

/-- C13: `getMask` returns the decimal-coded octal mask
`100 * (4 ur + 2 uw + ux) + 10 * (4 gr + 2 gw + gx) + (4 or + 2 ow + ox)` of the
nine permission bits of the mode and is the same for two modes with the same
nine low bits; with the mask option set, `checkPermissions` returns true iff
that value equals the configured mask. -/
theorem getMask_spec (statPtr other : Stat) (pArgs : ParsedArguments) :
    getMask statPtr =
      100 * (4 * permBit statPtr.st_mode 8 + 2 * permBit statPtr.st_mode 7
        + permBit statPtr.st_mode 6)
      + 10 * (4 * permBit statPtr.st_mode 5 + 2 * permBit statPtr.st_mode 4
        + permBit statPtr.st_mode 3)
      + (4 * permBit statPtr.st_mode 2 + 2 * permBit statPtr.st_mode 1
        + permBit statPtr.st_mode 0) ∧
    (other.st_mode % 512 = statPtr.st_mode % 512 → getMask other = getMask statPtr) ∧
    (pArgs.setMask = true →
      (checkPermissions pArgs (getMask statPtr) = true ↔ getMask statPtr = pArgs.mask)) := by
  refine ⟨getMask_eq statPtr, ?_, ?_⟩
  · intro h
    rw [getMask_eq, getMask_eq]
    have hb : ∀ k, k < 9 → permBit other.st_mode k = permBit statPtr.st_mode k := by
      intro k hk
      rw [← permBit_mod other.st_mode k hk, ← permBit_mod statPtr.st_mode k hk, h]
    rw [hb 8 (by omega), hb 7 (by omega), hb 6 (by omega), hb 5 (by omega), hb 4 (by omega),
      hb 3 (by omega), hb 2 (by omega), hb 1 (by omega), hb 0 (by omega)]
  · intro h
    simp [checkPermissions, h]

/-- A witness of C13: the mode `rwxr-xr--` gives 754, is accepted by the mask
754 and is rejected by the mask 755; the file-type bits play no part. -/
theorem getMask_spec_witness :
    getMask permissionSample = 754 ∧
    checkPermissions { initParsedArguments with setMask := true, mask := 754 }
      (getMask permissionSample) = true ∧
    checkPermissions { initParsedArguments with setMask := true, mask := 755 }
      (getMask permissionSample) = false ∧
    getMask ⟨0o040754, 0, 7⟩ = getMask permissionSample := by
  have h := getMask_spec permissionSample ⟨0o040754, 0, 7⟩
    { initParsedArguments with setMask := true, mask := 754 }
  exact ⟨by decide, by decide, by decide, h.2.1 (by decide)⟩

/-- C14: each option-gated filter returns true when its set-flag is false,
whatever the other fields of the configuration, the environment and the
candidate are. -/
theorem filters_vacuous_when_unset (env : Env) (pArgs : ParsedArguments) (fileName : List Char)
    (statPtr : Stat) (permissions : Int) (depth : Nat) :
    (pArgs.setName = false → checkName pArgs fileName = some true) ∧
    (pArgs.setMask = false → checkPermissions pArgs permissions = true) ∧
    (pArgs.setUser = false → checkUser env pArgs statPtr = some true) ∧
    (pArgs.setMinimalDepth = false → checkMinDepth pArgs depth = true) ∧
    (pArgs.setMaximalDepth = false → checkMaxDepth pArgs depth = true) := by
  refine ⟨?_, ?_, ?_, ?_, ?_⟩ <;> intro h
  · simp [checkName, h]
  · simp [checkPermissions, h]
  · simp [checkUser, h]
  · simp [checkMinDepth, h]
  · simp [checkMaxDepth, h]

/-- A witness of C14: with the flags unset, a name argument that does not occur,
another mask, an unknown user and depth bounds that exclude the depth reject
nothing. -/
theorem filters_vacuous_when_unset_witness :
    checkName { initParsedArguments with nameArg := some ['z'] } ['a'] = some true ∧
    checkPermissions { initParsedArguments with mask := 755 } 644 = true ∧
    checkUser sampleEnv { initParsedArguments with usernameArg := some ['x'] } (regularStat 1)
      = some true ∧
    checkMinDepth { initParsedArguments with minimalDepth := 9 } 1 = true ∧
    checkMaxDepth { initParsedArguments with maximalDepth := 0 } 1 = true :=
  ⟨(filters_vacuous_when_unset sampleEnv { initParsedArguments with nameArg := some ['z'] } ['a']
      (regularStat 1) 644 1).1 rfl,
    (filters_vacuous_when_unset sampleEnv { initParsedArguments with mask := 755 } ['a']
      (regularStat 1) 644 1).2.1 rfl,
    (filters_vacuous_when_unset sampleEnv { initParsedArguments with usernameArg := some ['x'] }
      ['a'] (regularStat 1) 644 1).2.2.1 rfl,
    (filters_vacuous_when_unset sampleEnv { initParsedArguments with minimalDepth := 9 } ['a']
      (regularStat 1) 644 1).2.2.2.1 rfl,
    (filters_vacuous_when_unset sampleEnv { initParsedArguments with maximalDepth := 0 } ['a']
      (regularStat 1) 644 1).2.2.2.2 rfl⟩

/-- C15: a successful `createFilePath` yields `previousPath`, a separator and
`currentElement`, of length `len previousPath + len currentElement + 1`, and
nothing else: after a `previousPath` that ends in a separator the separator is
doubled. -/
theorem createFilePath_spec (env : Env) (previousPath currentElement result : List Char)
    (allocs allocs' : Nat)
    (h : createFilePath env previousPath currentElement allocs = (some result, allocs')) :
    result = previousPath ++ ['/'] ++ currentElement ∧
    result.length = previousPath.length + currentElement.length + 1 ∧
    (∀ stem, previousPath = stem ++ ['/'] → result = stem ++ ['/', '/'] ++ currentElement) := by
  unfold createFilePath at h
  split at h
  · simp only [Prod.mk.injEq, Option.some.injEq] at h
    obtain ⟨h, _⟩ := h
    subst h
    refine ⟨by simp, by simp; omega, ?_⟩
    intro stem hstem
    subst hstem
    simp
  · simp at h

/-- A witness of C15: `root/` and `a.txt` give `root//a.txt`. -/
theorem createFilePath_spec_witness :
    createFilePath sampleEnv "root/".toList "a.txt".toList 0 = (some "root//a.txt".toList, 1) ∧
    "root//a.txt".toList.length = "root/".toList.length + "a.txt".toList.length + 1 :=
  ⟨rfl, (createFilePath_spec sampleEnv "root/".toList "a.txt".toList "root//a.txt".toList 0 1
    rfl).2.1⟩

/-! ## The result store, call by call -/

theorem getElem?_reallocSlots (block : List (Option Result)) (n i : Nat) (hi : i < n)
    (hlen : i < block.length) : (reallocSlots block n)[i]? = block[i]? := by
  unfold reallocSlots
  rw [List.getElem?_take_of_lt hi, List.getElem?_append_left hlen]

/-- C16: a successful `createResult` increases `arrayIndex` by 1, stores the
path and size in the slot of the former `arrayIndex` and leaves the content of
every slot below it as it was; a store that held the results `l` holds `l`
followed by the new result. -/
theorem createResult_success_frame (env : Env) (st st' : State) (filePath : List Char)
    (fileSize : Nat) (h : createResult env st filePath fileSize = some (true, st')) :
    st'.res.arrayIndex = st.res.arrayIndex + 1 ∧
    st'.res.resultsArray[st.res.arrayIndex]? = some (some ⟨filePath, fileSize⟩) ∧
    (∀ i, i < st.res.arrayIndex → i < st.res.resultsArray.length →
      st'.res.resultsArray[i]? = st.res.resultsArray[i]?) ∧
    (∀ l, st.res.Holds l → st'.res.Holds (l ++ [⟨filePath, fileSize⟩])) := by
  refine ⟨?_, ?_, ?_, fun l hl => createResult_true_holds env st st' l filePath fileSize hl h⟩
  · unfold createResult at h
    simp only at h
    split at h
    · split at h
      · split at h
        · simp only [Option.some.injEq, Prod.mk.injEq, true_and] at h
          subst h; rfl
        · simp at h
      · simp at h
    · split at h
      · simp only [Option.some.injEq, Prod.mk.injEq, true_and] at h
        subst h; rfl
      · simp at h
  · unfold createResult at h
    simp only at h
    split at h
    · split at h
      · split at h
        · rename_i hlt
          simp only [Option.some.injEq, Prod.mk.injEq, true_and] at h
          subst h
          exact List.getElem?_set_self hlt
        · simp at h
      · simp at h
    · split at h
      · rename_i hlt
        simp only [Option.some.injEq, Prod.mk.injEq, true_and] at h
        subst h
        exact List.getElem?_set_self hlt
      · simp at h
  · intro i hi hlen
    unfold createResult at h
    simp only at h
    split at h
    · split at h
      · split at h
        · rename_i hlt
          simp only [Option.some.injEq, Prod.mk.injEq, true_and] at h
          subst h
          simp only
          rw [List.getElem?_set_ne (by omega)]
          apply getElem?_reallocSlots _ _ _ _ hlen
          have hle : (reallocSlots st.res.resultsArray
              (st.res.arrayAllocatedSize + RESULTS_REALLOCATION)).length ≤
              st.res.arrayAllocatedSize + RESULTS_REALLOCATION := by
            unfold reallocSlots
            rw [List.length_take]
            exact Nat.min_le_left _ _
          omega
        · simp at h
      · simp at h
    · split at h
      · simp only [Option.some.injEq, Prod.mk.injEq, true_and] at h
        subst h
        simp only
        rw [List.getElem?_set_ne (by omega)]
      · simp at h

/-- A witness of C16: two successful calls from the empty store. -/
theorem createResult_success_frame_witness :
    ∃ st1 st2, createResult sampleEnv initState ['a'] 1 = some (true, st1) ∧
      createResult sampleEnv st1 ['b'] 2 = some (true, st2) ∧
      st2.res.arrayIndex = 2 ∧
      st2.res.resultsArray[0]? = some (some ⟨['a'], 1⟩) ∧
      st2.res.resultsArray[1]? = some (some ⟨['b'], 2⟩) ∧
      st2.res.read = some [⟨['a'], 1⟩, ⟨['b'], 2⟩] := by
  have h1 : ∃ st1, createResult sampleEnv initState ['a'] 1 = some (true, st1) := ⟨_, rfl⟩
  obtain ⟨st1, hst1⟩ := h1
  have hold1 := (createResult_success_frame sampleEnv initState st1 ['a'] 1 hst1).2.2.2 []
    initResults_holds
  obtain ⟨st2, hst2, _⟩ := createResult_holds sampleEnv st1 _ ['b'] 2 hold1 (fun _ => rfl)
  have hf1 := createResult_success_frame sampleEnv initState st1 ['a'] 1 hst1
  have hf2 := createResult_success_frame sampleEnv st1 st2 ['b'] 2 hst2
  have hidx1 : st1.res.arrayIndex = 1 := hf1.1
  refine ⟨st1, st2, hst1, hst2, ?_, ?_, ?_, ?_⟩
  · rw [hf2.1, hidx1]
  · have hlen : 0 < st1.res.resultsArray.length := by
      by_contra hn
      have h0 := hf1.2.1
      rw [List.getElem?_eq_none (by simpa [initState, initResults] using hn)] at h0
      cases h0
    rw [hf2.2.2.1 0 (by omega) hlen]
    exact hf1.2.1
  · have := hf2.2.1
    rwa [hidx1] at this
  · exact (hf2.2.2.2 _ hold1).read_eq

theorem createResult_of_holds (env : Env) (st : State) (l : List Result) (filePath : List Char)
    (fileSize : Nat) (hst : st.res.Holds l) :
    (st.res.arrayAllocatedSize ≤ st.res.arrayIndex ∧ env.heap st.allocs = false ∧
      createResult env st filePath fileSize =
        some (false,
          { res := { st.res with
                     arrayAllocatedSize := st.res.arrayAllocatedSize + RESULTS_REALLOCATION },
            allocs := st.allocs + 1 })) ∨
    (¬ (st.res.arrayAllocatedSize ≤ st.res.arrayIndex ∧ env.heap st.allocs = false) ∧
      ∃ st', createResult env st filePath fileSize = some (true, st') ∧
        st'.res.Holds (l ++ [⟨filePath, fileSize⟩]) ∧
        st'.allocs = if st.res.arrayAllocatedSize ≤ st.res.arrayIndex then st.allocs + 1
          else st.allocs) := by
  by_cases hfail : st.res.arrayAllocatedSize ≤ st.res.arrayIndex ∧ env.heap st.allocs = false
  · left
    refine ⟨hfail.1, hfail.2, ?_⟩
    simp [createResult, hfail.1, hfail.2]
  · right
    refine ⟨hfail, ?_⟩
    have hheap : st.res.arrayAllocatedSize ≤ st.res.arrayIndex → env.heap st.allocs = true := by
      intro hfull
      cases hh : env.heap st.allocs with
      | true => rfl
      | false => exact absurd ⟨hfull, hh⟩ hfail
    obtain ⟨st', h, hst'⟩ := createResult_holds env st l filePath fileSize hst hheap
    refine ⟨st', h, hst', ?_⟩
    unfold createResult at h
    simp only at h
    split at h
    · rename_i hfull
      rw [if_pos hfull]
      split at h
      · split at h
        · simp only [Option.some.injEq, Prod.mk.injEq, true_and] at h
          subst h; rfl
        · simp at h
      · simp at h
    · rename_i hfull
      rw [if_neg hfull]
      split at h
      · simp only [Option.some.injEq, Prod.mk.injEq, true_and] at h
        subst h; rfl
      · simp at h

theorem createResult_after_failed_call (env : Env) (st st' : State) (l : List Result)
    (filePath filePath' : List Char) (fileSize fileSize' : Nat) (hst : st.res.Holds l)
    (h : createResult env st filePath fileSize = some (false, st')) :
    createResult env st' filePath' fileSize' = none := by
  rcases createResult_of_holds env st l filePath fileSize hst with
    ⟨hfull, _, h'⟩ | ⟨_, st'', h', _⟩
  · rw [h'] at h
    simp only [Option.some.injEq, Prod.mk.injEq, true_and] at h
    subst h
    obtain ⟨free, hfree⟩ := hst.slots
    have hlen : st.res.resultsArray.length ≤ st.res.arrayIndex := by
      rw [hst.size]; exact hfull
    have hnotfull : ¬ st.res.arrayAllocatedSize + RESULTS_REALLOCATION ≤ st.res.arrayIndex := by
      have hle : st.res.arrayIndex ≤ st.res.arrayAllocatedSize := by
        rw [← hst.size, hfree, hst.index]; simp
      simp only [RESULTS_REALLOCATION]
      omega
    simp only [createResult, if_neg hnotfull, if_neg (Nat.not_lt.mpr hlen)]
  · rw [h'] at h
    cases h

/-- A call of `createResult` after a failed one, which the program never makes:
from the empty store, a `createResult` whose reallocation fails returns false
and records a capacity of 64 slots while the block is still `NULL`; a next call
would find spare capacity recorded, not allocate and write outside the block. -/
theorem createResult_after_failure_undefined :
    createResult firstAllocationFails initState ['a'] 1
      = some (false, ⟨⟨[], 0, 64⟩, 1⟩) ∧
    createResult firstAllocationFails ⟨⟨[], 0, 64⟩, 1⟩ ['b'] 2 = none ∧
    createResults firstAllocationFails initState [⟨['a'], 1⟩, ⟨['b'], 2⟩] = none := by
  decide

theorem holds_index_le (res : Results) (l : List Result) (hst : res.Holds l) :
    res.arrayIndex ≤ res.arrayAllocatedSize := by
  obtain ⟨free, hfree⟩ := hst.slots
  have := hst.size
  rw [hfree] at this
  rw [hst.index, ← this]
  simp

theorem createResultsUntilFailure_stores (env : Env) :
    ∀ (calls : List Result) (st : State) (l : List Result), st.res.Holds l →
      ∃ b st' made rest, createResultsUntilFailure env st calls = some (b, st') ∧
        calls = made ++ rest ∧ (b = true → rest = []) ∧
        (b = false → rest ≠ []) ∧
        st'.res.arrayIndex = (l ++ made).length ∧
        st'.res.arrayIndex ≤ st'.res.arrayAllocatedSize ∧
        ∃ free, st'.res.resultsArray = (l ++ made).map some ++ free
  | [], st, l, hst => by
    refine ⟨true, st, [], [], rfl, rfl, fun _ => rfl, fun h => Bool.noConfusion h, ?_, ?_, ?_⟩
    · simpa using hst.index
    · exact holds_index_le st.res l hst
    · simpa using hst.slots
  | r :: calls, st, l, hst => by
    rcases createResult_of_holds env st l r.filePath r.fileSize hst with
      ⟨hfull, _, h⟩ | ⟨_, st₁, h, hst₁, _⟩
    · refine ⟨false,
        { res := { st.res with
                   arrayAllocatedSize := st.res.arrayAllocatedSize + RESULTS_REALLOCATION },
          allocs := st.allocs + 1 }, [], r :: calls, ?_, rfl, fun h => Bool.noConfusion h,
        fun _ => List.cons_ne_nil r calls, ?_, ?_, ?_⟩
      · simp only [createResultsUntilFailure, h]
      · simpa using hst.index
      · have := holds_index_le st.res l hst
        simp only [RESULTS_REALLOCATION]
        omega
      · simpa using hst.slots
    · obtain ⟨b, st', made, rest, hrun, hcalls, htrue, hfalse, hindex, hle, hslots⟩ :=
        createResultsUntilFailure_stores env calls st₁ (l ++ [r]) hst₁
      refine ⟨b, st', r :: made, rest, ?_, by simp [hcalls], htrue, hfalse, ?_, hle, ?_⟩
      · simp only [createResultsUntilFailure, h]
        exact hrun
      · simpa using hindex
      · simpa using hslots

/-- C17: the invariant of the result store.  Starting from `initResults`, after
any sequence of `createResult` calls, successful or failed, as the program can
make them (a call is made only when the earlier ones have returned true: the
only caller, `findRecursive`, returns at the first call that fails), no call
has undefined behaviour, `arrayIndex ≤ arrayAllocatedSize` holds, `arrayIndex`
is the number of the calls that returned true, and the slot of every index
below `arrayIndex` holds the result written by the successful call of that
index.  Whatever the allocator does, the calls before the first failure are
successful and the failed call, if there is one, is the last. -/
theorem result_store_invariant (env : Env) (calls : List Result) :
    ∃ b st', createResultsUntilFailure env initState calls = some (b, st') ∧
      st'.res.arrayIndex ≤ st'.res.arrayAllocatedSize ∧
      st'.res.arrayIndex ≤ calls.length ∧
      (b = true ↔ st'.res.arrayIndex = calls.length) ∧
      ∀ i, i < st'.res.arrayIndex →
        ∃ r, calls[i]? = some r ∧ st'.res.resultsArray[i]? = some (some r) := by
  obtain ⟨b, st', made, rest, hrun, hcalls, htrue, hfalse, hindex, hle, free, hslots⟩ :=
    createResultsUntilFailure_stores env calls initState [] initResults_holds
  simp only [List.nil_append] at hindex hslots
  refine ⟨b, st', hrun, hle, ?_, ?_, ?_⟩
  · rw [hindex, hcalls]
    simp
  · constructor
    · intro hb
      rw [hindex, hcalls, htrue hb]
      simp
    · intro hlen
      cases b with
      | true => rfl
      | false =>
        have hne := hfalse rfl
        rw [hindex, hcalls] at hlen
        have : rest.length = 0 := by simpa using hlen
        exact absurd (List.length_eq_zero.mp this) hne
  · intro i hi
    rw [hindex] at hi
    refine ⟨made[i], ?_, ?_⟩
    · rw [hcalls, List.getElem?_append_left hi, List.getElem?_eq_getElem hi]
    · rw [hslots, List.getElem?_append_left (by simpa using hi), List.getElem?_map,
        List.getElem?_eq_getElem hi]
      rfl

/-- A witness of C17 on two calls: when the first allocation fails, the first
call returns false, no call follows, and the invariant holds with `arrayIndex`
0 and a recorded capacity of 64; when every allocation succeeds both results
are stored. -/
theorem result_store_invariant_witness :
    (∃ b st', createResultsUntilFailure firstAllocationFails initState
        [⟨['a'], 1⟩, ⟨['b'], 2⟩] = some (b, st') ∧
      st'.res.arrayIndex ≤ st'.res.arrayAllocatedSize ∧
      st'.res.arrayIndex ≤ [(⟨['a'], 1⟩ : Result), ⟨['b'], 2⟩].length ∧
      (b = true ↔ st'.res.arrayIndex = [(⟨['a'], 1⟩ : Result), ⟨['b'], 2⟩].length) ∧
      ∀ i, i < st'.res.arrayIndex →
        ∃ r, [(⟨['a'], 1⟩ : Result), ⟨['b'], 2⟩][i]? = some r ∧
          st'.res.resultsArray[i]? = some (some r)) ∧
    (createResultsUntilFailure firstAllocationFails initState [⟨['a'], 1⟩, ⟨['b'], 2⟩]).map
        (fun run => (run.1, run.2.res.arrayIndex, run.2.res.arrayAllocatedSize)) =
      some (false, 0, 64) ∧
    (createResultsUntilFailure sampleEnv initState [⟨['a'], 1⟩, ⟨['b'], 2⟩]).map
        (fun run => (run.1, run.2.res.arrayIndex, run.2.res.arrayAllocatedSize)) =
      some (true, 2, 64) :=
  ⟨result_store_invariant firstAllocationFails [⟨['a'], 1⟩, ⟨['b'], 2⟩], by decide, by decide⟩

/-- C18: on a store that holds results in a block of `arrayAllocatedSize` slots,
`createResult` returns false iff growth is required (`arrayAllocatedSize ≤
arrayIndex`) and the reallocation fails, and returns true otherwise; with spare
capacity it returns true and makes no allocation request. -/
theorem createResult_false_iff (env : Env) (st : State) (l : List Result)
    (filePath : List Char) (fileSize : Nat) (hst : st.res.Holds l) :
    (∃ b st', createResult env st filePath fileSize = some (b, st') ∧
      (b = false ↔ (st.res.arrayAllocatedSize ≤ st.res.arrayIndex ∧
        env.heap st.allocs = false))) ∧
    (st.res.arrayIndex < st.res.arrayAllocatedSize →
      ∃ st', createResult env st filePath fileSize = some (true, st') ∧
        st'.allocs = st.allocs) := by
  rcases createResult_of_holds env st l filePath fileSize hst with
    ⟨hfull, hfail, h⟩ | ⟨hno, st', h, _, hallocs⟩
  · refine ⟨⟨false, _, h, by simp [hfull, hfail]⟩, ?_⟩
    intro hspare
    omega
  · refine ⟨⟨true, st', h, by simpa using hno⟩, ?_⟩
    intro hspare
    refine ⟨st', h, ?_⟩
    rw [hallocs, if_neg (by omega)]

/-- A witness of C18: from the empty store the call fails when the first
reallocation fails; on a store with two free slots it succeeds and the count
of allocation requests stays 5 although the next request would fail. -/
theorem createResult_false_iff_witness :
    createResult firstAllocationFails initState ['a'] 1 = some (false, ⟨⟨[], 0, 64⟩, 1⟩) ∧
    createResult ⟨fun _ => false, fun _ => none⟩ ⟨⟨[none, none], 0, 2⟩, 5⟩ ['a'] 1
      = some (true, ⟨⟨[some ⟨['a'], 1⟩, none], 1, 2⟩, 5⟩) ∧
    (∃ st', createResult ⟨fun _ => false, fun _ => none⟩ ⟨⟨[none, none], 0, 2⟩, 5⟩ ['a'] 1
      = some (true, st') ∧ st'.allocs = 5) :=
  ⟨by decide, by decide,
    (createResult_false_iff ⟨fun _ => false, fun _ => none⟩ ⟨⟨[none, none], 0, 2⟩, 5⟩ [] ['a'] 1
      ⟨rfl, rfl, ⟨[none, none], rfl⟩⟩).2 (by decide)⟩

/-! ## The depth of evaluation -/

mutual
theorem candidatesDir_depth_eq (showAll : Bool) :
    ∀ (dir : Dir) (base : List Char) (trail : List (List Char)) (depth : Nat),
      ∀ c ∈ candidatesDir showAll base trail dir depth,
        c.depth + trail.length = depth + c.trail.length + 1
  | .unreadable, _, _, _ => by simp [candidatesDir]
  | .stream entries, base, trail, depth => by
    intro c hc
    rw [candidatesDir] at hc
    have := candidatesList_depth_eq showAll entries base trail (depth + 1) c hc
    omega
theorem candidatesList_depth_eq (showAll : Bool) :
    ∀ (entries : List Entry) (base : List Char) (trail : List (List Char)) (depth : Nat),
      ∀ c ∈ candidatesList showAll base trail depth entries,
        c.depth + trail.length = depth + c.trail.length
  | [], _, _, _ => by simp [candidatesList]
  | e :: rest, base, trail, depth => by
    intro c hc
    rw [candidatesList, List.mem_append] at hc
    rcases hc with hc | hc
    · exact candidatesEntry_depth_eq showAll e base trail depth c hc
    · exact candidatesList_depth_eq showAll rest base trail depth c hc
theorem candidatesEntry_depth_eq (showAll : Bool) :
    ∀ (e : Entry) (base : List Char) (trail : List (List Char)) (depth : Nat),
      ∀ c ∈ candidatesEntry showAll base trail depth e,
        c.depth + trail.length = depth + c.trail.length
  | .mk d_name lstat dir, base, trail, depth => by
    intro c hc
    simp only [candidatesEntry] at hc
    split at hc
    · simp at hc
    · split at hc
      · simp at hc
      · split at hc
        · split at hc
          · have := candidatesDir_depth_eq showAll dir _ _ depth c hc
            simp only [List.length_append, List.length_singleton] at this
            omega
          · simp at hc
        · split at hc
          · simp at hc; subst hc; simp
          · simp at hc
end

/-- C20, refuted as stated: a file directly in the starting directory is not
evaluated at depth 0.  With the maximum depth 0, which depth 0 passes, `a.txt`
and `b.txt` of the starting directory are not returned; with the minimum depth
1, which depth 0 fails, they are; and with the minimum depth 2, which depth 1
fails, `root/sub/b.txt` is returned. -/
theorem start_directory_files_not_at_depth_zero :
    checkMaxDepth { initParsedArguments with setMaximalDepth := true, maximalDepth := 0 } 0
      = true ∧
    traversalOutcome sampleEnv
      { initParsedArguments with setMaximalDepth := true, maximalDepth := 0 }
      "root".toList twoFiles = some (true, some []) ∧
    checkMinDepth { initParsedArguments with setMinimalDepth := true, minimalDepth := 1 } 0
      = false ∧
    traversalOutcome sampleEnv
      { initParsedArguments with setMinimalDepth := true, minimalDepth := 1 }
      "root".toList twoFiles
      = some (true, some [⟨"root/a.txt".toList, 10⟩, ⟨"root/b.txt".toList, 20⟩]) ∧
    checkMinDepth { initParsedArguments with setMinimalDepth := true, minimalDepth := 2 } 1
      = false ∧
    traversalOutcome sampleEnv
      { initParsedArguments with setMinimalDepth := true, minimalDepth := 2 }
      "root".toList sampleTree = some (true, some [⟨"root/sub/b.txt".toList, 20⟩]) := by
  decide

/-- C20, amended: the depth at which a regular file is evaluated by the
minimum- and maximum-depth filters is the number of directory descents from
the starting directory plus one.  Without allocation failure the results
appended are those of the accepted candidates; each candidate has the path made
of the starting directory, the names of the directories descended through and
its own name, and is accepted only if `checkMinDepth` and `checkMaxDepth` hold
at the number of these directories plus one. -/
theorem evaluation_depth_is_descents_plus_one (env : Env) (pArgs : ParsedArguments)
    (base : List Char) (root : Dir) (st : State) (l : List Result)
    (hopen : root.opens = true) (hheap : ∀ k, env.heap k = true)
    (hvalid : validArguments env pArgs = true) (hheight : root.height < 2 ^ 64)
    (hst : st.res.Holds l) :
    ∃ st', findRecursive env pArgs base root st 0 = some (true, st') ∧
      st'.res.read = some (l ++
        ((candidatesDir pArgs.setShowAll base [] root 0).filter (accepts env pArgs)).map
          Candidate.toResult) ∧
      ∀ c ∈ candidatesDir pArgs.setShowAll base [] root 0,
        c.path = joinPath base (c.trail ++ [c.name]) ∧
        c.depth = c.trail.length + 1 ∧
        (accepts env pArgs c = true →
          checkMinDepth pArgs (c.trail.length + 1) = true ∧
          checkMaxDepth pArgs (c.trail.length + 1) = true) := by
  obtain ⟨st', h, hst'⟩ := findRecursive_root env pArgs base root st l hheap hvalid hheight hst
  rw [hopen] at h
  refine ⟨st', h, hst'.read_eq, ?_⟩
  intro c hc
  obtain ⟨more, h1, h2, _⟩ := candidatesDir_trail pArgs.setShowAll root base [] 0 c hc
  simp only [List.nil_append] at h1
  have hdepth := candidatesDir_depth_eq pArgs.setShowAll root base [] 0 c hc
  simp only [List.length_nil, Nat.add_zero, Nat.zero_add] at hdepth
  refine ⟨by rw [h2, h1], hdepth, ?_⟩
  intro hacc
  simp only [accepts, Bool.and_eq_true] at hacc
  rw [← hdepth]
  exact ⟨hacc.1.1.2, hacc.2⟩

/-- A witness of the amended C20: with the minimum depth 2 the traversal of the
sample tree returns `root/sub/b.txt`, one descent below the starting directory,
and not `root/a.txt`. -/
theorem evaluation_depth_is_descents_plus_one_witness :
    sampleTree.opens = true ∧
    ∃ st', findRecursive sampleEnv
        { initParsedArguments with setMinimalDepth := true, minimalDepth := 2 }
        "root".toList sampleTree initState 0 = some (true, st') ∧
      st'.res.read = some [⟨"root/sub/b.txt".toList, 20⟩] := by
  refine ⟨rfl, ?_⟩
  obtain ⟨st', h1, h2, _⟩ := evaluation_depth_is_descents_plus_one sampleEnv
    { initParsedArguments with setMinimalDepth := true, minimalDepth := 2 }
    "root".toList sampleTree initState [] rfl (fun _ => rfl) (by decide) (by decide)
    initResults_holds
  exact ⟨st', h1, h2.trans (by decide)⟩

/-! ## The order of enumeration -/

theorem candidatesList_perm (showAll : Bool) (base : List Char) (trail : List (List Char))
    (depth : Nat) {xs ys : List Entry} (h : xs.Perm ys) :
    (candidatesList showAll base trail depth xs).Perm
      (candidatesList showAll base trail depth ys) := by
  induction h with
  | nil => exact List.Perm.refl _
  | cons x _ ih =>
    simp only [candidatesList]
    exact List.Perm.append_left _ ih
  | swap x y l =>
    simp only [candidatesList, ← List.append_assoc]
    exact List.Perm.append_right _ List.perm_append_comm
  | trans _ _ ih1 ih2 => exact ih1.trans ih2

mutual
theorem candidatesDir_reordered (showAll : Bool) :
    ∀ (dir dir' : Dir) (base : List Char) (trail : List (List Char)) (depth : Nat),
      dir.Reordered dir' →
      (candidatesDir showAll base trail dir depth).Perm
        (candidatesDir showAll base trail dir' depth)
  | .unreadable, dir', base, trail, depth => by
    intro h
    simp only [Dir.Reordered] at h
    subst h
    exact List.Perm.refl _
  | .stream entries, dir', base, trail, depth => by
    intro h
    simp only [Dir.Reordered] at h
    obtain ⟨mid, entries', hmid, hperm, rfl⟩ := h
    simp only [candidatesDir]
    exact (candidatesList_reordered showAll entries mid base trail (depth + 1) hmid).trans
      (candidatesList_perm showAll base trail (depth + 1) hperm)
theorem candidatesList_reordered (showAll : Bool) :
    ∀ (entries entries' : List Entry) (base : List Char) (trail : List (List Char))
      (depth : Nat), ReorderedList entries entries' →
      (candidatesList showAll base trail depth entries).Perm
        (candidatesList showAll base trail depth entries')
  | [], entries', base, trail, depth => by
    intro h
    simp only [ReorderedList] at h
    subst h
    exact List.Perm.refl _
  | e :: rest, entries', base, trail, depth => by
    intro h
    simp only [ReorderedList] at h
    obtain ⟨e', rest', he, hrest, rfl⟩ := h
    simp only [candidatesList]
    exact List.Perm.append (candidatesEntry_reordered showAll e e' base trail depth he)
      (candidatesList_reordered showAll rest rest' base trail depth hrest)
theorem candidatesEntry_reordered (showAll : Bool) :
    ∀ (e e' : Entry) (base : List Char) (trail : List (List Char)) (depth : Nat),
      e.Reordered e' →
      (candidatesEntry showAll base trail depth e).Perm
        (candidatesEntry showAll base trail depth e')
  | .mk d_name lstat dir, e', base, trail, depth => by
    intro h
    simp only [Entry.Reordered] at h
    obtain ⟨dir', hdir, rfl⟩ := h
    have ih := candidatesDir_reordered showAll dir dir' (base ++ '/' :: d_name)
      (trail ++ [d_name]) depth hdir
    simp only [candidatesEntry]
    split
    · exact List.Perm.refl _
    · split
      · exact List.Perm.refl _
      · split
        · split
          · exact ih
          · exact List.Perm.refl _
        · exact List.Perm.refl _
end

theorem Dir.Reordered.opens_eq : ∀ {dir dir' : Dir}, dir.Reordered dir' → dir'.opens = dir.opens
  | .unreadable, dir', h => by
    simp only [Dir.Reordered] at h
    subst h; rfl
  | .stream entries, dir', h => by
    simp only [Dir.Reordered] at h
    obtain ⟨_, _, _, _, rfl⟩ := h
    rfl

theorem sorted_perm_map_eq {κ : Type} (cmp : Result → Result → Int) (hweak : WeakCmp cmp)
    (f : Result → κ) (hzero : ∀ a b, cmp a b = 0 → f a = f b)
    (hdep : ∀ a b a' b', f a = f a' → f b = f b' → cmp a b = cmp a' b')
    (l₁ l₂ : List Result) (hp : l₁.Perm l₂)
    (h₁ : l₁.Pairwise (fun a b => cmp a b ≤ 0)) (h₂ : l₂.Pairwise (fun a b => cmp a b ≤ 0)) :
    l₁.map f = l₂.map f := by
  let r : κ → κ → Prop := fun x y => ∃ a b, f a = x ∧ f b = y ∧ cmp a b ≤ 0
  haveI : IsAntisymm κ r := ⟨by
    rintro x y ⟨a, b, ha, hb, hab⟩ ⟨b', a', hb', ha', hba⟩
    have hswap : cmp b' a' = cmp b a := hdep b' a' b a (hb'.trans hb.symm) (ha'.trans ha.symm)
    rw [hswap] at hba
    have h1 := hweak.swap a b
    have h2 := hweak.swap b a
    have h0 : cmp a b = 0 := by omega
    rw [← ha, ← hb]
    exact hzero a b h0⟩
  have hs₁ : (l₁.map f).Sorted r :=
    List.pairwise_map.mpr (h₁.imp (fun {a b} hab => ⟨a, b, rfl, rfl, hab⟩))
  have hs₂ : (l₂.map f).Sorted r :=
    List.pairwise_map.mpr (h₂.imp (fun {a b} hab => ⟨a, b, rfl, rfl, hab⟩))
  exact List.eq_of_perm_of_sorted (hp.map f) hs₁ hs₂

theorem sortByFileSize_eq_zero_size (a b : Result) (h : sortByFileSize a b = 0) :
    a.fileSize = b.fileSize := by
  simp only [sortByFileSize, gt_iff_lt] at h
  split_ifs at h <;> omega

theorem sorted_perm_paths_eq (cmp : Result → Result → Int) (hcmp : cmp ∈ sortTypeTable)
    (l₁ l₂ : List Result) (hp : l₁.Perm l₂)
    (h₁ : l₁.Pairwise (fun a b => cmp a b ≤ 0)) (h₂ : l₂.Pairwise (fun a b => cmp a b ≤ 0)) :
    l₁.map Result.filePath = l₂.map Result.filePath := by
  rcases mem_sortTypeTable cmp hcmp with rfl | rfl | rfl
  · exact sorted_perm_map_eq sortByFileName weakCmp_sortByFileName Result.filePath
      sortByFileName_eq_zero
      (fun a b a' b' ha hb => by simp only [sortByFileName, ha, hb]) l₁ l₂ hp h₁ h₂
  · exact sorted_perm_map_eq sortByFilePath weakCmp_sortByFilePath Result.filePath
      sortByFilePath_eq_zero
      (fun a b a' b' ha hb => by simp only [sortByFilePath, ha, hb]) l₁ l₂ hp h₁ h₂
  · have h := sorted_perm_map_eq sortByFileSize weakCmp_sortByFileSize id
      (fun a b h0 => by
        have hp := sortByFileSize_eq_zero a b h0
        have hs := sortByFileSize_eq_zero_size a b h0
        cases a; cases b; simp_all)
      (fun a b a' b' ha hb => by simp only [id] at ha hb; rw [ha, hb]) l₁ l₂ hp h₁ h₂
    simp only [List.map_id] at h
    rw [h]

theorem find_of_failure (env : Env) (sort : Sorter) (pArgs : ParsedArguments) (root : Dir)
    (st : State) (hhelp : pArgs.showHelp = false)
    (hfail : findRecursive env pArgs (pArgs.startDirectory.getD ['.']) root initState 0
      = some (false, st)) :
    find env sort pArgs root = some (false, []) := by
  have hfail' : findRecursive env pArgs (pArgs.startDirectory.getD ['.']) root
      { res := initResults, allocs := 0 } 0 = some (false, st) := hfail
  simp only [find, hhelp, Bool.false_eq_true, if_false, hfail']

theorem flatMap_paths (lineBreak : Char) (l : List Result) :
    l.flatMap (fun r => r.filePath ++ [lineBreak]) =
      (l.map Result.filePath).flatMap (fun p => p ++ [lineBreak]) := by
  induction l with
  | nil => rfl
  | cons r rest ih => simp [List.flatMap_cons, ih]

/-- C19: without allocation failure, two enumerations of the same tree in
different orders of the directory entries yield results that are a
rearrangement of each other, and `find` prints the same output for both,
whatever sorting routines that meet the contract of `qsort` are used. -/
theorem output_independent_of_enumeration_order (env : Env) (pArgs : ParsedArguments)
    (sort sort' : Sorter) (root root' : Dir) (cmp : Result → Result → Int)
    (horder : root.Reordered root') (hsort : SorterContract sort)
    (hsort' : SorterContract sort') (hheap : ∀ k, env.heap k = true)
    (hvalid : validArguments env pArgs = true) (hheight : root.height < 2 ^ 64)
    (hheight' : root'.height < 2 ^ 64) (hhelp : pArgs.showHelp = false)
    (hcmp : sortTypeTable[pArgs.sortType]? = some cmp) :
    (∃ l l', traversalResults env pArgs (pArgs.startDirectory.getD ['.']) root = some l ∧
      traversalResults env pArgs (pArgs.startDirectory.getD ['.']) root' = some l' ∧
      l.Perm l') ∧
    (∃ out, find env sort pArgs root = some out ∧ find env sort' pArgs root' = some out) := by
  obtain ⟨st, h, hst⟩ := findRecursive_root env pArgs (pArgs.startDirectory.getD ['.']) root
    initState [] hheap hvalid hheight initResults_holds
  obtain ⟨st', h', hst'⟩ := findRecursive_root env pArgs (pArgs.startDirectory.getD ['.']) root'
    initState [] hheap hvalid hheight' initResults_holds
  rw [horder.opens_eq] at h'
  simp only [List.nil_append] at hst hst'
  have hperm : (expectedResults env pArgs (pArgs.startDirectory.getD ['.']) root 0).Perm
      (expectedResults env pArgs (pArgs.startDirectory.getD ['.']) root' 0) := by
    unfold expectedResults
    exact ((candidatesDir_reordered pArgs.setShowAll root root' _ [] 0 horder).filter _).map _
  refine ⟨⟨_, _, ?_, ?_, hperm⟩, ?_⟩
  · simp only [traversalResults, h, hst.read_eq]
  · simp only [traversalResults, h', hst'.read_eq]
  · cases hopens : root.opens with
    | false =>
      rw [hopens] at h h'
      exact ⟨(false, []), find_of_failure env sort pArgs root st hhelp h,
        find_of_failure env sort' pArgs root' st' hhelp h'⟩
    | true =>
      rw [hopens] at h h'
      have hmem : cmp ∈ sortTypeTable := List.getElem?_mem hcmp
      have hweak : WeakCmp cmp := weakCmp_of_mem_sortTypeTable cmp hmem
      obtain ⟨l, hl, hfind⟩ := find_of_success env sort pArgs root st cmp hhelp hcmp
        (fun l => (hsort cmp l hweak).1.length_eq) h
      obtain ⟨l', hl', hfind'⟩ := find_of_success env sort' pArgs root' st' cmp hhelp hcmp
        (fun l => (hsort' cmp l hweak).1.length_eq) h'
      rw [hst.read_eq] at hl
      rw [hst'.read_eq] at hl'
      simp only [Option.some.injEq] at hl hl'
      subst hl
      subst hl'
      refine ⟨_, hfind, ?_⟩
      rw [hfind', flatMap_paths, flatMap_paths]
      have hp : (sort' cmp (expectedResults env pArgs (pArgs.startDirectory.getD ['.']) root'
          0)).Perm
          (sort cmp (expectedResults env pArgs (pArgs.startDirectory.getD ['.']) root 0)) :=
        ((hsort' cmp _ hweak).1.trans hperm.symm).trans (hsort cmp _ hweak).1.symm
      rw [sorted_perm_paths_eq cmp hmem _ _ hp (hsort' cmp _ hweak).2 (hsort cmp _ hweak).2]

mutual
theorem dirReordered_refl : ∀ dir : Dir, dir.Reordered dir
  | .unreadable => by simp only [Dir.Reordered]
  | .stream entries => by
    simp only [Dir.Reordered]
    exact ⟨entries, entries, reorderedList_refl entries, List.Perm.refl _, rfl⟩
theorem reorderedList_refl : ∀ entries : List Entry, ReorderedList entries entries
  | [] => by simp only [ReorderedList]
  | e :: rest => by
    simp only [ReorderedList]
    exact ⟨e, rest, entryReordered_refl e, reorderedList_refl rest, rfl⟩
theorem entryReordered_refl : ∀ e : Entry, e.Reordered e
  | .mk d_name lstat dir => by
    simp only [Entry.Reordered]
    exact ⟨dir, dirReordered_refl dir, rfl⟩
end

theorem reorderedList_append_last (front : List Entry) (e e' : Entry) (h : e.Reordered e') :
    ReorderedList (front ++ [e]) (front ++ [e']) := by
  induction front with
  | nil =>
    simp only [List.nil_append, ReorderedList]
    exact ⟨e', [], h, by simp only [ReorderedList], rfl⟩
  | cons x xs ih =>
    simp only [List.cons_append, ReorderedList]
    exact ⟨x, xs ++ [e'], entryReordered_refl x, ih, rfl⟩

theorem dirReordered_reverse (entries : List Entry) :
    (Dir.stream entries).Reordered (Dir.stream entries.reverse) := by
  simp only [Dir.Reordered]
  exact ⟨entries, entries.reverse, reorderedList_refl entries, (List.reverse_perm entries).symm,
    rfl⟩

theorem sampleTree_reordered : sampleTree.Reordered sampleTreeReordered := by
  unfold sampleTree sampleTreeReordered
  simp only [Dir.Reordered]
  refine ⟨_, _, ?_, (List.reverse_perm _).symm, rfl⟩
  have h := reorderedList_append_last
    (dotEntries ++ [regularEntry "a.txt".toList 10, regularEntry ".hidden".toList 5])
    (directoryEntry "sub".toList (dotEntries ++ [regularEntry "b.txt".toList 20]))
    (directoryEntry "sub".toList (dotEntries ++ [regularEntry "b.txt".toList 20]).reverse)
    (by
      simp only [directoryEntry, Entry.Reordered]
      exact ⟨_, dirReordered_reverse _, rfl⟩)
  simpa [List.append_assoc] using h

theorem reverseSort_contract : SorterContract reverseSort := by
  intro compar base hweak
  obtain ⟨hperm, hsorted⟩ := qsort_contract compar base.reverse hweak
  exact ⟨hperm.trans (List.reverse_perm base), hsorted⟩

/-- A witness of C19: the sample tree and the same tree enumerated in the
reverse order, sorted by two different routines, with show-all set and the
order by size. -/
theorem output_independent_of_enumeration_order_witness :
    sampleTree.Reordered sampleTreeReordered ∧
    traversalResults sampleEnv (setHiddenFiles { initParsedArguments with sortType := 2 })
      ['.'] sampleTree
      = some [⟨"./a.txt".toList, 10⟩, ⟨"./.hidden".toList, 5⟩, ⟨"./sub/b.txt".toList, 20⟩] ∧
    traversalResults sampleEnv (setHiddenFiles { initParsedArguments with sortType := 2 })
      ['.'] sampleTreeReordered
      = some [⟨"./sub/b.txt".toList, 20⟩, ⟨"./.hidden".toList, 5⟩, ⟨"./a.txt".toList, 10⟩] ∧
    find sampleEnv qsort (setHiddenFiles { initParsedArguments with sortType := 2 }) sampleTree
      = some (true, "./sub/b.txt\n./a.txt\n./.hidden\n".toList) ∧
    (∃ out,
      find sampleEnv qsort (setHiddenFiles { initParsedArguments with sortType := 2 }) sampleTree
        = some out ∧
      find sampleEnv reverseSort (setHiddenFiles { initParsedArguments with sortType := 2 })
        sampleTreeReordered = some out) :=
  ⟨sampleTree_reordered, by decide, by decide, by decide,
    (output_independent_of_enumeration_order sampleEnv
      (setHiddenFiles { initParsedArguments with sortType := 2 }) qsort reverseSort sampleTree
      sampleTreeReordered sortByFileSize sampleTree_reordered qsort_contract reverseSort_contract
      (fun _ => rfl) (by decide) (by decide) (by decide) rfl rfl).2⟩

/-! ## The capacity of the result store -/

/-- C28: a `createResult` that returns false leaves `arrayIndex` and the block
with its slots as they were and has increased `arrayAllocatedSize` by 64; it has
made one allocation request, which failed, and when the recorded capacity was
the number of slots of the block before the call it no longer is. -/
theorem createResult_failure_not_atomic (env : Env) (st st' : State) (filePath : List Char)
    (fileSize : Nat) (h : createResult env st filePath fileSize = some (false, st')) :
    env.heap st.allocs = false ∧
    st'.res.arrayIndex = st.res.arrayIndex ∧
    st'.res.resultsArray = st.res.resultsArray ∧
    st'.res.arrayAllocatedSize = st.res.arrayAllocatedSize + 64 ∧
    (st.res.resultsArray.length = st.res.arrayAllocatedSize →
      st'.res.resultsArray.length ≠ st'.res.arrayAllocatedSize) := by
  unfold createResult at h
  simp only at h
  split at h
  · split at h
    · split at h
      · simp at h
      · simp at h
    · rename_i hheap
      simp only [Option.some.injEq, Prod.mk.injEq, true_and] at h
      subst h
      refine ⟨by simpa using hheap, rfl, rfl, rfl, ?_⟩
      intro hlen
      simp only [RESULTS_REALLOCATION]
      omega
  · split at h
    · simp at h
    · simp at h

/-- A witness of C28: the first reallocation fails on the empty store, which
then records 64 slots and has none. -/
theorem createResult_failure_not_atomic_witness :
    createResult firstAllocationFails initState ['a'] 1 = some (false, ⟨⟨[], 0, 64⟩, 1⟩) ∧
    (⟨⟨[], 0, 64⟩, 1⟩ : State).res.resultsArray.length ≠
      (⟨⟨[], 0, 64⟩, 1⟩ : State).res.arrayAllocatedSize :=
  ⟨rfl, (createResult_failure_not_atomic firstAllocationFails initState ⟨⟨[], 0, 64⟩, 1⟩ ['a'] 1
    rfl).2.2.2.2 rfl⟩

theorem createResult_capacity (env : Env) (st st' : State) (l : List Result)
    (filePath : List Char) (fileSize : Nat) (hst : st.res.Holds l)
    (hcap : st.res.arrayAllocatedSize = 64 * ((l.length + 63) / 64))
    (h : createResult env st filePath fileSize = some (true, st')) :
    st'.res.Holds (l ++ [⟨filePath, fileSize⟩]) ∧
    st'.res.arrayAllocatedSize = 64 * (((l ++ [(⟨filePath, fileSize⟩ : Result)]).length + 63) / 64) ∧
    st'.res.arrayAllocatedSize =
      (if st.res.arrayAllocatedSize ≤ st.res.arrayIndex then st.res.arrayAllocatedSize + 64
       else st.res.arrayAllocatedSize) := by
  have hholds := createResult_true_holds env st st' l filePath fileSize hst h
  have hidx := hst.index
  have hgrow : st'.res.arrayAllocatedSize =
      (if st.res.arrayAllocatedSize ≤ st.res.arrayIndex then st.res.arrayAllocatedSize + 64
       else st.res.arrayAllocatedSize) := by
    unfold createResult at h
    simp only at h
    split at h
    · rename_i hfull
      rw [if_pos hfull]
      split at h
      · split at h
        · simp only [Option.some.injEq, Prod.mk.injEq, true_and] at h
          subst h; rfl
        · simp at h
      · simp at h
    · rename_i hfull
      rw [if_neg hfull]
      split at h
      · simp only [Option.some.injEq, Prod.mk.injEq, true_and] at h
        subst h; rfl
      · simp at h
  refine ⟨hholds, ?_, hgrow⟩
  rw [hgrow]
  simp only [List.length_append, List.length_singleton]
  split_ifs with hfull <;> omega

theorem successfulCalls_capacity (env : Env) :
    ∀ (calls : List Result) (st st' : State) (l : List Result), st.res.Holds l →
      st.res.arrayAllocatedSize = 64 * ((l.length + 63) / 64) →
      SuccessfulCalls env st calls st' →
      st'.res.Holds (l ++ calls) ∧
      st'.res.arrayAllocatedSize = 64 * (((l ++ calls).length + 63) / 64) ∧
      st.res.arrayAllocatedSize ≤ st'.res.arrayAllocatedSize
  | [], st, st', l, hst, hcap, h => by
    simp only [SuccessfulCalls] at h
    subst h
    simpa using ⟨hst, hcap⟩
  | r :: rest, st, st', l, hst, hcap, h => by
    simp only [SuccessfulCalls] at h
    obtain ⟨st₁, h₁, hrest⟩ := h
    obtain ⟨hholds, hcap₁, hgrow⟩ := createResult_capacity env st st₁ l r.filePath r.fileSize
      hst hcap h₁
    obtain ⟨h1, h2, h3⟩ := successfulCalls_capacity env rest st₁ st' (l ++ [r]) hholds hcap₁ hrest
    refine ⟨by simpa using h1, by simpa using h2, ?_⟩
    have : st.res.arrayAllocatedSize ≤ st₁.res.arrayAllocatedSize := by
      rw [hgrow]; split_ifs <;> omega
    omega

/-- C24: a successful `createResult` adds 64 to the capacity when the store is
full (`arrayAllocatedSize ≤ arrayIndex`) and leaves it as it is otherwise; after
`n` successful calls from `initResults`, with no failed call, `arrayIndex` is `n`
and `arrayAllocatedSize` is `64 * ceil (n / 64)`, the store holding the `n`
results in the order of the calls. -/
theorem capacity_after_successful_calls (env : Env) (calls : List Result) (st' : State)
    (h : SuccessfulCalls env initState calls st') :
    st'.res.arrayIndex = calls.length ∧
    st'.res.arrayAllocatedSize = 64 * ((calls.length + 63) / 64) ∧
    st'.res.read = some calls ∧
    (∀ (st₁ st₂ : State) (filePath : List Char) (fileSize : Nat),
      createResult env st₁ filePath fileSize = some (true, st₂) →
      st₂.res.arrayAllocatedSize =
        (if st₁.res.arrayAllocatedSize ≤ st₁.res.arrayIndex then st₁.res.arrayAllocatedSize + 64
         else st₁.res.arrayAllocatedSize) ∧
      st₁.res.arrayAllocatedSize ≤ st₂.res.arrayAllocatedSize) := by
  obtain ⟨h1, h2, _⟩ := successfulCalls_capacity env calls initState st' [] initResults_holds
    (by decide) h
  simp only [List.nil_append] at h1 h2
  refine ⟨h1.index, h2, h1.read_eq, ?_⟩
  intro st₁ st₂ filePath fileSize hc
  suffices hgrow : st₂.res.arrayAllocatedSize =
      (if st₁.res.arrayAllocatedSize ≤ st₁.res.arrayIndex then st₁.res.arrayAllocatedSize + 64
       else st₁.res.arrayAllocatedSize) by
    refine ⟨hgrow, ?_⟩
    rw [hgrow]; split_ifs <;> omega
  unfold createResult at hc
  simp only at hc
  split at hc
  · rename_i hfull
    rw [if_pos hfull]
    split at hc
    · split at hc
      · simp only [Option.some.injEq, Prod.mk.injEq, true_and] at hc
        subst hc; rfl
      · simp at hc
    · simp at hc
  · rename_i hfull
    rw [if_neg hfull]
    split at hc
    · simp only [Option.some.injEq, Prod.mk.injEq, true_and] at hc
      subst hc; rfl
    · simp at hc

/-- A witness of C24: two successful calls from the empty store give
`arrayIndex = 2` and a capacity of 64. -/
theorem capacity_after_successful_calls_witness :
    ∃ st', SuccessfulCalls sampleEnv initState [⟨['a'], 1⟩, ⟨['b'], 2⟩] st' ∧
      st'.res.arrayIndex = 2 ∧ st'.res.arrayAllocatedSize = 64 := by
  have h : ∃ st', SuccessfulCalls sampleEnv initState [⟨['a'], 1⟩, ⟨['b'], 2⟩] st' :=
    ⟨_, ⟨_, rfl, ⟨_, rfl, rfl⟩⟩⟩
  obtain ⟨st', hst'⟩ := h
  obtain ⟨h1, h2, _⟩ := capacity_after_successful_calls sampleEnv _ st' hst'
  exact ⟨st', hst', h1, h2⟩

/-! ## File names and paths -/

theorem afterLastSlash_append (name : List Char) (hname : '/' ∉ name) :
    ∀ stem : List Char, afterLastSlash (stem ++ '/' :: name) = name
  | [] => by simp [afterLastSlash, hname]
  | c :: stem => by
    have ih := afterLastSlash_append name hname stem
    have hmem : '/' ∈ stem ++ '/' :: name := by simp
    rw [List.cons_append, afterLastSlash, if_pos hmem, ih]

theorem not_mem_afterLastSlash : ∀ p : List Char, '/' ∉ afterLastSlash p
  | [] => by simp [afterLastSlash]
  | c :: rest => by
    have ih := not_mem_afterLastSlash rest
    simp only [afterLastSlash]
    split_ifs with h1 h2
    · exact ih
    · exact h1
    · intro hmem
      rcases List.mem_cons.mp hmem with e | e
      · exact h2 e.symm
      · exact h1 e

/-- C25: `getFileName` returns the substring after the last `'/'` of its
argument: what follows a `'/'` that nothing after it repeats, the whole
argument when it has no `'/'`, the empty string when it ends in `'/'`; the
result has no `'/'`, and the file name of the path that `createFilePath` makes of
a name without `'/'` is that name. -/
theorem getFileName_spec (env : Env) (filePath stem name : List Char) (allocs allocs' : Nat)
    (result : List Char) :
    ('/' ∉ name → getFileName (stem ++ '/' :: name) = name) ∧
    ('/' ∉ filePath → getFileName filePath = filePath) ∧
    getFileName (stem ++ ['/']) = [] ∧
    '/' ∉ getFileName filePath ∧
    ('/' ∉ name → createFilePath env stem name allocs = (some result, allocs') →
      getFileName result = name) := by
  refine ⟨?_, ?_, ?_, ?_, ?_⟩
  · intro hname
    rw [getFileName_eq_afterLastSlash, afterLastSlash_append name hname]
  · intro hpath
    rw [getFileName_eq_afterLastSlash, afterLastSlash_of_not_mem filePath hpath]
  · rw [getFileName_eq_afterLastSlash, afterLastSlash_append [] (by simp)]
  · rw [getFileName_eq_afterLastSlash]
    exact not_mem_afterLastSlash filePath
  · intro hname hcreate
    unfold createFilePath at hcreate
    split at hcreate
    · simp only [Prod.mk.injEq, Option.some.injEq] at hcreate
      rw [← hcreate.1, getFileName_eq_afterLastSlash, afterLastSlash_append name hname]
    · simp at hcreate

/-- A witness of C25: the file names of `root/sub/b.txt`, `b.txt` and `root/`,
and of the path made of `root/sub` and `b.txt`. -/
theorem getFileName_spec_witness :
    getFileName "root/sub/b.txt".toList = "b.txt".toList ∧
    getFileName "b.txt".toList = "b.txt".toList ∧
    getFileName "root/".toList = [] ∧
    getFileName "root/sub/b.txt".toList = "b.txt".toList := by
  have h := getFileName_spec sampleEnv "b.txt".toList "root/sub".toList "b.txt".toList 0 1
    "root/sub/b.txt".toList
  exact ⟨by decide, h.2.1 (by decide), by decide, h.2.2.2.2 (by decide) rfl⟩

/-! ## Distinct paths -/

theorem name_of_path_unique : ∀ (n₁ n₂ r₁ r₂ : List Char), '/' ∉ n₁ → '/' ∉ n₂ →
    (r₁ = [] ∨ r₁.head? = some '/') → (r₂ = [] ∨ r₂.head? = some '/') →
    n₁ ++ r₁ = n₂ ++ r₂ → n₁ = n₂
  | [], [], _, _, _, _, _, _, _ => rfl
  | [], b :: n₂, r₁, r₂, _, h₂, hr₁, _, h => by
    simp only [List.nil_append, List.cons_append] at h
    rcases hr₁ with e | e
    · rw [e] at h; cases h
    · rw [h] at e
      simp only [List.head?_cons, Option.some.injEq] at e
      exact absurd (by simp [e]) h₂
  | a :: n₁, [], r₁, r₂, h₁, _, _, hr₂, h => by
    simp only [List.nil_append, List.cons_append] at h
    rcases hr₂ with e | e
    · rw [e] at h; cases h
    · rw [← h] at e
      simp only [List.head?_cons, Option.some.injEq] at e
      exact absurd (by simp [e]) h₁
  | a :: n₁, b :: n₂, r₁, r₂, h₁, h₂, hr₁, hr₂, h => by
    simp only [List.cons_append, List.cons.injEq] at h
    simp only [List.mem_cons, not_or] at h₁ h₂
    rw [h.1, name_of_path_unique n₁ n₂ r₁ r₂ h₁.2 h₂.2 hr₁ hr₂ h.2]

theorem candidatesEntry_path (showAll : Bool) (base : List Char) (trail : List (List Char))
    (depth : Nat) (d_name : List Char) (lstat : Option Stat) (dir : Dir) :
    ∀ c ∈ candidatesEntry showAll base trail depth (Entry.mk d_name lstat dir),
      ∃ rest, c.path = base ++ '/' :: (d_name ++ rest) ∧ (rest = [] ∨ rest.head? = some '/') := by
  intro c hc
  simp only [candidatesEntry] at hc
  split at hc
  · simp at hc
  · split at hc
    · simp at hc
    · split at hc
      · split at hc
        · obtain ⟨more, _, h2, _⟩ := candidatesDir_trail showAll dir _ _ depth c hc
          refine ⟨(more ++ [c.name]).flatMap (fun n => '/' :: n), ?_, ?_⟩
          · rw [h2]; simp [joinPath]
          · right
            cases more with
            | nil => simp
            | cons m ms => simp
        · simp at hc
      · split at hc
        · simp at hc; subst hc
          exact ⟨[], by simp, Or.inl rfl⟩
        · simp at hc

theorem mem_candidatesList (showAll : Bool) (base : List Char) (trail : List (List Char))
    (depth : Nat) (c : Candidate) :
    ∀ entries : List Entry, c ∈ candidatesList showAll base trail depth entries →
      ∃ e ∈ entries, c ∈ candidatesEntry showAll base trail depth e
  | [], h => by simp [candidatesList] at h
  | e :: rest, h => by
    rw [candidatesList, List.mem_append] at h
    rcases h with h | h
    · exact ⟨e, by simp, h⟩
    · obtain ⟨e', he', hc⟩ := mem_candidatesList showAll base trail depth c rest h
      exact ⟨e', by simp [he'], hc⟩

mutual
theorem candidatesDir_nodup (showAll : Bool) :
    ∀ (dir : Dir) (base : List Char) (trail : List (List Char)) (depth : Nat),
      dir.wellNamed = true →
      ((candidatesDir showAll base trail dir depth).map Candidate.path).Nodup
  | .unreadable, _, _, _ => by simp [candidatesDir]
  | .stream entries, base, trail, depth => by
    intro h
    simp only [Dir.wellNamed, Bool.and_eq_true, decide_eq_true_eq] at h
    rw [candidatesDir]
    exact candidatesList_nodup showAll entries base trail (depth + 1) h.1 h.2
theorem candidatesList_nodup (showAll : Bool) :
    ∀ (entries : List Entry) (base : List Char) (trail : List (List Char)) (depth : Nat),
      (entries.map Entry.d_name).Nodup → wellNamedList entries = true →
      ((candidatesList showAll base trail depth entries).map Candidate.path).Nodup
  | [], _, _, _ => by simp [candidatesList]
  | (.mk d_name lstat dir) :: rest, base, trail, depth => by
    intro hnames hwell
    simp only [List.map_cons, List.nodup_cons, Entry.d_name] at hnames
    simp only [wellNamedList, Entry.wellNamed, Bool.and_eq_true, decide_eq_true_eq] at hwell
    have ihe := candidatesEntry_nodup showAll (.mk d_name lstat dir) base trail depth
    have ihrest := candidatesList_nodup showAll rest base trail depth hnames.2 hwell.2
    rw [candidatesList, List.map_append, List.nodup_append]
    refine ⟨ihe (by simp [Entry.wellNamed, hwell.1]), ihrest, ?_⟩
    intro p hp₁ hp₂
    obtain ⟨c₁, hc₁, rfl⟩ := List.mem_map.mp hp₁
    obtain ⟨c₂, hc₂, heq⟩ := List.mem_map.mp hp₂
    obtain ⟨e₂, he₂, hc₂'⟩ := mem_candidatesList showAll base trail depth c₂ rest hc₂
    obtain ⟨r₁, hpath₁, hr₁⟩ := candidatesEntry_path showAll base trail depth d_name lstat dir c₁ hc₁
    cases e₂ with
    | mk n₂ ls₂ d₂ =>
      obtain ⟨r₂, hpath₂, hr₂⟩ := candidatesEntry_path showAll base trail depth n₂ ls₂ d₂ c₂ hc₂'
      have hn₂ : '/' ∉ n₂ := by
        have : ∀ es : List Entry, wellNamedList es = true → ∀ e ∈ es, '/' ∉ e.d_name := by
          intro es
          induction es with
          | nil => simp
          | cons x xs ih =>
            intro hw e he
            simp only [wellNamedList, Bool.and_eq_true] at hw
            rcases List.mem_cons.mp he with rfl | he
            · cases e with
              | mk n _ _ =>
                simp only [Entry.wellNamed, Bool.and_eq_true, decide_eq_true_eq] at hw
                exact hw.1.1
            · exact ih hw.2 e he
        exact this rest hwell.2 _ he₂
      rw [hpath₁, hpath₂] at heq
      have heq' : n₂ ++ r₂ = d_name ++ r₁ := by
        have := List.append_cancel_left heq
        simpa using this
      have hsame := name_of_path_unique n₂ d_name r₂ r₁ hn₂ hwell.1.1 hr₂ hr₁ heq'
      apply hnames.1
      rw [← hsame]
      exact List.mem_map.mpr ⟨_, he₂, rfl⟩
theorem candidatesEntry_nodup (showAll : Bool) :
    ∀ (e : Entry) (base : List Char) (trail : List (List Char)) (depth : Nat),
      e.wellNamed = true →
      ((candidatesEntry showAll base trail depth e).map Candidate.path).Nodup
  | .mk d_name lstat dir, base, trail, depth => by
    intro h
    simp only [Entry.wellNamed, Bool.and_eq_true, decide_eq_true_eq] at h
    have ih := candidatesDir_nodup showAll dir (base ++ '/' :: d_name) (trail ++ [d_name]) depth
      h.2
    simp only [candidatesEntry]
    split
    · simp
    · split
      · simp
      · split
        · split
          · exact ih
          · simp
        · split
          · simp
          · simp
end

/-- C29: in a tree whose entry names are unique within each directory and
contain no `'/'`, without allocation failure, every result of the traversal has
the path made of the starting directory and, each after a separator, the names
of the directories descended through and the name of the file, and no two
results have the same path. -/
theorem result_paths_distinct_and_rooted (env : Env) (pArgs : ParsedArguments)
    (base : List Char) (root : Dir) (hnames : root.wellNamed = true)
    (hheap : ∀ k, env.heap k = true) (hvalid : validArguments env pArgs = true)
    (hheight : root.height < 2 ^ 64) :
    ∃ results, traversalResults env pArgs base root = some results ∧
      (results.map Result.filePath).Nodup ∧
      ∀ r ∈ results, ∃ c ∈ candidatesDir pArgs.setShowAll base [] root 0,
        r = c.toResult ∧ r.filePath = joinPath base (c.trail ++ [c.name]) := by
  obtain ⟨st', h, hst'⟩ := findRecursive_root env pArgs base root initState [] hheap hvalid
    hheight initResults_holds
  refine ⟨expectedResults env pArgs base root 0, ?_, ?_, ?_⟩
  · simp only [traversalResults, h, hst'.read_eq, List.nil_append]
  · have hnodup := candidatesDir_nodup pArgs.setShowAll root base [] 0 hnames
    have hsub : ((candidatesDir pArgs.setShowAll base [] root 0).filter (accepts env pArgs)).Sublist
        (candidatesDir pArgs.setShowAll base [] root 0) := List.filter_sublist _
    have := hnodup.sublist (hsub.map Candidate.path)
    simpa [expectedResults, Candidate.toResult, Function.comp_def] using this
  · intro r hr
    simp only [expectedResults, List.mem_map, List.mem_filter] at hr
    obtain ⟨c, ⟨hc, _⟩, rfl⟩ := hr
    obtain ⟨more, h1, h2, _⟩ := candidatesDir_trail pArgs.setShowAll root base [] 0 c hc
    simp only [List.nil_append] at h1
    exact ⟨c, hc, rfl, by rw [h1]; exact h2⟩

/-- A witness of C29: the paths of the sample tree with show-all set. -/
theorem result_paths_distinct_and_rooted_witness :
    sampleTree.wellNamed = true ∧
    traversalResults sampleEnv (setHiddenFiles initParsedArguments) "root".toList sampleTree
      = some [⟨"root/a.txt".toList, 10⟩, ⟨"root/.hidden".toList, 5⟩,
          ⟨"root/sub/b.txt".toList, 20⟩] ∧
    joinPath "root".toList ["sub".toList, "b.txt".toList] = "root/sub/b.txt".toList ∧
    ∃ results, traversalResults sampleEnv (setHiddenFiles initParsedArguments) "root".toList
        sampleTree = some results ∧ (results.map Result.filePath).Nodup := by
  obtain ⟨results, h1, h2, _⟩ := result_paths_distinct_and_rooted sampleEnv
    (setHiddenFiles initParsedArguments) "root".toList sampleTree (by decide) (fun _ => rfl)
    (by decide) (by decide)
  exact ⟨by decide, by decide, by decide, results, h1, h2⟩

/-! ## Pruning compared with filtering -/

mutual
theorem filterRecursive_stores (env : Env) (pArgs : ParsedArguments)
    (hheap : ∀ k, env.heap k = true) (hvalid : validArguments env pArgs = true) :
    ∀ (dir : Dir) (base : List Char) (trail : List (List Char)) (st : State) (l : List Result)
      (depth : Nat), 0 < depth → depth + dir.height < 2 ^ 64 → st.res.Holds l →
      ∃ st', filterRecursive env pArgs base dir st depth = some (true, st') ∧
        st'.res.Holds (l ++ storedFor env pArgs (candidatesDir pArgs.setShowAll base trail dir depth))
  | .unreadable, base, trail, st, l, depth => by
    intro hpos _ hst
    refine ⟨st, ?_, ?_⟩
    · simp [filterRecursive]; omega
    · simpa [candidatesDir, storedFor] using hst
  | .stream entries, base, trail, st, l, depth => by
    intro hpos hbound hst
    simp only [Dir.height] at hbound
    have hmod : (depth + 1) % 2 ^ 64 = depth + 1 := Nat.mod_eq_of_lt (by omega)
    simp only [filterRecursive, candidatesDir, hmod]
    exact filterLoop_stores env pArgs hheap hvalid entries base trail st l (depth + 1) (by omega)
      (by omega) hst
theorem filterLoop_stores (env : Env) (pArgs : ParsedArguments)
    (hheap : ∀ k, env.heap k = true) (hvalid : validArguments env pArgs = true) :
    ∀ (entries : List Entry) (base : List Char) (trail : List (List Char)) (st : State)
      (l : List Result) (depth : Nat), 0 < depth → depth + heightList entries < 2 ^ 64 →
      st.res.Holds l →
      ∃ st', filterLoop env pArgs base depth entries st true = some (true, st') ∧
        st'.res.Holds
          (l ++ storedFor env pArgs (candidatesList pArgs.setShowAll base trail depth entries))
  | [], base, trail, st, l, depth => by
    intro _ _ hst
    exact ⟨st, by simp [filterLoop], by simpa [candidatesList, storedFor] using hst⟩
  | (.mk d_name lstat dir) :: rest, base, trail, st, l, depth => by
    intro hpos hbound hst
    simp only [heightList, Entry.height] at hbound
    have hrest : depth + heightList rest < 2 ^ 64 := by omega
    have hdir : depth + dir.height < 2 ^ 64 := by omega
    have ihrest := filterLoop_stores env pArgs hheap hvalid rest base trail
    have ihentry := filterEntry_stores env pArgs hheap hvalid (.mk d_name lstat dir)
      (base ++ '/' :: d_name) (trail ++ [d_name])
    simp only [Entry.dir] at ihentry
    simp only [filterLoop, candidatesList, candidatesEntry, Entry.d_name, Entry.lstat,
      storedFor_append, Bool.not_true, Bool.false_eq_true, if_false]
    by_cases hdots : d_name = ['.'] ∨ d_name = ['.', '.']
    · simp only [hdots, if_true, storedFor_nil, List.nil_append]
      exact ihrest st l depth hpos hrest hst
    · simp only [hdots, if_false, createFilePath, hheap, if_true]
      have hst1 : ({ st with allocs := st.allocs + 1 } : State).res.Holds l := hst
      cases lstat with
      | none =>
        simp only [storedFor_nil, List.nil_append]
        exact ihrest _ l depth hpos hrest hst1
      | some buf =>
        simp only []
        by_cases hisdir : S_ISDIR buf.st_mode = true
        · simp only [hisdir, if_true]
          by_cases hdesc : (!isHidden d_name || pArgs.setShowAll) = true
          · simp only [hdesc, if_true]
            obtain ⟨st2, h2, hst2⟩ := ihentry _ l depth hpos hdir hst1
            rw [h2]
            simp only []
            obtain ⟨st3, h3, hst3⟩ := ihrest st2 _ depth hpos hrest hst2
            exact ⟨st3, h3, by simpa [List.append_assoc] using hst3⟩
          · simp only [hdesc, if_false, storedFor_nil, List.nil_append]
            exact ihrest _ l depth hpos hrest hst1
        · have hisdir : S_ISDIR buf.st_mode = false := by simpa using hisdir
          simp only [hisdir, Bool.false_eq_true, if_false]
          by_cases hisreg : S_ISREG buf.st_mode = true
          · simp only [hisreg, if_true, checkFile_eq env pArgs hvalid, storedFor_singleton]
            have hacc : accepts env pArgs
                { name := d_name, path := base ++ '/' :: d_name, stat := buf, depth := depth,
                  trail := trail } =
                ((checkName pArgs d_name == some true && checkPermissions pArgs (getMask buf) &&
                  checkUser env pArgs buf == some true && checkMinDepth pArgs depth &&
                  checkHidden pArgs d_name) && checkMaxDepth pArgs depth) := rfl
            rw [hacc]
            cases (checkName pArgs d_name == some true && checkPermissions pArgs (getMask buf) &&
                  checkUser env pArgs buf == some true && checkMinDepth pArgs depth &&
                  checkHidden pArgs d_name) with
            | false =>
              simp only [Bool.false_and, Bool.false_eq_true, if_false, List.nil_append]
              exact ihrest _ l depth hpos hrest hst1
            | true =>
              cases hmax : checkMaxDepth pArgs depth with
              | false =>
                simp only [Bool.not_false, if_true, Bool.and_false, Bool.false_eq_true, if_false,
                  List.nil_append]
                exact ihrest _ l depth hpos hrest hst1
              | true =>
                obtain ⟨st2, h2, hst2⟩ := createResult_holds env _ l (base ++ '/' :: d_name)
                  buf.st_size hst1 (fun _ => hheap _)
                simp only [Bool.not_true, Bool.false_eq_true, if_false, h2, Bool.and_true, if_true]
                obtain ⟨st3, h3, hst3⟩ := ihrest st2 _ depth hpos hrest hst2
                exact ⟨st3, h3, by simpa [Candidate.toResult, List.append_assoc] using hst3⟩
          · have hisreg : S_ISREG buf.st_mode = false := by simpa using hisreg
            simp only [hisreg, Bool.false_eq_true, if_false, storedFor_nil, List.nil_append]
            exact ihrest _ l depth hpos hrest hst1
theorem filterEntry_stores (env : Env) (pArgs : ParsedArguments)
    (hheap : ∀ k, env.heap k = true) (hvalid : validArguments env pArgs = true) :
    ∀ (e : Entry) (currentPath : List Char) (trail : List (List Char)) (st : State)
      (l : List Result) (depth : Nat), 0 < depth → depth + e.dir.height < 2 ^ 64 →
      st.res.Holds l →
      ∃ st', filterEntry env pArgs currentPath e st depth = some (true, st') ∧
        st'.res.Holds
          (l ++ storedFor env pArgs (candidatesDir pArgs.setShowAll currentPath trail e.dir depth))
  | .mk _ _ dir, currentPath, trail, st, l, depth => by
    intro hpos hbound hst
    simp only [filterEntry, Entry.dir] at hbound ⊢
    exact filterRecursive_stores env pArgs hheap hvalid dir currentPath trail st l depth hpos
      hbound hst
end

/-- C22: without allocation failure, the traversal that leaves the current
directory at the first accepted regular file beyond the maximum depth and the
traversal that skips such a file and goes on return the same value and leave
stores with the same number of results and the same results in the same
order. -/
theorem pruning_equals_filtering (env : Env) (pArgs : ParsedArguments) (base : List Char)
    (root : Dir) (st : State) (l : List Result) (hheap : ∀ k, env.heap k = true)
    (hvalid : validArguments env pArgs = true) (hheight : root.height < 2 ^ 64)
    (hst : st.res.Holds l) :
    ∃ b pruned filtered results,
      findRecursive env pArgs base root st 0 = some (b, pruned) ∧
      filterRecursive env pArgs base root st 0 = some (b, filtered) ∧
      pruned.res.read = some results ∧ filtered.res.read = some results ∧
      pruned.res.arrayIndex = filtered.res.arrayIndex := by
  obtain ⟨st₁, h₁, hst₁⟩ := findRecursive_root env pArgs base root st l hheap hvalid hheight hst
  cases root with
  | unreadable =>
    refine ⟨false, st, st, l, by simp [findRecursive], by simp [filterRecursive],
      hst.read_eq, hst.read_eq, rfl⟩
  | stream entries =>
    simp only [Dir.height] at hheight
    have hmod : (0 + 1) % 2 ^ 64 = 1 := by norm_num
    obtain ⟨st₂, h₂, hst₂⟩ := filterLoop_stores env pArgs hheap hvalid entries base [] st l 1
      (by omega) (by omega) hst
    have hst₂' : st₂.res.Holds (l ++ expectedResults env pArgs base (.stream entries) 0) := by
      simpa [expectedResults, candidatesDir, storedFor] using hst₂
    refine ⟨true, st₁, st₂, _, h₁, ?_, hst₁.read_eq, hst₂'.read_eq, ?_⟩
    · simp only [filterRecursive, hmod]
      exact h₂
    · rw [hst₁.index, hst₂'.index]

theorem pruning_equals_filtering_witness :
    (∃ b pruned filtered results,
      findRecursive sampleEnv maxDepthOne "root".toList deepTree initState 0 = some (b, pruned) ∧
      filterRecursive sampleEnv maxDepthOne "root".toList deepTree initState 0
        = some (b, filtered) ∧
      pruned.res.read = some results ∧ filtered.res.read = some results ∧
      pruned.res.arrayIndex = filtered.res.arrayIndex) ∧
    (findRecursive sampleEnv maxDepthOne "root".toList deepTree initState 0).map
        (fun r => (r.1, r.2.res.read, r.2.allocs)) =
      some (true, some [⟨"root/a.txt".toList, 10⟩, ⟨"root/z.txt".toList, 40⟩], 5) ∧
    (filterRecursive sampleEnv maxDepthOne "root".toList deepTree initState 0).map
        (fun r => (r.1, r.2.res.read, r.2.allocs)) =
      some (true, some [⟨"root/a.txt".toList, 10⟩, ⟨"root/z.txt".toList, 40⟩], 7) :=
  ⟨pruning_equals_filtering sampleEnv maxDepthOne "root".toList deepTree initState []
    (fun _ => rfl) (by decide) (by decide) initResults_holds, by decide, by decide⟩

/-! ## The trace of the traversal -/

mutual
theorem findRecursiveTrace_result (env : Env) (pArgs : ParsedArguments) :
    ∀ (dir : Dir) (base : List Char) (st : State) (depth : Nat),
      (findRecursiveTrace env pArgs base dir st depth).2 = findRecursive env pArgs base dir st depth
  | .unreadable, base, st, depth => by simp [findRecursiveTrace, findRecursive]
  | .stream entries, base, st, depth => by
    simp only [findRecursiveTrace, findRecursive]
    exact findLoopTrace_result env pArgs entries base st _ true
theorem findLoopTrace_result (env : Env) (pArgs : ParsedArguments) :
    ∀ (entries : List Entry) (base : List Char) (st : State) (depth : Nat) (r : Bool),
      (findLoopTrace env pArgs base depth entries st r).2 =
        findLoop env pArgs base depth entries st r
  | [], base, st, depth, r => by simp [findLoopTrace, findLoop]
  | (.mk d_name lstat dir) :: rest, base, st, depth, r => by
    have ihrest := findLoopTrace_result env pArgs rest base
    have ihentry := findEntryTrace_result env pArgs (.mk d_name lstat dir)
    simp only [findLoopTrace, findLoop, Entry.d_name, Entry.lstat]
    by_cases hr : (!r) = true
    · simp only [hr, if_true]
    simp only [hr, Bool.false_eq_true, if_false]
    by_cases hdots : d_name = ['.'] ∨ d_name = ['.', '.']
    · simp only [hdots, if_true]
      exact ihrest _ _ _
    simp only [hdots, Bool.false_eq_true, if_false]
    cases hpath : createFilePath env base d_name st.allocs with
    | mk path allocs =>
      cases path with
      | none => rfl
      | some currentPath =>
        simp only []
        cases lstat with
        | none => exact ihrest _ _ _
        | some buf =>
          simp only []
          by_cases hisdir : S_ISDIR buf.st_mode = true
          · simp only [hisdir, if_true]
            by_cases hdesc : (!isHidden d_name || pArgs.setShowAll) = true
            · simp only [hdesc, if_true]
              rw [← ihentry]
              cases hrun : findEntryTrace env pArgs currentPath (Entry.mk d_name (some buf) dir)
                  { st with allocs := allocs } depth with
              | mk events result =>
                cases result with
                | none => rfl
                | some rs => exact ihrest _ _ _
            · simp only [hdesc, Bool.false_eq_true, if_false]
              exact ihrest _ _ _
          · simp only [hisdir, Bool.false_eq_true, if_false]
            by_cases hisreg : S_ISREG buf.st_mode = true
            · simp only [hisreg, if_true]
              cases checkFile env pArgs d_name buf depth with
              | none => rfl
              | some b =>
                cases b with
                | false => exact ihrest _ _ _
                | true =>
                  simp only []
                  by_cases hmax : (!checkMaxDepth pArgs depth) = true
                  · simp only [hmax, if_true]
                  · simp only [hmax, Bool.false_eq_true, if_false]
                    cases createResult env { st with allocs := allocs } currentPath
                        buf.st_size with
                    | none => rfl
                    | some rs =>
                      obtain ⟨b, st'⟩ := rs
                      cases b with
                      | false => rfl
                      | true => exact ihrest _ _ _
            · simp only [hisreg, Bool.false_eq_true, if_false]
              exact ihrest _ _ _
theorem findEntryTrace_result (env : Env) (pArgs : ParsedArguments) :
    ∀ (e : Entry) (currentPath : List Char) (st : State) (depth : Nat),
      (findEntryTrace env pArgs currentPath e st depth).2 =
        findEntry env pArgs currentPath e st depth
  | .mk _ _ dir, currentPath, st, depth => by
    simp only [findEntryTrace, findEntry]
    exact findRecursiveTrace_result env pArgs dir currentPath st depth
end
theorem findLoopTrace_false (env : Env) (pArgs : ParsedArguments) (base : List Char)
    (depth : Nat) (entries : List Entry) (st : State) :
    findLoopTrace env pArgs base depth entries st false = ([], some (false, st)) := by
  cases entries <;> simp [findLoopTrace]

mutual
theorem findRecursiveTrace_failStop (env : Env) (pArgs : ParsedArguments) :
    ∀ (dir : Dir) (base : List Char) (st : State) (depth : Nat),
      Event.outOfMemory ∉ (findRecursiveTrace env pArgs base dir st depth).1 ∨
      ∃ before st', findRecursiveTrace env pArgs base dir st depth =
          (before ++ [Event.outOfMemory], some (false, st')) ∧ Event.outOfMemory ∉ before
  | .unreadable, base, st, depth => by
    left
    simp [findRecursiveTrace]
  | .stream entries, base, st, depth => by
    simp only [findRecursiveTrace]
    rcases findLoopTrace_failStop env pArgs entries base st ((depth + 1) % 2 ^ 64) true with
      h | ⟨before, st', h, hbefore⟩
    · left
      simpa using h
    · right
      refine ⟨Event.opendir base depth :: before, st', ?_, by simpa using hbefore⟩
      rw [h]
      rfl
theorem findLoopTrace_failStop (env : Env) (pArgs : ParsedArguments) :
    ∀ (entries : List Entry) (base : List Char) (st : State) (depth : Nat) (r : Bool),
      Event.outOfMemory ∉ (findLoopTrace env pArgs base depth entries st r).1 ∨
      ∃ before st', findLoopTrace env pArgs base depth entries st r =
          (before ++ [Event.outOfMemory], some (false, st')) ∧ Event.outOfMemory ∉ before
  | [], base, st, depth, r => by
    left
    simp [findLoopTrace]
  | (.mk d_name lstat dir) :: rest, base, st, depth, r => by
    have ihrest := findLoopTrace_failStop env pArgs rest base
    have ihentry := findEntryTrace_failStop env pArgs (.mk d_name lstat dir)
    simp only [findLoopTrace, Entry.d_name, Entry.lstat]
    by_cases hr : (!r) = true
    · simp only [hr, if_true]
      left
      simp
    simp only [hr, Bool.false_eq_true, if_false]
    by_cases hdots : d_name = ['.'] ∨ d_name = ['.', '.']
    · simp only [hdots, if_true]
      exact ihrest _ _ _
    simp only [hdots, Bool.false_eq_true, if_false]
    cases hpath : createFilePath env base d_name st.allocs with
    | mk path allocs =>
      cases path with
      | none =>
        right
        exact ⟨[], _, rfl, by simp⟩
      | some currentPath =>
        simp only []
        cases lstat with
        | none => exact ihrest _ _ _
        | some buf =>
          simp only []
          by_cases hisdir : S_ISDIR buf.st_mode = true
          · simp only [hisdir, if_true]
            by_cases hdesc : (!isHidden d_name || pArgs.setShowAll) = true
            · simp only [hdesc, if_true]
              have hent := ihentry currentPath { st with allocs := allocs } depth
              cases hrun : findEntryTrace env pArgs currentPath (Entry.mk d_name (some buf) dir)
                  { st with allocs := allocs } depth with
              | mk events result =>
                rw [hrun] at hent
                cases result with
                | none =>
                  rcases hent with h | ⟨before, st', h, _⟩
                  · left
                    exact h
                  · simp at h
                | some rs =>
                  obtain ⟨r', st₂⟩ := rs
                  simp only []
                  cases r' with
                  | false =>
                    rw [findLoopTrace_false]
                    rcases hent with h | ⟨before, st', h, hbefore⟩
                    · left
                      simpa using h
                    · right
                      simp only [Prod.mk.injEq] at h
                      refine ⟨before, st₂, ?_, hbefore⟩
                      simp [h.1]
                  | true =>
                    have hev : Event.outOfMemory ∉ events := by
                      rcases hent with h | ⟨before, st', h, _⟩
                      · exact h
                      · simp at h
                    rcases ihrest st₂ depth true with h | ⟨before, st', h, hbefore⟩
                    · left
                      simp only [List.mem_append, not_or]
                      exact ⟨hev, h⟩
                    · right
                      refine ⟨events ++ before, st', ?_, ?_⟩
                      · rw [h]
                        simp
                      · simp only [List.mem_append, not_or]
                        exact ⟨hev, hbefore⟩
            · simp only [hdesc, Bool.false_eq_true, if_false]
              exact ihrest _ _ _
          · simp only [hisdir, Bool.false_eq_true, if_false]
            by_cases hisreg : S_ISREG buf.st_mode = true
            · simp only [hisreg, if_true]
              cases checkFile env pArgs d_name buf depth with
              | none =>
                left
                simp
              | some b =>
                cases b with
                | false => exact ihrest _ _ _
                | true =>
                  simp only []
                  by_cases hmax : (!checkMaxDepth pArgs depth) = true
                  · simp only [hmax, if_true]
                    left
                    simp
                  · simp only [hmax, Bool.false_eq_true, if_false]
                    cases createResult env { st with allocs := allocs } currentPath
                        buf.st_size with
                    | none =>
                      left
                      simp
                    | some rs =>
                      obtain ⟨b, st₂⟩ := rs
                      cases b with
                      | false =>
                        right
                        exact ⟨[], st₂, rfl, by simp⟩
                      | true =>
                        simp only []
                        rcases ihrest st₂ depth r with h | ⟨before, st', h, hbefore⟩
                        · left
                          simpa using h
                        · right
                          refine ⟨Event.stored ⟨currentPath, buf.st_size⟩ :: before, st', ?_,
                            by simpa using hbefore⟩
                          rw [h]
                          rfl
            · simp only [hisreg, Bool.false_eq_true, if_false]
              exact ihrest _ _ _
theorem findEntryTrace_failStop (env : Env) (pArgs : ParsedArguments) :
    ∀ (e : Entry) (currentPath : List Char) (st : State) (depth : Nat),
      Event.outOfMemory ∉ (findEntryTrace env pArgs currentPath e st depth).1 ∨
      ∃ before st', findEntryTrace env pArgs currentPath e st depth =
          (before ++ [Event.outOfMemory], some (false, st')) ∧ Event.outOfMemory ∉ before
  | .mk _ _ dir, currentPath, st, depth => by
    simp only [findEntryTrace]
    exact findRecursiveTrace_failStop env pArgs dir currentPath st depth
end

/-- C23: an allocation failure is fatal and unwinds all levels.  Whatever the
directory, the store and the depth of a call of `findRecursive`: if an
allocation fails in `createFilePath` or `createResult` during the call, in the
call itself or in a call nested in it, then the failure is the last event of
the call, so that no result is appended and no directory is opened after it,
and the call returns false. -/
theorem allocation_failure_unwinds_all_levels (env : Env) (pArgs : ParsedArguments)
    (base : List Char) (dir : Dir) (st : State) (depth : Nat)
    (hfail : Event.outOfMemory ∈ (findRecursiveTrace env pArgs base dir st depth).1) :
    ∃ before st',
      findRecursiveTrace env pArgs base dir st depth =
        (before ++ [Event.outOfMemory], some (false, st')) ∧
      Event.outOfMemory ∉ before ∧
      findRecursive env pArgs base dir st depth = some (false, st') := by
  rcases findRecursiveTrace_failStop env pArgs dir base st depth with h | ⟨before, st', h, hbefore⟩
  · exact absurd hfail h
  · refine ⟨before, st', h, hbefore, ?_⟩
    rw [← findRecursiveTrace_result, h]

theorem allocation_failure_unwinds_all_levels_witness :
    (findRecursiveTrace fourthAllocationFails initParsedArguments "root".toList deepTree
        initState 0).1 =
      [Event.opendir "root".toList 0, Event.stored ⟨"root/a.txt".toList, 10⟩,
        Event.opendir "root/sub".toList 1, Event.outOfMemory] ∧
    ∃ before st',
      findRecursiveTrace fourthAllocationFails initParsedArguments "root".toList deepTree
          initState 0 = (before ++ [Event.outOfMemory], some (false, st')) ∧
      Event.outOfMemory ∉ before ∧
      findRecursive fourthAllocationFails initParsedArguments "root".toList deepTree
          initState 0 = some (false, st') :=
  ⟨by decide, allocation_failure_unwinds_all_levels fourthAllocationFails initParsedArguments
    "root".toList deepTree initState 0 (by decide)⟩

/-! ## Where the maximum depth stops the traversal -/

theorem findRecursiveTrace_head (env : Env) (pArgs : ParsedArguments) (base : List Char)
    (dir : Dir) (st : State) (depth : Nat) :
    ∃ events, (findRecursiveTrace env pArgs base dir st depth).1 =
      Event.opendir base depth :: events := by
  cases dir with
  | unreadable => exact ⟨[], by simp [findRecursiveTrace]⟩
  | stream entries =>
    simp only [findRecursiveTrace]
    exact ⟨_, rfl⟩

theorem findLoopTrace_pruned (env : Env) (pArgs : ParsedArguments) (base : List Char)
    (depth : Nat) (hmax : checkMaxDepth pArgs depth = false) (e : Entry) (buf : Stat)
    (hdots : ¬(e.d_name = ['.'] ∨ e.d_name = ['.', '.'])) (hlstat : e.lstat = some buf)
    (hisdir : S_ISDIR buf.st_mode = false) (hisreg : S_ISREG buf.st_mode = true)
    (hcheck : checkFile env pArgs e.d_name buf depth = some true) (post : List Entry) :
    ∀ (pre : List Entry) (st : State) (r : Bool),
      findLoopTrace env pArgs base depth (pre ++ e :: post) st r =
        findLoopTrace env pArgs base depth (pre ++ [e]) st r
  | [], st, r => by
    simp only [List.nil_append, findLoopTrace, hdots, hlstat, hisdir, hisreg, hcheck, hmax,
      Bool.false_eq_true, if_false, if_true, Bool.not_false]
  | p :: pre, st, r => by
    have ih := findLoopTrace_pruned env pArgs base depth hmax e buf hdots hlstat hisdir hisreg
      hcheck post pre
    simp only [List.cons_append, findLoopTrace, List.append_eq, ih]

/-- C21, as the code has it: the maximum depth stops the traversal of a
directory at the first regular file that passes the other filters and lies
beyond the maximum depth.  The entries that follow such a file are not
examined, so no subdirectory among them is opened: the call runs as if the
directory ended with that file.  A subdirectory that is read while the loop is
running is opened whatever its depth. -/
theorem descent_stops_at_accepted_file_beyond_maximum (env : Env) (pArgs : ParsedArguments)
    (base : List Char) (depth : Nat) (hmax : checkMaxDepth pArgs depth = false) :
    (∀ (pre post : List Entry) (e : Entry) (buf : Stat) (st : State) (r : Bool),
      ¬(e.d_name = ['.'] ∨ e.d_name = ['.', '.']) → e.lstat = some buf →
      S_ISDIR buf.st_mode = false → S_ISREG buf.st_mode = true →
      checkFile env pArgs e.d_name buf depth = some true →
      findLoopTrace env pArgs base depth (pre ++ e :: post) st r =
        findLoopTrace env pArgs base depth (pre ++ [e]) st r) ∧
    (∀ (e : Entry) (rest : List Entry) (buf : Stat) (st : State),
      ¬(e.d_name = ['.'] ∨ e.d_name = ['.', '.']) → env.heap st.allocs = true →
      e.lstat = some buf → S_ISDIR buf.st_mode = true →
      (!isHidden e.d_name || pArgs.setShowAll) = true →
      ∃ events, (findLoopTrace env pArgs base depth (e :: rest) st true).1 =
        Event.opendir (base ++ '/' :: e.d_name) depth :: events) := by
  refine ⟨fun pre post e buf st r hdots hlstat hisdir hisreg hcheck =>
    findLoopTrace_pruned env pArgs base depth hmax e buf hdots hlstat hisdir hisreg hcheck post
      pre st r, ?_⟩
  intro e rest buf st hdots hheap hlstat hisdir hdesc
  obtain ⟨d_name, lstat, dir⟩ := e
  simp only [Entry.d_name, Entry.lstat] at hdots hlstat hdesc ⊢
  subst hlstat
  simp only [findLoopTrace, Entry.d_name, Entry.lstat, hdots, createFilePath, hheap, hisdir,
    hdesc, Bool.not_true, Bool.false_eq_true, if_false, if_true, findEntryTrace]
  obtain ⟨events, hev⟩ := findRecursiveTrace_head env pArgs (base ++ '/' :: d_name) dir
    { st with allocs := st.allocs + 1 } depth
  cases hrun : findRecursiveTrace env pArgs (base ++ '/' :: d_name) dir
      { st with allocs := st.allocs + 1 } depth with
  | mk evs result =>
    rw [hrun] at hev
    simp only at hev
    subst hev
    cases result with
    | none => exact ⟨_, rfl⟩
    | some rs => exact ⟨_, rfl⟩

/-- C21, counterexample: with the maximum depth 0 the entries of the starting
directory `root` are at the depth 1, beyond the maximum, and its subdirectory
`sub` is opened all the same; the traversal of `sub` ends at its file `b.txt`. -/
theorem subdirectory_beyond_maximum_is_opened :
    checkMaxDepth maxDepthZero 1 = false ∧
    findRecursiveTrace sampleEnv maxDepthZero "root".toList subTree initState 0 =
      ([Event.opendir "root".toList 0, Event.opendir "root/sub".toList 1],
        some (true, ⟨initResults, 2⟩)) := by
  decide

theorem descent_stops_at_accepted_file_beyond_maximum_witness :
    checkMaxDepth maxDepthZero 1 = false ∧
    findLoopTrace sampleEnv maxDepthZero "root".toList 1
        ([] ++ regularEntry "a.txt".toList 10 :: [directoryEntry "sub".toList []]) initState
        true =
      findLoopTrace sampleEnv maxDepthZero "root".toList 1
        ([] ++ [regularEntry "a.txt".toList 10]) initState true ∧
    ∃ events, (findLoopTrace sampleEnv maxDepthZero "root".toList 1
        (directoryEntry "sub".toList [] :: [regularEntry "a.txt".toList 10]) initState true).1 =
      Event.opendir ("root".toList ++ '/' :: (directoryEntry "sub".toList []).d_name) 1 ::
        events :=
  ⟨by decide,
    (descent_stops_at_accepted_file_beyond_maximum sampleEnv maxDepthZero "root".toList 1
      (by decide)).1 [] [directoryEntry "sub".toList []] (regularEntry "a.txt".toList 10)
      (regularStat 10) initState true (by decide) rfl (by decide) (by decide) (by decide),
    (descent_stops_at_accepted_file_beyond_maximum sampleEnv maxDepthZero "root".toList 1
      (by decide)).2 (directoryEntry "sub".toList []) [regularEntry "a.txt".toList 10]
      directoryStat initState (by decide) rfl rfl (by decide) (by decide)⟩

/-! ## Numeric option arguments -/

theorem isOnlyDigits_eq_allDigits (arg : List Char) : isOnlyDigits arg = allDigits arg := by
  induction arg with
  | nil => rfl
  | cons c arg ih =>
    have hc : isdigit c = ('0'.toNat ≤ c.toNat && c.toNat ≤ '9'.toNat) := rfl
    simp only [isOnlyDigits, allDigits, List.all_cons, ih, hc]
    cases ('0'.toNat ≤ c.toNat && c.toNat ≤ '9'.toNat) <;> simp [allDigits]

theorem char_eq_zero_of_toNat (c : Char) (h : c.toNat = 48) : c = '0' := by
  rw [← Char.ofNat_toNat c, h]

theorem isAllZero_iff (arg : List Char) : isAllZero arg = true ↔ ∀ c ∈ arg, c = '0' := by
  induction arg with
  | nil => simp [isAllZero]
  | cons c arg ih =>
    simp only [isAllZero, List.mem_cons, forall_eq_or_imp]
    by_cases hc : c = '0'
    · simp [hc, ih]
    · simp [hc]

theorem strtolDigits_eq_foldl (arg : List Char) :
    ∀ acc, allDigits arg = true →
      strtolDigits acc arg = arg.foldl (fun value c => 10 * value + digitValue c) acc := by
  induction arg with
  | nil => intro acc _; rfl
  | cons c arg ih =>
    intro acc h
    simp only [allDigits, List.all_cons, Bool.and_eq_true] at h
    have hc : isdigit c = true := by simpa [isdigit] using h.1
    simp only [strtolDigits, hc, if_true, List.foldl_cons, digitValue]
    exact ih _ (by simpa [allDigits] using h.2)

theorem foldl_digits_eq_zero (arg : List Char) :
    ∀ acc, allDigits arg = true →
      (arg.foldl (fun value c => 10 * value + digitValue c) acc = 0 ↔
        acc = 0 ∧ ∀ c ∈ arg, c = '0') := by
  induction arg with
  | nil => intro acc _; simp
  | cons c arg ih =>
    intro acc h
    simp only [allDigits, List.all_cons, Bool.and_eq_true, Bool.and_eq_true,
      decide_eq_true_eq] at h
    have h48 : '0'.toNat = 48 := rfl
    rw [List.foldl_cons, ih _ (by simpa [allDigits] using h.2)]
    simp only [List.mem_cons, forall_eq_or_imp, digitValue]
    constructor
    · rintro ⟨h0, hrest⟩
      have : c.toNat = 48 := by omega
      exact ⟨by omega, char_eq_zero_of_toNat c this, hrest⟩
    · rintro ⟨hacc, hc, hrest⟩
      subst hc
      subst hacc
      exact ⟨by decide, hrest⟩

theorem decimalValue_eq_zero (arg : List Char) (h : allDigits arg = true) :
    decimalValue arg = 0 ↔ ∀ c ∈ arg, c = '0' := by
  rw [decimalValue, foldl_digits_eq_zero arg 0 h]
  simp

theorem skipSpace_of_allDigits (arg : List Char) (h : allDigits arg = true) :
    skipSpace arg = arg := by
  cases arg with
  | nil => rfl
  | cons c arg =>
    simp only [allDigits, List.all_cons, Bool.and_eq_true, decide_eq_true_eq] at h
    have h48 : '0'.toNat = 48 := rfl
    have h57 : '9'.toNat = 57 := rfl
    have hc : isspace c = false := by
      simp only [isspace, Bool.or_eq_false_iff, Bool.and_eq_false_iff, decide_eq_false_iff_not]
      omega
    simp [skipSpace, hc]

theorem strtol_of_allDigits (arg : List Char) (h : allDigits arg = true) :
    strtol arg = min LONG_MAX (decimalValue arg : Int) := by
  have hskip := skipSpace_of_allDigits arg h
  have hdigits := strtolDigits_eq_foldl arg 0 h
  unfold strtol
  rw [hskip]
  split
  · simp [allDigits] at h
  · simp [allDigits] at h
  · rw [hdigits]
    rfl

theorem decimalValue_append (digits : List Char) (c : Char) :
    decimalValue (digits ++ [c]) = 10 * decimalValue digits + digitValue c := by
  simp [decimalValue, List.foldl_append]

theorem allDigits_of_zeros (arg : List Char) (h : ∀ c ∈ arg, c = '0') : allDigits arg = true := by
  simp only [allDigits, List.all_eq_true]
  intro c hc
  rw [h c hc]
  decide

theorem allOctalDigits_of_zeros (arg : List Char) (h : ∀ c ∈ arg, c = '0') :
    allOctalDigits arg = true := by
  simp only [allOctalDigits, List.all_eq_true]
  intro c hc
  rw [h c hc]
  decide

theorem allDigits_of_allOctalDigits (arg : List Char) (h : allOctalDigits arg = true) :
    allDigits arg = true := by
  simp only [allOctalDigits, allDigits, List.all_eq_true, Bool.and_eq_true,
    decide_eq_true_eq] at h ⊢
  intro c hc
  have h55 : '7'.toNat = 55 := rfl
  have h57 : '9'.toNat = 57 := rfl
  have := h c hc
  omega

theorem isCorrectMaskLoop_isSome :
    ∀ (fuel : Nat) (mask : Int), mask.natAbs < fuel → (isCorrectMaskLoop fuel mask).isSome = true
  | 0, mask => by intro h; omega
  | fuel + 1, mask => by
    intro h
    simp only [isCorrectMaskLoop]
    split_ifs with h0 h7
    · rfl
    · rfl
    · apply isCorrectMaskLoop_isSome fuel
      have hdiv : (mask.tdiv 10).natAbs = mask.natAbs / 10 := Int.natAbs_tdiv mask 10
      have hpos : 0 < mask.natAbs := Int.natAbs_pos.mpr h0
      omega

theorem isCorrectMask_isSome (mask : Int) : (isCorrectMask mask).isSome = true :=
  isCorrectMaskLoop_isSome _ mask (Nat.lt_succ_self _)

theorem isCorrectMaskLoop_decimalValue (digits : List Char) :
    allDigits digits = true → ∀ fuel, decimalValue digits < fuel →
      isCorrectMaskLoop fuel (decimalValue digits : Int) = some (allOctalDigits digits) := by
  induction digits using List.reverseRecOn with
  | nil =>
    intro _ fuel hfuel
    cases fuel with
    | zero => omega
    | succ fuel => simp [isCorrectMaskLoop, decimalValue, allOctalDigits]
  | append_singleton digits c ih =>
    intro hall fuel hfuel
    have h48 : '0'.toNat = 48 := rfl
    have h55 : '7'.toNat = 55 := rfl
    have h57 : '9'.toNat = 57 := rfl
    simp only [allDigits, List.all_append, List.all_cons, List.all_nil, Bool.and_true,
      Bool.and_eq_true, decide_eq_true_eq] at hall
    obtain ⟨hdigits, hc⟩ := hall
    have hdigits : allDigits digits = true := hdigits
    rw [decimalValue_append] at hfuel ⊢
    have hd : digitValue c = c.toNat - 48 := rfl
    cases fuel with
    | zero => omega
    | succ fuel =>
      have htmod : ((10 * decimalValue digits + digitValue c : Nat) : Int).tmod 10 =
          (digitValue c : Int) := by
        rw [Int.tmod_eq_emod (by positivity) (by norm_num)]
        omega
      have htdiv : ((10 * decimalValue digits + digitValue c : Nat) : Int).tdiv 10 =
          (decimalValue digits : Int) := by
        rw [Int.tdiv_eq_ediv (by positivity) (by norm_num)]
        omega
      have hoct : allOctalDigits (digits ++ [c]) =
          (allOctalDigits digits && decide (c.toNat ≤ 55)) := by
        simp only [allOctalDigits, List.all_append, List.all_cons, List.all_nil, Bool.and_true,
          h48, h55]
        have : decide (48 ≤ c.toNat) = true := by simpa using hc.1
        rw [this, Bool.true_and]
      simp only [isCorrectMaskLoop, htmod, htdiv]
      by_cases hzero : ((10 * decimalValue digits + digitValue c : Nat) : Int) = 0
      · rw [if_pos hzero]
        have hv : decimalValue digits = 0 := by omega
        have hzeros := (decimalValue_eq_zero digits hdigits).mp hv
        rw [hoct, allOctalDigits_of_zeros digits hzeros]
        have : c.toNat ≤ 55 := by omega
        simp [this]
      · rw [if_neg hzero]
        by_cases h7 : (digitValue c : Int) > 7
        · rw [if_pos h7, hoct]
          have : ¬ c.toNat ≤ 55 := by omega
          simp [this]
        · rw [if_neg h7, ih hdigits fuel (by omega), hoct]
          have : c.toNat ≤ 55 := by omega
          simp [this]

theorem isCorrectMask_decimalValue (digits : List Char) (h : allDigits digits = true) :
    isCorrectMask (decimalValue digits : Int) = some (allOctalDigits digits) := by
  unfold isCorrectMask
  exact isCorrectMaskLoop_decimalValue digits h _ (by simp)

theorem parseNumberFromArg_eq_some_iff (arg : List Char) (n : Int) :
    parseNumberFromArg arg = some n ↔
      (allDigits arg = true ∧ (decimalValue arg : Int) ≤ INT_MAX ∧ n = decimalValue arg) := by
  have hmax : INT_MAX = 2147483647 := by decide
  have hmin : INT_MIN = -2147483648 := by decide
  have hlong : LONG_MAX = 9223372036854775807 := by decide
  simp only [parseNumberFromArg]
  constructor
  · intro h
    split_ifs at h with hrange hzero hall hall
    · have hz : isAllZero arg = true := by simpa using hall
      have hzeros := (isAllZero_iff arg).mp hz
      have hdigits := allDigits_of_zeros arg hzeros
      have hv := (decimalValue_eq_zero arg hdigits).mpr hzeros
      simp only [Option.some.injEq] at h
      refine ⟨hdigits, by rw [hv, hmax]; norm_num, ?_⟩
      rw [← h, hzero, hv]
      rfl
    · have hdigits : allDigits arg = true := by
        rw [← isOnlyDigits_eq_allDigits]
        simpa using hall
      have hstr := strtol_of_allDigits arg hdigits
      simp only [Option.some.injEq] at h
      rw [hstr, hmax, hmin, hlong] at hrange
      rw [hstr, hlong] at h
      rw [hmax]
      refine ⟨hdigits, ?_, ?_⟩ <;> omega
  · rintro ⟨hdigits, hfits, hn⟩
    have hstr := strtol_of_allDigits arg hdigits
    rw [hmax] at hfits
    have hparsed : strtol arg = (decimalValue arg : Int) := by
      rw [hstr, hlong]
      omega
    rw [hparsed, hn]
    have hrange : ¬((decimalValue arg : Int) < INT_MIN ∨ (decimalValue arg : Int) > INT_MAX) := by
      rw [hmax, hmin]
      omega
    rw [if_neg hrange]
    by_cases hzero : (decimalValue arg : Int) = 0
    · rw [if_pos hzero]
      have hzeros := (decimalValue_eq_zero arg hdigits).mp (by omega)
      simp [(isAllZero_iff arg).mpr hzeros]
    · rw [if_neg hzero]
      simp [isOnlyDigits_eq_allDigits, hdigits]

theorem parseNumberFromArg_nil : parseNumberFromArg [] = some 0 := by
  decide

/-- C26, as the code has it: for a non-empty argument, `parseNumberFromArg`
succeeds if and only if the argument consists solely of decimal digits whose
value is at most `INT_MAX`, and it then yields exactly that value; `setMinDepth`
and `setMaxDepth` succeed in the same case and store that value.  `setMask`
asks for more: it succeeds if and only if the argument consists solely of the
digits 0 to 7 and its decimal value is at most `INT_MAX`, and stores that
decimal value.  An argument with a sign, white space or any other character
is rejected by all four. -/
theorem numeric_option_arguments (pArgs : ParsedArguments) (arg : List Char) (hne : arg ≠ []) :
    (∀ n : Int, parseNumberFromArg arg = some n ↔
      (isDecimalNumber arg = true ∧ (decimalValue arg : Int) ≤ INT_MAX ∧ n = decimalValue arg)) ∧
    (∀ p, setMinDepth pArgs arg = some p ↔
      (isDecimalNumber arg = true ∧ (decimalValue arg : Int) ≤ INT_MAX ∧
        p = { pArgs with setMinimalDepth := true, minimalDepth := decimalValue arg })) ∧
    (∀ p, setMaxDepth pArgs arg = some p ↔
      (isDecimalNumber arg = true ∧ (decimalValue arg : Int) ≤ INT_MAX ∧
        p = { pArgs with setMaximalDepth := true, maximalDepth := decimalValue arg })) ∧
    (∀ p, setMask pArgs arg = some p ↔
      (isOctalNumber arg = true ∧ (decimalValue arg : Int) ≤ INT_MAX ∧
        p = { pArgs with setMask := true, mask := decimalValue arg })) := by
  have hdec : isDecimalNumber arg = allDigits arg := by
    cases arg with
    | nil => exact absurd rfl hne
    | cons c arg => rfl
  have hoct : isOctalNumber arg = allOctalDigits arg := by
    cases arg with
    | nil => exact absurd rfl hne
    | cons c arg => rfl
  rw [hdec, hoct]
  have hmax : INT_MAX = 2147483647 := by decide
  have hconv : (decimalValue arg : Int) ≤ INT_MAX →
      ((decimalValue arg : Int) % 2 ^ 32).toNat = decimalValue arg := by
    intro h
    rw [hmax] at h
    have : (decimalValue arg : Int) % 2 ^ 32 = (decimalValue arg : Int) :=
      Int.emod_eq_of_lt (by positivity) (by norm_num; omega)
    rw [this, Int.toNat_natCast]
  refine ⟨parseNumberFromArg_eq_some_iff arg, ?_, ?_, ?_⟩
  · intro p
    simp only [setMinDepth]
    cases hparse : parseNumberFromArg arg with
    | none =>
      constructor
      · intro h
        cases h
      · rintro ⟨hdigits, hfits, _⟩
        have := (parseNumberFromArg_eq_some_iff arg _).mpr ⟨hdigits, hfits, rfl⟩
        rw [hparse] at this
        cases this
    | some n =>
      obtain ⟨hdigits, hfits, hn⟩ := (parseNumberFromArg_eq_some_iff arg n).mp hparse
      subst hn
      simp only [Option.some.injEq, hconv hfits]
      exact ⟨fun h => ⟨hdigits, hfits, h.symm⟩, fun h => h.2.2.symm⟩
  · intro p
    simp only [setMaxDepth]
    cases hparse : parseNumberFromArg arg with
    | none =>
      constructor
      · intro h
        cases h
      · rintro ⟨hdigits, hfits, _⟩
        have := (parseNumberFromArg_eq_some_iff arg _).mpr ⟨hdigits, hfits, rfl⟩
        rw [hparse] at this
        cases this
    | some n =>
      obtain ⟨hdigits, hfits, hn⟩ := (parseNumberFromArg_eq_some_iff arg n).mp hparse
      subst hn
      simp only [Option.some.injEq, hconv hfits]
      exact ⟨fun h => ⟨hdigits, hfits, h.symm⟩, fun h => h.2.2.symm⟩
  · intro p
    simp only [setMask]
    cases hparse : parseNumberFromArg arg with
    | none =>
      constructor
      · intro h
        cases h
      · rintro ⟨hoctal, hfits, _⟩
        have := (parseNumberFromArg_eq_some_iff arg _).mpr
          ⟨allDigits_of_allOctalDigits arg hoctal, hfits, rfl⟩
        rw [hparse] at this
        cases this
    | some n =>
      obtain ⟨hdigits, hfits, hn⟩ := (parseNumberFromArg_eq_some_iff arg n).mp hparse
      subst hn
      simp only [isCorrectMask_decimalValue arg hdigits]
      cases hoctal : allOctalDigits arg with
      | false =>
        constructor
        · intro h
          cases h
        · rintro ⟨h, _⟩
          cases h
      | true =>
        simp only [Option.some.injEq]
        exact ⟨fun h => ⟨trivial, hfits, h.symm⟩, fun h => h.2.2.symm⟩

/-- C26, counterexample: the argument `8` is a non-empty string of decimal
digits whose value fits in `int`, and `parseNumberFromArg` yields 8 for it, but
`setMask` rejects it, since 8 is not an octal digit. -/
theorem setMask_rejects_decimal_digit_string :
    isDecimalNumber "8".toList = true ∧
    (decimalValue "8".toList : Int) ≤ INT_MAX ∧
    parseNumberFromArg "8".toList = some 8 ∧
    setMask initParsedArguments "8".toList = none := by
  decide

theorem numeric_option_arguments_witness :
    "12".toList ≠ [] ∧
    ((∀ n : Int, parseNumberFromArg "12".toList = some n ↔
      (isDecimalNumber "12".toList = true ∧ (decimalValue "12".toList : Int) ≤ INT_MAX ∧
        n = decimalValue "12".toList)) ∧
    (∀ p, setMinDepth initParsedArguments "12".toList = some p ↔
      (isDecimalNumber "12".toList = true ∧ (decimalValue "12".toList : Int) ≤ INT_MAX ∧
        p = { initParsedArguments with
          setMinimalDepth := true, minimalDepth := decimalValue "12".toList })) ∧
    (∀ p, setMaxDepth initParsedArguments "12".toList = some p ↔
      (isDecimalNumber "12".toList = true ∧ (decimalValue "12".toList : Int) ≤ INT_MAX ∧
        p = { initParsedArguments with
          setMaximalDepth := true, maximalDepth := decimalValue "12".toList })) ∧
    (∀ p, setMask initParsedArguments "12".toList = some p ↔
      (isOctalNumber "12".toList = true ∧ (decimalValue "12".toList : Int) ≤ INT_MAX ∧
        p = { initParsedArguments with
          setMask := true, mask := decimalValue "12".toList }))) ∧
    decimalValue "12".toList = 12 ∧
    setMaxDepth initParsedArguments "12".toList =
      some { initParsedArguments with setMaximalDepth := true, maximalDepth := 12 } ∧
    setMask initParsedArguments " 12".toList = none ∧
    setMinDepth initParsedArguments "+12".toList = none :=
  ⟨by decide, numeric_option_arguments initParsedArguments "12".toList (by decide), by decide,
    by decide, by decide, by decide⟩

/-! ## The starting directory -/

/-- C27: the starting directory is not always the first argument that is
neither an option nor the value of an option.  After `-nfoo`, where the value
of `-n` is attached to the option, the second loop of `parseArguments` skips
the next argument `dir` as if it were that value, and the starting directory
stays `NULL`; after `-an foo`, where `-n` is not the first option of its
element, the loop does not skip the value `foo` and takes it as the starting
directory instead of `dir`.  Both vectors are accepted, with either `getopt`. -/
theorem start_directory_misses_first_operand (permute : Bool) :
    parseArguments sampleEnv permute initParsedArguments
        ["find".toList, "-nfoo".toList, "dir".toList] =
      some { initParsedArguments with
        setName := true, nameArg := some "foo".toList, startDirectory := none } ∧
    parseArguments sampleEnv permute initParsedArguments
        ["find".toList, "-an".toList, "foo".toList, "dir".toList] =
      some { initParsedArguments with
        setShowAll := true, setName := true, nameArg := some "foo".toList,
        startDirectory := some "foo".toList } ∧
    parseArguments sampleEnv permute initParsedArguments
        ["find".toList, "-n".toList, "foo".toList, "dir".toList, "other".toList] =
      some { initParsedArguments with
        setName := true, nameArg := some "foo".toList,
        startDirectory := some "dir".toList } := by
  cases permute <;> decide

end Find
